import Mathlib

/-!
Shallow embedding of the leveldb table engine and in-memory substrate
(JockerWong/leveldb), together with proofs of the specification claims.

Bytes are modelled as `Nat` values below 256, byte strings as `List Nat`,
machine integers as `Nat` with explicit `% 2 ^ w` where the code truncates.
Pointers into a buffer are modelled as indices; `char*` cursors returned by
the codec become byte counts consumed.
-/

namespace Leveldb

/-! ## Codec (util/coding.h; the bodies of the varint encoders and of the
decode fallback live in util/coding.cc, which is absent, and are modelled
from the spec). -/

/-- Modelled from the spec: coding.cc is absent. Shared core of
EncodeVarint32/EncodeVarint64: emit 7 bits per byte, low-order first, with
the high bit set on every byte except the last. -/
def encodeVarintCore (v : Nat) : List Nat :=
  if _h : v < 128 then [v] else (v % 128 + 128) :: encodeVarintCore (v / 128)
decreasing_by exact Nat.div_lt_self (by omega) (by norm_num)

/-- EncodeVarint32: the argument is a uint32, hence the explicit truncation. -/
def EncodeVarint32 (v : Nat) : List Nat := encodeVarintCore (v % 2 ^ 32)

/-- EncodeVarint64: the argument is a uint64. -/
def EncodeVarint64 (v : Nat) : List Nat := encodeVarintCore (v % 2 ^ 64)

/-- EncodeFixed32 (util/coding.h): little-endian 4-byte encoding. -/
def EncodeFixed32 (v : Nat) : List Nat :=
  [v % 256, v / 2 ^ 8 % 256, v / 2 ^ 16 % 256, v / 2 ^ 24 % 256]

/-- EncodeFixed64 (util/coding.h): little-endian 8-byte encoding. -/
def EncodeFixed64 (v : Nat) : List Nat :=
  [v % 256, v / 2 ^ 8 % 256, v / 2 ^ 16 % 256, v / 2 ^ 24 % 256,
   v / 2 ^ 32 % 256, v / 2 ^ 40 % 256, v / 2 ^ 48 % 256, v / 2 ^ 56 % 256]

/-- DecodeFixed32 (util/coding.h): reads the first 4 bytes of `bs`
(the buffer starting at `ptr`; no bounds checking, missing bytes read 0). -/
def DecodeFixed32 (bs : List Nat) : Nat :=
  bs.getD 0 0 + bs.getD 1 0 * 2 ^ 8 + bs.getD 2 0 * 2 ^ 16 + bs.getD 3 0 * 2 ^ 24

/-- DecodeFixed64 (util/coding.h): reads the first 8 bytes of `bs`. -/
def DecodeFixed64 (bs : List Nat) : Nat :=
  bs.getD 0 0 + bs.getD 1 0 * 2 ^ 8 + bs.getD 2 0 * 2 ^ 16 + bs.getD 3 0 * 2 ^ 24 +
  bs.getD 4 0 * 2 ^ 32 + bs.getD 5 0 * 2 ^ 40 + bs.getD 6 0 * 2 ^ 48 + bs.getD 7 0 * 2 ^ 56

/-- Modelled from the spec: coding.cc is absent. The shared decode loop of
GetVarint32PtrFallback / GetVarint64Ptr: read at most `maxB` bytes (5 for
32-bit, 10 for 64-bit) from the first `limit` readable bytes of `bs`,
accumulating 7 bits per byte, low-order first; fail on truncation or on
`maxB` bytes all with the high bit set. Returns the value and the number of
bytes consumed (`pos` is the count consumed so far). Elements of `bs` are
bytes, i.e. below 256. -/
def varintDecodeLoop : Nat → List Nat → Nat → Nat → Nat → Nat → Option (Nat × Nat)
  | 0, _, _, _, _, _ => none
  | _ + 1, _, 0, _, _, _ => none
  | _ + 1, [], _ + 1, _, _, _ => none
  | maxB + 1, b :: rest, limit + 1, shift, acc, pos =>
    if b < 128 then some (acc + b * 2 ^ shift, pos + 1)
    else varintDecodeLoop maxB rest limit (shift + 7) (acc + (b - 128) * 2 ^ shift) (pos + 1)

/-- Modelled from the spec: coding.cc is absent. Fallback path of
GetVarint32Ptr. -/
def GetVarint32PtrFallback (bs : List Nat) (limit : Nat) : Option (Nat × Nat) :=
  varintDecodeLoop 5 bs limit 0 0 0

/-- GetVarint32Ptr (util/coding.h): inline fast path for a single-byte
varint, otherwise the fallback. `bs` is the buffer starting at `p`,
`limit` the number of bytes before the limit pointer. -/
def GetVarint32Ptr (bs : List Nat) (limit : Nat) : Option (Nat × Nat) :=
  match bs, limit with
  | b :: _, _ + 1 =>
    if b < 128 then some (b, 1) else GetVarint32PtrFallback bs limit
  | _, _ => GetVarint32PtrFallback bs limit

/-- Modelled from the spec: coding.cc is absent. GetVarint64Ptr reads up to
10 bytes with no single-byte fast path. -/
def GetVarint64Ptr (bs : List Nat) (limit : Nat) : Option (Nat × Nat) :=
  varintDecodeLoop 10 bs limit 0 0 0

/-! ## Arena (util/arena.cc; the inline Arena::Allocate fast path lives in
the absent util/arena.h and is modelled from the spec). -/

/-- An address handed out by the arena: index of the owning block in
allocation order, and byte offset inside that block. -/
structure ArenaAddr where
  block : Nat
  offset : Nat
deriving DecidableEq

/-- Arena state (util/arena.cc): block sizes in allocation order, the bump
pointer (`alloc_ptr_`) as a block index plus offset, the bytes remaining in
the current block, and the `memory_usage_` counter. -/
structure Arena where
  blocks : List Nat
  allocBlock : Nat
  allocOffset : Nat
  allocBytesRemaining : Nat
  memoryUsage : Nat
deriving DecidableEq

def kArenaBlockSize : Nat := 4096

def Arena.init : Arena := ⟨[], 0, 0, 0, 0⟩

/-- Arena::AllocateNewBlock: allocate a block of `blockBytes` bytes, record
it, add `blockBytes + sizeof(char*)` to `memory_usage_` (64-bit platform:
`sizeof(char*) = 8`). Returns the new block's index. -/
def Arena.AllocateNewBlock (a : Arena) (blockBytes : Nat) : Arena × Nat :=
  ({ a with
      blocks := a.blocks ++ [blockBytes],
      memoryUsage := a.memoryUsage + blockBytes + 8 },
   a.blocks.length)

/-- Arena::AllocateFallback: objects over a quarter of the block size get a
private block (the bump pointer is untouched); otherwise a fresh 4096-byte
block replaces the current one and the old tail is abandoned. -/
def Arena.AllocateFallback (a : Arena) (bytes : Nat) : Arena × ArenaAddr :=
  if bytes > kArenaBlockSize / 4 then
    let p := a.AllocateNewBlock bytes
    (p.1, ⟨p.2, 0⟩)
  else
    let p := a.AllocateNewBlock kArenaBlockSize
    ({ p.1 with
        allocBlock := p.2,
        allocOffset := bytes,
        allocBytesRemaining := kArenaBlockSize - bytes },
     ⟨p.2, 0⟩)

/-- Modelled from the spec: the inline Arena::Allocate of the absent
util/arena.h returns from the current block when `bytes` fits in the
remaining space, else falls back to AllocateFallback. -/
def Arena.Allocate (a : Arena) (bytes : Nat) : Arena × ArenaAddr :=
  if bytes ≤ a.allocBytesRemaining then
    ({ a with
        allocOffset := a.allocOffset + bytes,
        allocBytesRemaining := a.allocBytesRemaining - bytes },
     ⟨a.allocBlock, a.allocOffset⟩)
  else
    a.AllocateFallback bytes

/-! ## Filter block (table/filter_block.cc). A FilterPolicy is the external
collaborator: `createFilter` is the bytes CreateFilter appends for a key
list, `keyMayMatch` its probe. -/

structure FilterPolicy where
  name : List Nat
  createFilter : List (List Nat) → List Nat
  keyMayMatch : List Nat → List Nat → Bool

def kFilterBaseLg : Nat := 11

def kFilterBase : Nat := 2 ^ kFilterBaseLg

/-- FilterBlockBuilder state: the policy pointer, the flattened pending key
bytes `keys_`, their start offsets `start_`, the filter bytes `result_` and
the per-filter offsets `filter_offsets_`. -/
structure FilterBlockBuilder where
  policy : FilterPolicy
  keys : List Nat
  start : List Nat
  result : List Nat
  filterOffsets : List Nat

def FilterBlockBuilder.init (policy : FilterPolicy) : FilterBlockBuilder :=
  ⟨policy, [], [], [], []⟩

/-- FilterBlockBuilder::GenerateFilter: emit one filter for the pending keys
(an empty filter — offset only — when no keys are pending), then clear the
pending keys. `tmp_keys_` is reconstructed by slicing `keys_` at `start_`. -/
def FilterBlockBuilder.GenerateFilter (b : FilterBlockBuilder) : FilterBlockBuilder :=
  let numKeys := b.start.length
  if numKeys = 0 then
    { b with filterOffsets := b.filterOffsets ++ [b.result.length] }
  else
    let starts := b.start ++ [b.keys.length]
    let tmpKeys := (List.range numKeys).map fun i =>
      (b.keys.drop (starts.getD i 0)).take (starts.getD (i + 1) 0 - starts.getD i 0)
    { b with
        keys := [], start := [],
        result := b.result ++ b.policy.createFilter tmpKeys,
        filterOffsets := b.filterOffsets ++ [b.result.length] }

/-- The `while (filter_index > filter_offsets_.size()) GenerateFilter()`
loop of StartBlock; each round appends exactly one offset, so `filterIndex`
rounds of fuel always suffice. -/
def FilterBlockBuilder.startBlockGo : Nat → Nat → FilterBlockBuilder → FilterBlockBuilder
  | 0, _, b => b
  | fuel + 1, filterIndex, b =>
    if b.filterOffsets.length < filterIndex then
      FilterBlockBuilder.startBlockGo fuel filterIndex (b.GenerateFilter)
    else b

/-- FilterBlockBuilder::StartBlock. Requires (assert) that
`blockOffset / kFilterBase` is at least the number of emitted filters. -/
def FilterBlockBuilder.StartBlock (b : FilterBlockBuilder) (blockOffset : Nat) :
    FilterBlockBuilder :=
  FilterBlockBuilder.startBlockGo (blockOffset / kFilterBase) (blockOffset / kFilterBase) b

/-- FilterBlockBuilder::AddKey. -/
def FilterBlockBuilder.AddKey (b : FilterBlockBuilder) (key : List Nat) : FilterBlockBuilder :=
  { b with start := b.start ++ [b.keys.length], keys := b.keys ++ key }

/-- FilterBlockBuilder::Finish: flush pending keys, append the per-filter
offset array, its own offset, and the base log. -/
def FilterBlockBuilder.Finish (b : FilterBlockBuilder) : List Nat :=
  let b1 := if b.start.length ≠ 0 then b.GenerateFilter else b
  let arrayOffset := b1.result.length
  b1.result ++ (b1.filterOffsets.map EncodeFixed32).flatten
    ++ EncodeFixed32 arrayOffset ++ [kFilterBaseLg]

/-- FilterBlockReader state after the constructor has parsed `contents`:
`data_` (the whole block, empty when the constructor bailed out), the
offset-array position `offset_ - data_`, the filter count `num_` and
`base_lg_`. -/
structure FilterBlockReader where
  policy : FilterPolicy
  data : List Nat
  offsetStart : Nat
  num : Nat
  baseLg : Nat

/-- FilterBlockReader constructor: parse trailing base_lg byte and
offset-array offset; on malformed contents leave `num_ = 0`. -/
def FilterBlockReader.init (policy : FilterPolicy) (contents : List Nat) :
    FilterBlockReader :=
  let n := contents.length
  if n < 5 then ⟨policy, [], 0, 0, 0⟩
  else
    let baseLg := contents.getD (n - 1) 0
    let lastWord := DecodeFixed32 (contents.drop (n - 5))
    if lastWord > n - 5 then ⟨policy, [], 0, 0, baseLg⟩
    else ⟨policy, contents, lastWord, (n - 5 - lastWord) / 4, baseLg⟩

/-- FilterBlockReader::KeyMayMatch. -/
def FilterBlockReader.KeyMayMatch (r : FilterBlockReader) (blockOffset : Nat)
    (key : List Nat) : Bool :=
  let index := blockOffset / 2 ^ r.baseLg
  if index < r.num then
    let start := DecodeFixed32 (r.data.drop (r.offsetStart + index * 4))
    let limit := DecodeFixed32 (r.data.drop (r.offsetStart + index * 4 + 4))
    if start ≤ limit ∧ limit ≤ r.offsetStart then
      r.policy.keyMayMatch key ((r.data.drop start).take (limit - start))
    else if start = limit then false
    else true
  else true

/-! ## Block builder (table/block_builder.h; block_builder.cc is absent, the
operation bodies are modelled from the spec). -/

def commonPrefixLen : List Nat → List Nat → Nat
  | a :: as, b :: bs => if a = b then commonPrefixLen as bs + 1 else 0
  | _, _ => 0

structure BlockBuilder where
  buffer : List Nat
  restarts : List Nat
  counter : Nat
  finished : Bool
  lastKey : List Nat
deriving DecidableEq

/-- Modelled from the spec: the constructor / Reset state — empty buffer,
first restart point at offset 0. -/
def BlockBuilder.init : BlockBuilder := ⟨[], [0], 0, false, []⟩

/-- Modelled from the spec: BlockBuilder::Add — prefix-compress against
`last_key_` while fewer than `interval` entries since the restart, else
record a new restart point; append the three varints and the tail bytes.
`interval` is the options' block_restart_interval. -/
def BlockBuilder.Add (b : BlockBuilder) (interval : Nat) (key value : List Nat) :
    BlockBuilder :=
  if b.counter < interval then
    let shared := commonPrefixLen b.lastKey key
    { b with
        buffer := b.buffer ++ EncodeVarint32 shared
          ++ EncodeVarint32 (key.length - shared) ++ EncodeVarint32 value.length
          ++ key.drop shared ++ value,
        lastKey := key, counter := b.counter + 1 }
  else
    { b with
        buffer := b.buffer ++ EncodeVarint32 0 ++ EncodeVarint32 key.length
          ++ EncodeVarint32 value.length ++ key ++ value,
        restarts := b.restarts ++ [b.buffer.length],
        lastKey := key, counter := 1 }

/-- Modelled from the spec: BlockBuilder::Finish appends the restart offsets
as fixed32 and then the fixed32 restart count. -/
def BlockBuilder.Finish (b : BlockBuilder) : List Nat :=
  b.buffer ++ (b.restarts.map EncodeFixed32).flatten ++ EncodeFixed32 b.restarts.length

/-- Modelled from the spec: the size estimate of the block being built
(buffer, restart array, restart count). -/
def BlockBuilder.CurrentSizeEstimate (b : BlockBuilder) : Nat :=
  b.buffer.length + b.restarts.length * 4 + 4

/-! ## SSTable writer (table/table_builder.cc). The comparator, the filter
policy, Snappy and crc32c are external collaborators passed as functions;
crc32c::Mask is modelled from the spec. -/

/-- A user-supplied comparator: three-way compare plus the two
key-shortening hooks. -/
structure Comparator where
  cmp : List Nat → List Nat → Int
  findShortestSeparator : List Nat → List Nat → List Nat
  findShortSuccessor : List Nat → List Nat

/-- Block handle (table/format.h): offset and size of a stored block. -/
structure BlockHandle where
  offset : Nat
  size : Nat
deriving DecidableEq

/-- Modelled from the spec: BlockHandle::EncodeTo (format.cc is absent) —
varint64 offset then varint64 size. -/
def BlockHandle.EncodeTo (h : BlockHandle) : List Nat :=
  EncodeVarint64 h.offset ++ EncodeVarint64 h.size

def kNoCompression : Nat := 0

def kSnappyCompression : Nat := 1

def kBlockTrailerSize : Nat := 5

/-- Modelled from the spec: crc32c::Mask —
`((crc >> 15) | (crc << 17)) + 0xa282ead8` over uint32. -/
def crcMask (c : Nat) : Nat :=
  (c % 2 ^ 32 / 2 ^ 15 + c % 2 ^ 15 * 2 ^ 17 + 0xa282ead8) % 2 ^ 32

/-- The slice of Options consumed by TableBuilder. -/
structure TBOptions where
  blockRestartInterval : Nat
  blockSize : Nat
  compression : Nat
deriving DecidableEq

/-- External collaborators of the table builder: comparator hooks, optional
filter policy, `port::Snappy_Compress` (None = not supported / failed) and
crc32c (Value, Extend). -/
structure TBEnv where
  comparator : Comparator
  policy : Option FilterPolicy
  snappyCompress : List Nat → Option (List Nat)
  crcValue : List Nat → Nat
  crcExtend : Nat → List Nat → Nat

/-- TableBuilder::Rep. The WritableFile is the byte list `file` (appends
cannot fail in the model, so `status` is always ok and omitted). -/
structure TableBuilderRep where
  options : TBOptions
  file : List Nat
  offset : Nat
  dataBlock : BlockBuilder
  indexBlock : BlockBuilder
  lastKey : List Nat
  numEntries : Nat
  closed : Bool
  filterBlock : Option FilterBlockBuilder
  pendingIndexEntry : Bool
  pendingHandle : BlockHandle

/-- TableBuilder constructor: fresh Rep; with a filter policy, a filter
block builder on which StartBlock(0) has been called. -/
def TableBuilderRep.init (opts : TBOptions) (env : TBEnv) : TableBuilderRep :=
  { options := opts, file := [], offset := 0,
    dataBlock := BlockBuilder.init, indexBlock := BlockBuilder.init,
    lastKey := [], numEntries := 0, closed := false,
    filterBlock := env.policy.map fun p => (FilterBlockBuilder.init p).StartBlock 0,
    pendingIndexEntry := false, pendingHandle := ⟨0, 0⟩ }

/-- Events observed while driving the table builder: an index-block entry
was added; a data block was flushed to the file. -/
inductive TBEvent where
  | indexEntry : TBEvent
  | dataFlush : TBEvent
deriving DecidableEq

/-- TableBuilder::WriteRawBlock: record the handle, append the contents and
the 5-byte trailer (type byte then masked crc of contents+type), advance the
offset. -/
def TableBuilderRep.WriteRawBlock (r : TableBuilderRep) (env : TBEnv)
    (blockContents : List Nat) (type : Nat) : TableBuilderRep × BlockHandle :=
  let handle : BlockHandle := ⟨r.offset, blockContents.length⟩
  let crc := env.crcExtend (env.crcValue blockContents) [type]
  ({ r with
      file := r.file ++ blockContents ++ type :: EncodeFixed32 (crcMask crc),
      offset := r.offset + blockContents.length + kBlockTrailerSize },
   handle)

/-- TableBuilder::WriteBlock: finish the block, optionally Snappy-compress
(keeping the compressed form only when it is smaller than
`raw - raw/8`), write it raw, reset the builder. Returns the updated rep,
the reset builder and the block's handle. -/
def TableBuilderRep.WriteBlock (r : TableBuilderRep) (env : TBEnv)
    (block : BlockBuilder) : TableBuilderRep × BlockBuilder × BlockHandle :=
  let raw := block.Finish
  let contentsType : List Nat × Nat :=
    if r.options.compression = kSnappyCompression then
      match env.snappyCompress raw with
      | some compressed =>
        if compressed.length < raw.length - raw.length / 8 then
          (compressed, kSnappyCompression)
        else (raw, kNoCompression)
      | none => (raw, kNoCompression)
    else (raw, kNoCompression)
  let w := r.WriteRawBlock env contentsType.1 contentsType.2
  (w.1, BlockBuilder.init, w.2)

/-- TableBuilder::Flush: write the data block if non-empty, mark the index
entry pending, tell the filter block about the next block offset. -/
def TableBuilderRep.Flush (r : TableBuilderRep) (env : TBEnv) :
    TableBuilderRep × List TBEvent :=
  if r.dataBlock.buffer = [] then (r, [])
  else
    let w := r.WriteBlock env r.dataBlock
    let r1 := { w.1 with
        dataBlock := w.2.1,
        pendingIndexEntry := true,
        pendingHandle := w.2.2 }
    let r2 := match r1.filterBlock with
      | none => r1
      | some fb => { r1 with filterBlock := some (fb.StartBlock r1.offset) }
    (r2, [TBEvent.dataFlush])

/-- TableBuilder::Add: emit the pending index entry (with a shortened
separator key) if any, feed the filter block, append to the data block, and
flush once the estimated block size reaches block_size. -/
def TableBuilderRep.Add (r : TableBuilderRep) (env : TBEnv)
    (key value : List Nat) : TableBuilderRep × List TBEvent :=
  let p1 : TableBuilderRep × List TBEvent :=
    if r.pendingIndexEntry then
      let sep := env.comparator.findShortestSeparator r.lastKey key
      ({ r with
          lastKey := sep,
          indexBlock := r.indexBlock.Add 1 sep (r.pendingHandle.EncodeTo),
          pendingIndexEntry := false },
       [TBEvent.indexEntry])
    else (r, [])
  let r1 := p1.1
  let r2 := match r1.filterBlock with
    | none => r1
    | some fb => { r1 with filterBlock := some (fb.AddKey key) }
  let r3 := { r2 with
      lastKey := key,
      numEntries := r2.numEntries + 1,
      dataBlock := r2.dataBlock.Add r2.options.blockRestartInterval key value }
  if r3.options.blockSize ≤ r3.dataBlock.CurrentSizeEstimate then
    let f := r3.Flush env
    (f.1, p1.2 ++ f.2)
  else (r3, p1.2)

/-- Modelled from the spec: the 48-byte footer (format.cc is absent) — the
two handles padded with zeroes to 40 bytes, then the little-endian magic. -/
def footerEncode (metaindexHandle indexHandle : BlockHandle) : List Nat :=
  let handles := metaindexHandle.EncodeTo ++ indexHandle.EncodeTo
  (handles ++ List.replicate (40 - handles.length) 0) ++ EncodeFixed64 0xdb4775248b80fb57

/-- The bytes of "filter." prefixed to the policy name in the metaindex. -/
def filterKeyStem : List Nat := [102, 105, 108, 116, 101, 114, 46]

/-- TableBuilder::Finish: flush trailing data, write the filter block
uncompressed, the metaindex block, the last index entry (short successor of
the last key) and the index block, then the footer. -/
def TableBuilderRep.Finish (r : TableBuilderRep) (env : TBEnv) :
    TableBuilderRep × List TBEvent :=
  let f := r.Flush env
  let r1 := { f.1 with closed := true }
  let pFilter : TableBuilderRep × BlockHandle :=
    match r1.filterBlock with
    | none => (r1, ⟨0, 0⟩)
    | some fb => r1.WriteRawBlock env fb.Finish kNoCompression
  let r2 := pFilter.1
  let metaIndexBlock : BlockBuilder :=
    match r2.filterBlock with
    | none => BlockBuilder.init
    | some fb =>
      BlockBuilder.init.Add r2.options.blockRestartInterval
        (filterKeyStem ++ fb.policy.name) (pFilter.2.EncodeTo)
  let pMeta := r2.WriteBlock env metaIndexBlock
  let r3 := pMeta.1
  let pIndex : TableBuilderRep × List TBEvent :=
    if r3.pendingIndexEntry then
      let succ := env.comparator.findShortSuccessor r3.lastKey
      ({ r3 with
          lastKey := succ,
          indexBlock := r3.indexBlock.Add 1 succ (r3.pendingHandle.EncodeTo),
          pendingIndexEntry := false },
       [TBEvent.indexEntry])
    else (r3, [])
  let pIdxWrite := pIndex.1.WriteBlock env pIndex.1.indexBlock
  let r4 := { pIdxWrite.1 with indexBlock := pIdxWrite.2.1 }
  let footer := footerEncode pMeta.2.2 pIdxWrite.2.2
  ({ r4 with file := r4.file ++ footer, offset := r4.offset + footer.length },
   f.2 ++ pIndex.2)

/-- One externally-driven table builder step (Add with its precondition
that keys arrive in strictly increasing comparator order, Flush, Finish);
all require the builder not to be closed. -/
inductive TBStep (env : TBEnv) : TableBuilderRep → TableBuilderRep → List TBEvent → Prop
  | add (r : TableBuilderRep) (key value : List Nat) (hclosed : r.closed = false)
      (horder : r.numEntries > 0 → 0 < env.comparator.cmp key r.lastKey) :
      TBStep env r (r.Add env key value).1 (r.Add env key value).2
  | flush (r : TableBuilderRep) (hclosed : r.closed = false) :
      TBStep env r (r.Flush env).1 (r.Flush env).2
  | finish (r : TableBuilderRep) (hclosed : r.closed = false) :
      TBStep env r (r.Finish env).1 (r.Finish env).2

/-- States of the table builder reachable from construction, together with
the accumulated event trace. -/
inductive TBReach (env : TBEnv) : TableBuilderRep → List TBEvent → Prop
  | init (opts : TBOptions) : TBReach env (TableBuilderRep.init opts env) []
  | step (r : TableBuilderRep) (evs : List TBEvent) (r2 : TableBuilderRep)
      (ev : List TBEvent) : TBReach env r evs → TBStep env r r2 ev →
      TBReach env r2 (evs ++ ev)

/-! ## LRU cache shard (util/cache.cc). One shard (class LRUCache) with its
HandleTable. Handles live in a heap indexed by allocation order; a freed
handle's slot becomes `none`. The deleter callback is not modelled beyond
the handle disappearing from the heap. The hash table's bucket array is
flattened to the list of stored handle ids: Insert-with-replacement,
Lookup and Remove keep the `(key, hash)`-map semantics of HandleTable. -/

/-- LRUHandle: value, charge, key bytes, hash, `in_cache`, `refs`. -/
structure LRUHandle where
  value : Nat
  charge : Nat
  key : List Nat
  hash : Nat
  inCache : Bool
  refs : Nat
deriving DecidableEq

/-- Dereference a handle id (slot index) in the heap. -/
def heapGet (heap : List (Option LRUHandle)) (i : Nat) : Option LRUHandle :=
  heap.getD i none

/-- Unlink an id from a linked list (LRU_Remove). -/
def listRemove (l : List Nat) (i : Nat) : List Nat := l.filter (fun j => j != i)

/-- HandleTable::FindPointer match: same hash, then same key. -/
def handleMatches (heap : List (Option LRUHandle)) (key : List Nat) (hash : Nat)
    (i : Nat) : Bool :=
  match heapGet heap i with
  | some h => h.hash == hash && h.key == key
  | none => false

/-- HandleTable::Remove: unlink and return the matching handle, if any. -/
def tableRemove (table : List Nat) (heap : List (Option LRUHandle))
    (key : List Nat) (hash : Nat) : List Nat × Option Nat :=
  match table.find? (handleMatches heap key hash) with
  | some old => (listRemove table old, some old)
  | none => (table, none)

/-- HandleTable::Insert: splice the new id into the slot of a matching old
handle (returning the old one) or append it. -/
def tableInsert (table : List Nat) (heap : List (Option LRUHandle))
    (newId : Nat) (key : List Nat) (hash : Nat) : List Nat × Option Nat :=
  match table.find? (handleMatches heap key hash) with
  | some old => (table.map fun j => if j = old then newId else j, some old)
  | none => (table ++ [newId], none)

/-- One LRU shard: capacity, usage, the two lists (front = oldest entry,
i.e. `lru_.next`; back = newest), the hash table and the handle heap. -/
structure LRUCache where
  capacity : Nat
  usage : Nat
  lru : List Nat
  inUse : List Nat
  table : List Nat
  heap : List (Option LRUHandle)
deriving DecidableEq

def LRUCache.empty (capacity : Nat) : LRUCache := ⟨capacity, 0, [], [], [], []⟩

/-- LRUCache::Ref: a handle acquiring its first external reference moves
from lru_ to the back of in_use_; then refs++. -/
def LRUCache.Ref (s : LRUCache) (i : Nat) : LRUCache :=
  match heapGet s.heap i with
  | none => s
  | some h =>
    let s1 :=
      if h.refs = 1 ∧ h.inCache = true then
        { s with lru := listRemove s.lru i, inUse := listRemove s.inUse i ++ [i] }
      else s
    { s1 with heap := s1.heap.set i (some { h with refs := h.refs + 1 }) }

/-- LRUCache::Unref: refs--; free the handle at zero; a cached handle
losing its last external reference moves to the back of lru_. -/
def LRUCache.Unref (s : LRUCache) (i : Nat) : LRUCache :=
  match heapGet s.heap i with
  | none => s
  | some h =>
    if h.refs - 1 = 0 then { s with heap := s.heap.set i none }
    else if h.inCache = true ∧ h.refs - 1 = 1 then
      { s with
          lru := listRemove s.lru i ++ [i],
          inUse := listRemove s.inUse i,
          heap := s.heap.set i (some { h with refs := h.refs - 1 }) }
    else { s with heap := s.heap.set i (some { h with refs := h.refs - 1 }) }

/-- LRUCache::FinishErase on a handle already removed from the hash table:
unlink from its list, clear in_cache, subtract the charge, Unref. -/
def LRUCache.FinishErase (s : LRUCache) (o : Option Nat) : LRUCache :=
  match o with
  | none => s
  | some i =>
    match heapGet s.heap i with
    | none => s
    | some h =>
      LRUCache.Unref
        { s with
            lru := listRemove s.lru i,
            inUse := listRemove s.inUse i,
            heap := s.heap.set i (some { h with inCache := false }),
            usage := s.usage - h.charge } i

/-- The composite `FinishErase(table_.Remove(key, hash))`. -/
def LRUCache.eraseByKey (s : LRUCache) (key : List Nat) (hash : Nat) : LRUCache :=
  let rem := tableRemove s.table s.heap key hash
  ({ s with table := rem.1 }).FinishErase rem.2

/-- LRUCache::Lookup: hash-table lookup plus Ref. -/
def LRUCache.Lookup (s : LRUCache) (key : List Nat) (hash : Nat) :
    LRUCache × Option Nat :=
  match s.table.find? (handleMatches s.heap key hash) with
  | some i => (s.Ref i, some i)
  | none => (s, none)

/-- LRUCache::Release. -/
def LRUCache.Release (s : LRUCache) (i : Nat) : LRUCache := s.Unref i

/-- LRUCache::Erase. -/
def LRUCache.Erase (s : LRUCache) (key : List Nat) (hash : Nat) : LRUCache :=
  s.eraseByKey key hash

/-- The `while (usage_ > capacity_ && lru_.next != &lru_)` eviction loop of
Insert; each round erases the oldest lru_ entry, so `lru.length` rounds of
fuel always suffice. -/
def LRUCache.evictLoop : Nat → LRUCache → LRUCache
  | 0, s => s
  | fuel + 1, s =>
    if s.capacity < s.usage ∧ s.lru ≠ [] then
      match s.lru with
      | [] => s
      | old :: _ =>
        match heapGet s.heap old with
        | none => s
        | some h => LRUCache.evictLoop fuel (s.eraseByKey h.key h.hash)
    else s

/-- LRUCache::Insert: allocate the handle (refs = 1 for the caller); when
`capacity > 0` take the cache's reference, append to in_use_, add the
charge, insert into the table finishing off a displaced duplicate; then
evict from the cold end of lru_ while over capacity. Returns the new id. -/
def LRUCache.Insert (s : LRUCache) (key : List Nat) (hash value charge : Nat) :
    LRUCache × Nat :=
  let i := s.heap.length
  let s1 :=
    if 0 < s.capacity then
      let e : LRUHandle := ⟨value, charge, key, hash, true, 2⟩
      let s2 := { s with
          heap := s.heap ++ [some e],
          inUse := s.inUse ++ [i],
          usage := s.usage + charge }
      let ins := tableInsert s2.table s2.heap i key hash
      ({ s2 with table := ins.1 }).FinishErase ins.2
    else
      { s with heap := s.heap ++ [some ⟨value, charge, key, hash, false, 1⟩] }
  (LRUCache.evictLoop s1.lru.length s1, i)

/-- The `while (lru_.next != &lru_)` loop of Prune. -/
def LRUCache.pruneLoop : Nat → LRUCache → LRUCache
  | 0, s => s
  | fuel + 1, s =>
    match s.lru with
    | [] => s
    | old :: _ =>
      match heapGet s.heap old with
      | none => s
      | some h => LRUCache.pruneLoop fuel (s.eraseByKey h.key h.hash)

/-- LRUCache::Prune. -/
def LRUCache.Prune (s : LRUCache) : LRUCache := s.pruneLoop s.lru.length

/-- The charge a heap slot contributes to `usage_`. -/
def entryCharge : Option LRUHandle → Nat
  | some h => if h.inCache then h.charge else 0
  | none => 0

/-- Total charge of the cached handles. -/
def cacheCharges (heap : List (Option LRUHandle)) : Nat :=
  (heap.map entryCharge).sum

/-- Shard states reachable from the empty shard. A Release step requires
the released handle to carry an external reference (the caller owns one):
refs ≥ 2 when cached, refs ≥ 1 when already erased from the cache. -/
inductive LRUReach (C : Nat) : LRUCache → Prop
  | empty : LRUReach C (LRUCache.empty C)
  | insert (s : LRUCache) (key : List Nat) (hash value charge : Nat) :
      LRUReach C s → LRUReach C (s.Insert key hash value charge).1
  | lookup (s : LRUCache) (key : List Nat) (hash : Nat) :
      LRUReach C s → LRUReach C (s.Lookup key hash).1
  | release (s : LRUCache) (i : Nat) (h : LRUHandle) : LRUReach C s →
      heapGet s.heap i = some h →
      (h.inCache = true → 2 ≤ h.refs) →
      LRUReach C (s.Release i)
  | erase (s : LRUCache) (key : List Nat) (hash : Nat) :
      LRUReach C s → LRUReach C (s.Erase key hash)
  | prune (s : LRUCache) : LRUReach C s → LRUReach C s.Prune

/-- Shard states reachable under the disciplined client of the amended C4:
every charge is at most the capacity, and at the start of every Insert no
handle carries an external reference (each handle returned by Insert or
Lookup has been Released before the next Insert). -/
inductive LRUReachQ (C : Nat) : LRUCache → Prop
  | empty : LRUReachQ C (LRUCache.empty C)
  | insert (s : LRUCache) (key : List Nat) (hash value charge : Nat) :
      LRUReachQ C s → charge ≤ C →
      (∀ i h, heapGet s.heap i = some h →
        h.refs ≤ if h.inCache then 1 else 0) →
      LRUReachQ C (s.Insert key hash value charge).1
  | lookup (s : LRUCache) (key : List Nat) (hash : Nat) :
      LRUReachQ C s → LRUReachQ C (s.Lookup key hash).1
  | release (s : LRUCache) (i : Nat) (h : LRUHandle) : LRUReachQ C s →
      heapGet s.heap i = some h →
      (h.inCache = true → 2 ≤ h.refs) →
      LRUReachQ C (s.Release i)
  | erase (s : LRUCache) (key : List Nat) (hash : Nat) :
      LRUReachQ C s → LRUReachQ C (s.Erase key hash)
  | prune (s : LRUCache) : LRUReachQ C s → LRUReachQ C s.Prune

/-- Well-formedness of a shard: the two lists are exactly the cached
handles with refs = 1 (lru_) resp. refs ≥ 2 (in_use_); the table holds
exactly the cached handles, at most one per (key, hash); live handles keep
refs ≥ 1; usage_ is the total cached charge. -/
structure LRUWF (s : LRUCache) : Prop where
  lruNodup : s.lru.Nodup
  inUseNodup : s.inUse.Nodup
  lruSpec : ∀ i, i ∈ s.lru ↔
    ∃ h, heapGet s.heap i = some h ∧ h.inCache = true ∧ h.refs = 1
  inUseSpec : ∀ i, i ∈ s.inUse ↔
    ∃ h, heapGet s.heap i = some h ∧ h.inCache = true ∧ 2 ≤ h.refs
  refsPos : ∀ i h, heapGet s.heap i = some h → 1 ≤ h.refs
  tableSpec : ∀ i, i ∈ s.table ↔
    ∃ h, heapGet s.heap i = some h ∧ h.inCache = true
  tableNodup : s.table.Nodup
  tableUnique : ∀ i j hi hj, i ∈ s.table → j ∈ s.table →
    heapGet s.heap i = some hi → heapGet s.heap j = some hj →
    hi.key = hj.key → hi.hash = hj.hash → i = j
  usageSpec : s.usage = cacheCharges s.heap

/-! ## Skiplist (db/skiplist.h). The arena is modelled by the
allocation-ordered node list; pointers are indices. In traversal positions
`none` stands for head_, in next links `none` stands for nullptr (the
traversal pointer never becomes null: it only advances onto real nodes).
RandomHeight's coin flips enter as an explicit height argument. -/

def kMaxHeight : Nat := 12

structure SLNode (K : Type) where
  key : K
  next : List (Option Nat)

structure SkipList (K : Type) where
  nodes : List (SLNode K)
  headNext : List (Option Nat)
  maxHeight : Nat

/-- The freshly constructed list: head_ with all next pointers null,
max_height_ = 1. -/
def SkipList.empty (K : Type) : SkipList K :=
  ⟨[], List.replicate kMaxHeight none, 1⟩

/-- `x->Next(lvl)` for a traversal pointer (`none` = head_). -/
def nodeNext {K : Type} (s : SkipList K) (x : Option Nat) (lvl : Nat) :
    Option Nat :=
  match x with
  | none => s.headNext.getD lvl none
  | some i =>
    match s.nodes.get? i with
    | none => none
    | some nd => nd.next.getD lvl none

def keyAt? {K : Type} (s : SkipList K) (i : Nat) : Option K :=
  (s.nodes.get? i).map SLNode.key

def nodeHeight {K : Type} (s : SkipList K) (i : Nat) : Nat :=
  match s.nodes.get? i with
  | none => 0
  | some nd => nd.next.length

/-- KeyIsAfterNode: a null node is infinite; otherwise
`compare_(n->key, key) < 0`. -/
def keyIsAfterNode {K : Type} (cmp : K → K → Int) (s : SkipList K) (key : K)
    (n : Option Nat) : Bool :=
  match n with
  | none => false
  | some i =>
    match s.nodes.get? i with
    | none => false
    | some nd => decide (cmp nd.key key < 0)

/-- The within-level `x = next` advance of FindGreaterOrEqual's loop; the
chain length bounds the iteration count, fuel makes it structural. -/
def walkLevel {K : Type} (cmp : K → K → Int) (s : SkipList K) (key : K) :
    Nat → Option Nat → Nat → Option Nat
  | 0, x, _ => x
  | fuel + 1, x, lvl =>
    if keyIsAfterNode cmp s key (nodeNext s x lvl) then
      walkLevel cmp s key fuel (nodeNext s x lvl) lvl
    else x

/-- The level-descending part of FindGreaterOrEqual: walk within the level,
record prev[level], descend; at level 0 return the next node. -/
def findGEGo {K : Type} (cmp : K → K → Int) (s : SkipList K) (key : K) :
    Nat → Option Nat → (Nat → Option Nat) → Option Nat × (Nat → Option Nat)
  | 0, x, prev =>
    let x1 := walkLevel cmp s key (s.nodes.length + 1) x 0
    (nodeNext s x1 0, fun j => if j = 0 then x1 else prev j)
  | l + 1, x, prev =>
    let x1 := walkLevel cmp s key (s.nodes.length + 1) x (l + 1)
    findGEGo cmp s key l x1 (fun j => if j = l + 1 then x1 else prev j)

/-- SkipList::FindGreaterOrEqual, returning the found node and the prev
array (prev defaults to head_, matching the levels the C++ code
initializes before use). -/
def FindGreaterOrEqual {K : Type} (cmp : K → K → Int) (s : SkipList K)
    (key : K) : Option Nat × (Nat → Option Nat) :=
  findGEGo cmp s key (s.maxHeight - 1) none (fun _ => none)

/-- SkipList::Contains. -/
def SkipList.Contains {K : Type} (cmp : K → K → Int) (s : SkipList K)
    (key : K) : Bool :=
  match (FindGreaterOrEqual cmp s key).1 with
  | none => false
  | some i =>
    match s.nodes.get? i with
    | none => false
    | some nd => decide (cmp key nd.key = 0)

/-- `p->SetNext(lvl, tgt)` (p is head_ when `none`). -/
def slSetLink {K : Type} (s : SkipList K) (p : Option Nat) (lvl : Nat)
    (tgt : Option Nat) : SkipList K :=
  match p with
  | none => { s with headNext := s.headNext.set lvl tgt }
  | some pi =>
    match s.nodes.get? pi with
    | none => s
    | some nd =>
      { s with nodes := s.nodes.set pi { nd with next := nd.next.set lvl tgt } }

/-- SkipList::Insert with the RandomHeight outcome as an argument: find the
prev array, raise max_height_ if needed (the extended prev levels are
head_, which is the prev function's default), allocate the node with its
next pointers read from prev, then link it in at each level. -/
def SkipList.Insert {K : Type} (cmp : K → K → Int) (s : SkipList K) (key : K)
    (height : Nat) : SkipList K :=
  let prev := (FindGreaterOrEqual cmp s key).2
  let nid := s.nodes.length
  let s1 : SkipList K := { s with
    maxHeight := if s.maxHeight < height then height else s.maxHeight,
    nodes := s.nodes
      ++ [⟨key, (List.range height).map fun i => nodeNext s (prev i) i⟩] }
  (List.range height).foldl (fun acc i => slSetLink acc (prev i) i (some nid))
    s1

/-- Iterator: SeekToFirst then repeated Next, collecting keys. -/
def iterFrom {K : Type} (s : SkipList K) : Nat → Option Nat → List K
  | 0, _ => []
  | _ + 1, none => []
  | fuel + 1, some i =>
    match s.nodes.get? i with
    | none => []
    | some nd => nd.key :: iterFrom s fuel (nd.next.getD 0 none)

def iterKeys {K : Type} (s : SkipList K) : List K :=
  iterFrom s (s.nodes.length + 1) (nodeNext s none 0)

def insertAll {K : Type} (cmp : K → K → Int) (s : SkipList K)
    (kvs : List (K × Nat)) : SkipList K :=
  kvs.foldl (fun acc kv => acc.Insert cmp kv.1 kv.2) s

/-- The comparator contract (a total preorder presented as a three-way
compare): antisymmetry of the sign, transitivity of <, and substitution of
equals on the left of <. -/
structure CmpOK {K : Type} (cmp : K → K → Int) : Prop where
  asymm : ∀ a b, cmp a b < 0 ↔ 0 < cmp b a
  lt_trans : ∀ a b c, cmp a b < 0 → cmp b c < 0 → cmp a c < 0
  eq_left : ∀ a b c, cmp a b = 0 → cmp a c < 0 → cmp b c < 0

/-- Node i's key compares below node j's key. -/
def ltAt {K : Type} (cmp : K → K → Int) (s : SkipList K) (i j : Nat) : Prop :=
  ∃ ki kj, keyAt? s i = some ki ∧ keyAt? s j = some kj ∧ cmp ki kj < 0

/-- Node i's key compares below k. -/
def ltKey {K : Type} (cmp : K → K → Int) (s : SkipList K) (i : Nat) (k : K) :
    Prop :=
  ∃ ki, keyAt? s i = some ki ∧ cmp ki k < 0

/-- The successive level-`lvl` links from pointer x traverse exactly the
nodes `c` and end at null. -/
inductive LinksAt {K : Type} (s : SkipList K) (lvl : Nat) :
    Option Nat → List Nat → Prop
  | nil {x} : nodeNext s x lvl = none → LinksAt s lvl x []
  | cons {x j c} : nodeNext s x lvl = some j → LinksAt s lvl (some j) c →
      LinksAt s lvl x (j :: c)

/-- Following the level-`lvl` links from x through exactly the nodes `c`
ends at pointer p (p = x when c is empty). -/
inductive Traverse {K : Type} (s : SkipList K) (lvl : Nat) :
    Option Nat → List Nat → Option Nat → Prop
  | nil {x} : Traverse s lvl x [] x
  | cons {x j c p} : nodeNext s x lvl = some j → Traverse s lvl (some j) c p →
      Traverse s lvl x (j :: c) p

/-- Well-formedness of a skiplist, with the per-level chains as ghost data:
head_ has all kMaxHeight levels, the level-lvl chain is exactly the set of
nodes taller than lvl in strictly ascending key order, and node heights lie
in [1, max_height_]. -/
structure SLWF {K : Type} (cmp : K → K → Int) (s : SkipList K)
    (chains : Nat → List Nat) : Prop where
  headLen : s.headNext.length = kMaxHeight
  maxPos : 1 ≤ s.maxHeight
  maxLe : s.maxHeight ≤ kMaxHeight
  links : ∀ lvl, lvl < kMaxHeight → LinksAt s lvl none (chains lvl)
  mem : ∀ lvl, lvl < kMaxHeight → ∀ i,
    i ∈ chains lvl ↔ i < s.nodes.length ∧ lvl < nodeHeight s i
  sorted : ∀ lvl, lvl < kMaxHeight → (chains lvl).Pairwise (ltAt cmp s)
  heights : ∀ i, i < s.nodes.length →
    1 ≤ nodeHeight s i ∧ nodeHeight s i ≤ s.maxHeight

/-! ## Concrete fixtures used to instantiate theorems with hypotheses and to
exhibit counterexamples. -/

/-- A trivial comparator (only used where the comparator is irrelevant). -/
def trivialComparator : Comparator := ⟨fun _ _ => 0, fun a _ => a, fun a => a⟩

def tbOptsSnappy : TBOptions := ⟨16, 4096, kSnappyCompression⟩

/-- Environment whose Snappy always "compresses" to 7 zero bytes. -/
def tbEnvSeven : TBEnv :=
  ⟨trivialComparator, none, fun _ => some [0, 0, 0, 0, 0, 0, 0], fun _ => 0, fun c _ => c⟩

/-- Environment whose Snappy always compresses to the 2 bytes [1, 2]. -/
def tbEnvTwo : TBEnv :=
  ⟨trivialComparator, none, fun _ => some [1, 2], fun _ => 0, fun c _ => c⟩

/-- A block builder whose finished contents are exactly 8 bytes
([9, 9, 9, 9] plus the fixed32 restart count 0). -/
def rawEightBlock : BlockBuilder := ⟨[9, 9, 9, 9], [], 0, false, []⟩

/-- A fresh table builder after a single Add. -/
def tbAddedOnce : TableBuilderRep × List TBEvent :=
  (TableBuilderRep.init tbOptsSnappy tbEnvTwo).Add tbEnvTwo [1] [2]

/-! ## Filter-block runs: client operations, their key/offset pairing, and
the ghost view (emitted key groups + pending keys) of a builder. -/

/-- One FilterBlockBuilder client call. -/
inductive FBOp where
  | startBlock (o : Nat)
  | addKey (k : List Nat)
deriving DecidableEq

def runFBOps (b : FilterBlockBuilder) : List FBOp → FilterBlockBuilder
  | [] => b
  | FBOp.startBlock o :: rest => runFBOps (b.StartBlock o) rest
  | FBOp.addKey k :: rest => runFBOps (b.AddKey k) rest

/-- Each added key paired with the most recent StartBlock offset (0 before
the first call). -/
def fbPairs (cur : Nat) : List FBOp → List (Nat × List Nat)
  | [] => []
  | FBOp.startBlock o :: rest => fbPairs o rest
  | FBOp.addKey k :: rest => (cur, k) :: fbPairs cur rest

/-- The StartBlock offsets never decrease (StartBlock asserts this). -/
def fbMono (cur : Nat) : List FBOp → Bool
  | [] => true
  | FBOp.startBlock o :: rest => decide (cur ≤ o) && fbMono o rest
  | FBOp.addKey _ :: rest => fbMono cur rest

/-- The start_ offsets corresponding to a list of pending keys. -/
def startsOf : List (List Nat) → List Nat
  | [] => []
  | k :: ks => 0 :: (startsOf ks).map (· + k.length)

/-- The bytes GenerateFilter emits for one key group (nothing for an empty
group: only an offset is recorded). -/
def filterBytes (p : FilterPolicy) (g : List (List Nat)) : List Nat :=
  if g.length = 0 then [] else p.createFilter g

/-- The result_ bytes after emitting a list of key groups. -/
def groupResult (p : FilterPolicy) (gs : List (List (List Nat))) : List Nat :=
  (gs.map (filterBytes p)).flatten

/-- Ghost view of a FilterBlockBuilder state: `groups` are the key groups
already emitted (one per filter offset), `pend` the keys not yet flushed. -/
structure FBInv (p : FilterPolicy) (b : FilterBlockBuilder)
    (groups : List (List (List Nat))) (pend : List (List Nat)) : Prop where
  policyEq : b.policy = p
  keysEq : b.keys = pend.flatten
  startEq : b.start = startsOf pend
  resultEq : b.result = groupResult p groups
  offsEq : b.filterOffsets = (List.range groups.length).map
    fun i => (groupResult p (groups.take i)).length

/-- A filter policy whose probe always answers "may match" and whose
filters are empty; trivially free of false negatives. -/
def alwaysTruePolicy : FilterPolicy := ⟨[], fun _ => [], fun _ _ => true⟩

/-- A well-formed filter block with one empty filter: built by StartBlock
at offset 2048 (= kFilterBase) with no keys, then Finish. -/
def c6contents : List Nat :=
  ((FilterBlockBuilder.init alwaysTruePolicy).StartBlock 2048).Finish

def c6reader : FilterBlockReader :=
  FilterBlockReader.init alwaysTruePolicy c6contents

/-! ## MemTable (db/memtable.cc). The InternalKeyComparator, the value-type
tags and the LookupKey layout live in the absent db/dbformat.{h,cc} and are
modelled from the spec; the entry encoding, the key comparator's
length-prefix handling and Add/Get are embedded from db/memtable.cc. -/

/-- Modelled from the spec: value type of a deletion entry. -/
def kTypeDeletion : Nat := 0

/-- Modelled from the spec: value type of a put entry. -/
def kTypeValue : Nat := 1

/-- Modelled from the spec: lexicographic byte-slice comparison (the
default BytewiseComparator). -/
def byteCompare : List Nat → List Nat → Int
  | [], [] => 0
  | [], _ :: _ => -1
  | _ :: _, [] => 1
  | a :: as, b :: bs =>
    if a < b then -1 else if b < a then 1 else byteCompare as bs

/-- The packed tag (sequence << 8) | type on uint64; equals the C++
bitwise-or because the type occupies only the low byte. -/
def packTag (s t : Nat) : Nat := s * 256 % 2 ^ 64 + t % 256

/-- The user-key part of an internal key (all but the 8 tag bytes). -/
def userPart (ik : List Nat) : List Nat := ik.take (ik.length - 8)

/-- The packed tag of an internal key (its last 8 bytes, little-endian). -/
def tagPart (ik : List Nat) : Nat := DecodeFixed64 (ik.drop (ik.length - 8))

/-- Modelled from the spec: InternalKeyComparator::Compare — ascending
user key, then descending tag (descending sequence, ties by descending
value type). -/
def internalCompare (a b : List Nat) : Int :=
  if byteCompare (userPart a) (userPart b) = 0 then
    if tagPart b < tagPart a then -1
    else if tagPart a < tagPart b then 1
    else 0
  else byteCompare (userPart a) (userPart b)

/-- GetLengthPrefixedSlice (db/memtable.cc): read a varint32 length (at
most 5 bytes assumed readable) and return that many following bytes. The
C++ behaviour on a corrupt prefix is undefined; the model returns the
empty slice. -/
def GetLengthPrefixedSlice (data : List Nat) : List Nat :=
  match GetVarint32Ptr data 5 with
  | some (len, consumed) => (data.drop consumed).take len
  | none => []

/-- MemTable::KeyComparator::operator() (db/memtable.cc): strip the length
prefixes, compare the internal keys. -/
def memtableKeyCompare (a b : List Nat) : Int :=
  internalCompare (GetLengthPrefixedSlice a) (GetLengthPrefixedSlice b)

/-- The entry buffer written by MemTable::Add: varint32 internal-key
length, user key, fixed64 packed tag, varint32 value length, value. -/
def memEntry (s t : Nat) (key value : List Nat) : List Nat :=
  EncodeVarint32 (key.length + 8) ++ key ++ EncodeFixed64 (packTag s t)
    ++ EncodeVarint32 value.length ++ value

/-- MemTable::Add (db/memtable.cc): serialize the entry and insert it into
the skiplist, with the RandomHeight outcome as an oracle argument. -/
def MemTable.Add (t : SkipList (List Nat)) (s vt : Nat)
    (key value : List Nat) (height : Nat) : SkipList (List Nat) :=
  t.Insert memtableKeyCompare (memEntry s vt key value) height

/-- Modelled from the spec: LookupKey::memtable_key() — varint32 length,
user key, then the maximal tag for the lookup sequence (type = put, the
highest value type). -/
def memtableLookupKey (ukey : List Nat) (seq : Nat) : List Nat :=
  EncodeVarint32 (ukey.length + 8) ++ ukey
    ++ EncodeFixed64 (packTag seq kTypeValue)

/-- The three outcomes of MemTable::Get: false / true with a value /
true with Status::NotFound. -/
inductive GetResult
  | NotPresent
  | Found (v : List Nat)
  | Deleted
deriving DecidableEq

/-- MemTable::Get (db/memtable.cc): seek the skiplist to the first entry
at least the lookup key's memtable form; if that entry's user key equals
the lookup's, answer from its value type, else report absence. -/
def MemTable.Get (t : SkipList (List Nat)) (ukey : List Nat) (seq : Nat) :
    GetResult :=
  match (FindGreaterOrEqual memtableKeyCompare t
      (memtableLookupKey ukey seq)).1 with
  | none => GetResult.NotPresent
  | some i =>
    match keyAt? t i with
    | none => GetResult.NotPresent
    | some entry =>
      match GetVarint32Ptr entry 5 with
      | none => GetResult.NotPresent
      | some (keyLength, consumed) =>
        if byteCompare ((entry.drop consumed).take (keyLength - 8)) ukey
            = 0 then
          if DecodeFixed64 ((entry.drop consumed).drop (keyLength - 8))
              % 256 = kTypeValue then
            GetResult.Found (GetLengthPrefixedSlice
              ((entry.drop consumed).drop keyLength))
          else if DecodeFixed64 ((entry.drop consumed).drop (keyLength - 8))
              % 256 = kTypeDeletion then
            GetResult.Deleted
          else GetResult.NotPresent
        else GetResult.NotPresent

/-- One MemTable::Add call: sequence, value type, user key, value, and the
RandomHeight outcome for the underlying skiplist insert. -/
structure MemOp where
  seq : Nat
  vtype : Nat
  ukey : List Nat
  value : List Nat
  height : Nat
deriving DecidableEq

/-- The entry buffer this Add call writes. -/
def MemOp.entry (op : MemOp) : List Nat :=
  memEntry op.seq op.vtype op.ukey op.value

/-- Well-formedness of one Add call: the sequence fits in 56 bits, the
type is put or deletion, the encoded lengths fit, and the height is a
possible RandomHeight outcome. -/
@[reducible] def MemOpOK (op : MemOp) : Prop :=
  op.seq < 2 ^ 56 ∧ op.vtype < 2 ∧ op.ukey.length + 8 < 2 ^ 32 ∧
    op.value.length < 2 ^ 32 ∧ 1 ≤ op.height ∧ op.height ≤ kMaxHeight

/-- The memtable after a sequence of Add calls on a fresh table. -/
def memtableOf (ops : List MemOp) : SkipList (List Nat) :=
  ops.foldl (fun t op => MemTable.Add t op.seq op.vtype op.ukey op.value
    op.height) (SkipList.empty (List Nat))

/-- The spec's delete-shadow example: add(5, put, "k", "v1") then
add(6, del, "k", ""). -/
def c8ops : List MemOp :=
  [⟨5, kTypeValue, [107], [118, 49], 1⟩, ⟨6, kTypeDeletion, [107], [], 1⟩]

/-! ## Theorems -/

theorem encodeVarintCore_eq (v : Nat) :
    encodeVarintCore v =
      if v < 128 then [v] else (v % 128 + 128) :: encodeVarintCore (v / 128) := by
  rw [encodeVarintCore]
  exact dite_eq_ite

theorem encodeVarintCore_length_le (k : Nat) (hk : 1 ≤ k) :
    ∀ v : Nat, v < 128 ^ k → (encodeVarintCore v).length ≤ k := by
  induction k, hk using Nat.le_induction with
  | base =>
    intro v hv
    rw [encodeVarintCore_eq, if_pos (by simpa using hv)]
    simp
  | succ k hk ih =>
    intro v hv
    rw [encodeVarintCore_eq]
    by_cases h : v < 128
    · simp [h]
    · rw [if_neg h, List.length_cons]
      have hdiv : v / 128 < 128 ^ k := by
        rw [Nat.div_lt_iff_lt_mul (by norm_num)]
        calc v < 128 ^ (k + 1) := hv
        _ = 128 ^ k * 128 := by ring
      have := ih (v / 128) hdiv
      omega

theorem varintDecodeLoop_encode (v : Nat) :
    ∀ shift acc pos maxB limit : Nat, ∀ rest : List Nat,
    (encodeVarintCore v).length ≤ maxB → (encodeVarintCore v).length ≤ limit →
    varintDecodeLoop maxB (encodeVarintCore v ++ rest) limit shift acc pos
      = some (acc + v * 2 ^ shift, pos + (encodeVarintCore v).length) := by
  induction v using Nat.strong_induction_on with
  | _ v ih =>
    intro shift acc pos maxB limit rest hmax hlim
    by_cases h : v < 128
    · rw [encodeVarintCore_eq, if_pos h] at hmax hlim ⊢
      rw [List.length_singleton] at hmax hlim
      obtain ⟨m, rfl⟩ : ∃ m, maxB = m + 1 := ⟨maxB - 1, by omega⟩
      obtain ⟨l, rfl⟩ : ∃ l, limit = l + 1 := ⟨limit - 1, by omega⟩
      rw [List.singleton_append]
      simp only [varintDecodeLoop, List.length_singleton]
      rw [if_pos h]
    · rw [encodeVarintCore_eq, if_neg h] at hmax hlim ⊢
      rw [List.length_cons] at hmax hlim
      obtain ⟨m, rfl⟩ : ∃ m, maxB = m + 1 := ⟨maxB - 1, by omega⟩
      obtain ⟨l, rfl⟩ : ∃ l, limit = l + 1 := ⟨limit - 1, by omega⟩
      rw [List.cons_append]
      simp only [varintDecodeLoop, List.length_cons]
      rw [if_neg (by omega)]
      have hlt : v / 128 < v := Nat.div_lt_self (by omega) (by norm_num)
      rw [ih (v / 128) hlt (shift + 7) (acc + (v % 128 + 128 - 128) * 2 ^ shift)
            (pos + 1) m l rest (by omega) (by omega)]
      have hsplit : v % 128 + 128 * (v / 128) = v := Nat.mod_add_div v 128
      have hfst : acc + (v % 128 + 128 - 128) * 2 ^ shift + v / 128 * 2 ^ (shift + 7)
          = acc + v * 2 ^ shift := by
        have h1 : v % 128 + 128 - 128 = v % 128 := by omega
        rw [h1, pow_add]
        calc acc + v % 128 * 2 ^ shift + v / 128 * (2 ^ shift * 2 ^ 7)
            = acc + (v % 128 + 128 * (v / 128)) * 2 ^ shift := by ring
          _ = acc + v * 2 ^ shift := by rw [hsplit]
      simp only [Option.some.injEq, Prod.mk.injEq]
      exact ⟨hfst, by omega⟩

theorem encodeVarintCore_head_ge (v : Nat) (h : ¬ v < 128) :
    encodeVarintCore v = (v % 128 + 128) :: encodeVarintCore (v / 128) := by
  rw [encodeVarintCore_eq, if_neg h]

theorem getVarint32Ptr_encode (v : Nat) (rest : List Nat) (limit : Nat)
    (hv : v < 2 ^ 32) (hlim : 5 ≤ limit) :
    GetVarint32Ptr (EncodeVarint32 v ++ rest) limit
      = some (v, (EncodeVarint32 v).length) ∧ (EncodeVarint32 v).length ≤ 5 := by
  have hmod : v % 2 ^ 32 = v := Nat.mod_eq_of_lt hv
  have hlen : (encodeVarintCore v).length ≤ 5 :=
    encodeVarintCore_length_le 5 (by norm_num) v (by calc v < 2 ^ 32 := hv
      _ ≤ 128 ^ 5 := by norm_num)
  unfold EncodeVarint32
  rw [hmod]
  refine ⟨?_, hlen⟩
  have hcore := varintDecodeLoop_encode v 0 0 0 5 limit rest hlen (by omega)
  by_cases h : v < 128
  · rw [encodeVarintCore_eq, if_pos h]
    obtain ⟨l, rfl⟩ : ∃ l, limit = l + 1 := ⟨limit - 1, by omega⟩
    simp [GetVarint32Ptr, h]
  · rw [encodeVarintCore_head_ge v h]
    rw [encodeVarintCore_head_ge v h] at hcore
    obtain ⟨l, rfl⟩ : ∃ l, limit = l + 1 := ⟨limit - 1, by omega⟩
    simp only [List.cons_append, GetVarint32Ptr]
    rw [if_neg (by omega)]
    unfold GetVarint32PtrFallback
    simpa using hcore

theorem getVarint64Ptr_encode (v : Nat) (rest : List Nat) (limit : Nat)
    (hv : v < 2 ^ 64) (hlim : 10 ≤ limit) :
    GetVarint64Ptr (EncodeVarint64 v ++ rest) limit
      = some (v, (EncodeVarint64 v).length) ∧ (EncodeVarint64 v).length ≤ 10 := by
  have hmod : v % 2 ^ 64 = v := Nat.mod_eq_of_lt hv
  have hlen : (encodeVarintCore v).length ≤ 10 :=
    encodeVarintCore_length_le 10 (by norm_num) v (by calc v < 2 ^ 64 := hv
      _ ≤ 128 ^ 10 := by norm_num)
  unfold EncodeVarint64 GetVarint64Ptr
  rw [hmod]
  refine ⟨?_, hlen⟩
  have hcore := varintDecodeLoop_encode v 0 0 0 10 limit rest hlen (by omega)
  simpa using hcore

theorem decodeFixed32_encode (v : Nat) (hv : v < 2 ^ 32) :
    DecodeFixed32 (EncodeFixed32 v) = v := by
  unfold DecodeFixed32 EncodeFixed32
  simp only [List.getD_cons_zero, List.getD_cons_succ]
  omega

theorem decodeFixed64_encode (v : Nat) (hv : v < 2 ^ 64) :
    DecodeFixed64 (EncodeFixed64 v) = v := by
  unfold DecodeFixed64 EncodeFixed64
  simp only [List.getD_cons_zero, List.getD_cons_succ]
  omega

/-- C1: decoding the bytes produced by EncodeVarint32 with GetVarint32Ptr
(given a sufficient limit) recovers the value and consumes exactly the
encoded bytes — at most 5 of them; symmetrically for the 64-bit varint codec
(at most 10 bytes) and for EncodeFixed32/64 with DecodeFixed32/64. -/
theorem varint_fixed_codec_roundtrip :
    (∀ v rest limit, v < 2 ^ 32 → 5 ≤ limit →
        GetVarint32Ptr (EncodeVarint32 v ++ rest) limit
          = some (v, (EncodeVarint32 v).length) ∧ (EncodeVarint32 v).length ≤ 5) ∧
    (∀ v rest limit, v < 2 ^ 64 → 10 ≤ limit →
        GetVarint64Ptr (EncodeVarint64 v ++ rest) limit
          = some (v, (EncodeVarint64 v).length) ∧ (EncodeVarint64 v).length ≤ 10) ∧
    (∀ v, v < 2 ^ 32 → DecodeFixed32 (EncodeFixed32 v) = v ∧ (EncodeFixed32 v).length = 4) ∧
    (∀ v, v < 2 ^ 64 → DecodeFixed64 (EncodeFixed64 v) = v ∧ (EncodeFixed64 v).length = 8) := by
  refine ⟨fun v rest limit hv hl => getVarint32Ptr_encode v rest limit hv hl,
          fun v rest limit hv hl => getVarint64Ptr_encode v rest limit hv hl,
          fun v hv => ⟨decodeFixed32_encode v hv, rfl⟩,
          fun v hv => ⟨decodeFixed64_encode v hv, rfl⟩⟩

/-- Witness for C1 at concrete inputs. -/
theorem varint_fixed_codec_roundtrip_witness :
    (GetVarint32Ptr (EncodeVarint32 300 ++ [9, 9]) 5
        = some (300, (EncodeVarint32 300).length) ∧ (EncodeVarint32 300).length ≤ 5) ∧
    (GetVarint64Ptr (EncodeVarint64 (2 ^ 40) ++ [7]) 10
        = some (2 ^ 40, (EncodeVarint64 (2 ^ 40)).length)
          ∧ (EncodeVarint64 (2 ^ 40)).length ≤ 10) ∧
    (DecodeFixed32 (EncodeFixed32 305419896) = 305419896) ∧
    (DecodeFixed64 (EncodeFixed64 (2 ^ 63 + 17)) = 2 ^ 63 + 17) :=
  ⟨varint_fixed_codec_roundtrip.1 300 [9, 9] 5 (by norm_num) (by norm_num),
   varint_fixed_codec_roundtrip.2.1 (2 ^ 40) [7] 10 (by norm_num) (by norm_num),
   (varint_fixed_codec_roundtrip.2.2.1 305419896 (by norm_num)).1,
   (varint_fixed_codec_roundtrip.2.2.2 (2 ^ 63 + 17) (by norm_num)).1⟩

/-- C9: when Allocate is called with `bytes` larger than the remaining space:
for `bytes > 1024` a private block of exactly `bytes` is appended and
returned, and the bump pointer (current block, offset, remaining bytes) is
untouched; otherwise a fresh 4096-byte block is appended, its first `bytes`
bytes are returned, and the bump pointer moves into the new block (so the
old block's tail is never used again). -/
theorem arena_allocate_fallback_spec (a : Arena) (bytes : Nat)
    (h : a.allocBytesRemaining < bytes) :
    (bytes > 1024 →
        (a.Allocate bytes).1.blocks = a.blocks ++ [bytes] ∧
        (a.Allocate bytes).2 = ⟨a.blocks.length, 0⟩ ∧
        (a.Allocate bytes).1.allocBlock = a.allocBlock ∧
        (a.Allocate bytes).1.allocOffset = a.allocOffset ∧
        (a.Allocate bytes).1.allocBytesRemaining = a.allocBytesRemaining) ∧
    (bytes ≤ 1024 →
        (a.Allocate bytes).1.blocks = a.blocks ++ [kArenaBlockSize] ∧
        (a.Allocate bytes).2 = ⟨a.blocks.length, 0⟩ ∧
        (a.Allocate bytes).1.allocBlock = a.blocks.length ∧
        (a.Allocate bytes).1.allocOffset = bytes ∧
        (a.Allocate bytes).1.allocBytesRemaining = kArenaBlockSize - bytes) := by
  unfold Arena.Allocate Arena.AllocateFallback Arena.AllocateNewBlock
  rw [if_neg (by omega)]
  constructor
  · intro hbig
    rw [if_pos (by unfold kArenaBlockSize; omega)]
    simp
  · intro hsmall
    rw [if_neg (by unfold kArenaBlockSize; omega)]
    simp

/-- Witness for C9 at a concrete arena. -/
theorem arena_allocate_fallback_spec_witness :
    Arena.init.allocBytesRemaining < 2000 ∧
    ((Arena.init.Allocate 2000).1.blocks = Arena.init.blocks ++ [2000] ∧
      (Arena.init.Allocate 2000).2 = ⟨Arena.init.blocks.length, 0⟩ ∧
      (Arena.init.Allocate 2000).1.allocBytesRemaining
        = Arena.init.allocBytesRemaining) := by
  refine ⟨by decide, ?_⟩
  have g1 := (arena_allocate_fallback_spec Arena.init 2000 (by decide)).1 (by norm_num)
  exact ⟨g1.1, g1.2.1, g1.2.2.2.2⟩

/-! ### C7: WriteBlock compression choice -/

/-- C7 counterexample: with Snappy enabled and a compression function that
shrinks an 8-byte raw block to 7 bytes — saving exactly 1/8 of the raw
size — WriteBlock stores the RAW bytes with compression type
kNoCompression, although the claim requires the compressed form whenever at
least 1/8 is saved. -/
theorem writeBlock_at_least_eighth_counterexample :
    tbEnvSeven.snappyCompress rawEightBlock.Finish = some [0, 0, 0, 0, 0, 0, 0] ∧
    rawEightBlock.Finish.length = 8 ∧
    8 * (rawEightBlock.Finish.length - 7) = rawEightBlock.Finish.length ∧
    ((TableBuilderRep.init tbOptsSnappy tbEnvSeven).WriteBlock tbEnvSeven
        rawEightBlock).1.file
      = rawEightBlock.Finish ++ kNoCompression :: EncodeFixed32 (crcMask 0) ∧
    ((TableBuilderRep.init tbOptsSnappy tbEnvSeven).WriteBlock tbEnvSeven
        rawEightBlock).1.file.getD 8 99 = kNoCompression := by
  decide

/-- C7 (amended): with Snappy compression enabled, WriteBlock writes the
compressed form and records type kSnappyCompression in the trailer iff
compression succeeds and the compressed size is strictly below
`raw.length - raw.length / 8` (integer division — strictly more than
⌊raw/8⌋ bytes saved); otherwise it writes the raw bytes with type
kNoCompression. -/
theorem writeBlock_snappy_strict (r : TableBuilderRep) (env : TBEnv)
    (block : BlockBuilder) (hc : r.options.compression = kSnappyCompression) :
    (∃ compressed, env.snappyCompress block.Finish = some compressed ∧
        compressed.length < block.Finish.length - block.Finish.length / 8 ∧
        (r.WriteBlock env block).1.file
          = r.file ++ compressed ++ kSnappyCompression ::
              EncodeFixed32 (crcMask (env.crcExtend (env.crcValue compressed)
                [kSnappyCompression])) ∧
        (r.WriteBlock env block).2.2.size = compressed.length) ∨
    ((∀ compressed, env.snappyCompress block.Finish = some compressed →
        ¬ compressed.length < block.Finish.length - block.Finish.length / 8) ∧
      (r.WriteBlock env block).1.file
        = r.file ++ block.Finish ++ kNoCompression ::
            EncodeFixed32 (crcMask (env.crcExtend (env.crcValue block.Finish)
              [kNoCompression])) ∧
      (r.WriteBlock env block).2.2.size = block.Finish.length) := by
  unfold TableBuilderRep.WriteBlock TableBuilderRep.WriteRawBlock
  rw [hc]
  simp only [if_pos rfl]
  cases hsn : env.snappyCompress block.Finish with
  | none =>
    right
    refine ⟨fun c hc2 => by simp at hc2, ?_, ?_⟩ <;> simp
  | some compressed =>
    by_cases hsz : compressed.length < block.Finish.length - block.Finish.length / 8
    · left
      exact ⟨compressed, rfl, hsz, by simp [if_pos hsz], by simp [if_pos hsz]⟩
    · right
      refine ⟨fun c hc2 => ?_, by simp [if_neg hsz], by simp [if_neg hsz]⟩
      cases hc2
      exact hsz

/-- Witness for C7 (amended) at a concrete instance where compression is
kept. -/
theorem writeBlock_snappy_strict_witness :
    (∃ compressed,
        tbEnvTwo.snappyCompress rawEightBlock.Finish = some compressed ∧
        compressed.length
          < rawEightBlock.Finish.length - rawEightBlock.Finish.length / 8 ∧
        ((TableBuilderRep.init tbOptsSnappy tbEnvTwo).WriteBlock tbEnvTwo
            rawEightBlock).1.file
          = (TableBuilderRep.init tbOptsSnappy tbEnvTwo).file ++ compressed
              ++ kSnappyCompression ::
              EncodeFixed32 (crcMask (tbEnvTwo.crcExtend
                (tbEnvTwo.crcValue compressed) [kSnappyCompression])) ∧
        ((TableBuilderRep.init tbOptsSnappy tbEnvTwo).WriteBlock tbEnvTwo
            rawEightBlock).2.2.size = compressed.length) ∨
    ((∀ compressed,
        tbEnvTwo.snappyCompress rawEightBlock.Finish = some compressed →
        ¬ compressed.length
          < rawEightBlock.Finish.length - rawEightBlock.Finish.length / 8) ∧
      ((TableBuilderRep.init tbOptsSnappy tbEnvTwo).WriteBlock tbEnvTwo
          rawEightBlock).1.file
        = (TableBuilderRep.init tbOptsSnappy tbEnvTwo).file
            ++ rawEightBlock.Finish ++ kNoCompression ::
            EncodeFixed32 (crcMask (tbEnvTwo.crcExtend
              (tbEnvTwo.crcValue rawEightBlock.Finish) [kNoCompression])) ∧
      ((TableBuilderRep.init tbOptsSnappy tbEnvTwo).WriteBlock tbEnvTwo
          rawEightBlock).2.2.size = rawEightBlock.Finish.length) :=
  writeBlock_snappy_strict (TableBuilderRep.init tbOptsSnappy tbEnvTwo)
    tbEnvTwo rawEightBlock rfl

/-! ### C10: the pending-index-entry invariant -/

theorem encodeVarintCore_ne_nil (v : Nat) : encodeVarintCore v ≠ [] := by
  rw [encodeVarintCore_eq]
  split <;> simp

theorem blockBuilder_add_ne_nil (b : BlockBuilder) (interval : Nat)
    (k v : List Nat) : (b.Add interval k v).buffer ≠ [] := by
  unfold BlockBuilder.Add
  split
  all_goals
    simp only [List.append_assoc]
    intro h
    rcases List.append_eq_nil.mp h with ⟨h1, h2⟩
    rcases List.append_eq_nil.mp h2 with ⟨h3, h4⟩
    exact encodeVarintCore_ne_nil _ h3

theorem flush_empty (r : TableBuilderRep) (env : TBEnv)
    (h : r.dataBlock.buffer = []) : r.Flush env = (r, []) := by
  unfold TableBuilderRep.Flush
  rw [if_pos h]

theorem flush_nonempty (r : TableBuilderRep) (env : TBEnv)
    (h : ¬ r.dataBlock.buffer = []) :
    (r.Flush env).1.pendingIndexEntry = true ∧
    (r.Flush env).1.dataBlock = BlockBuilder.init ∧
    (r.Flush env).2 = [TBEvent.dataFlush] := by
  unfold TableBuilderRep.Flush
  rw [if_neg h]
  cases hfb : r.filterBlock <;>
    simp [TableBuilderRep.WriteBlock, TableBuilderRep.WriteRawBlock, hfb]

/-- The invariant of the whole flush: summary of Flush for the induction. -/
theorem flush_invariant_step (r : TableBuilderRep) (env : TBEnv)
    (h1 : r.pendingIndexEntry = true → r.dataBlock.buffer = []) :
    ((r.Flush env).1.pendingIndexEntry = true →
        (r.Flush env).1.dataBlock.buffer = []) ∧
    (r.Flush env).2.count TBEvent.indexEntry
        + (if (r.Flush env).1.pendingIndexEntry then 1 else 0)
      = (r.Flush env).2.count TBEvent.dataFlush
        + (if r.pendingIndexEntry then 1 else 0) := by
  by_cases hb : r.dataBlock.buffer = []
  · rw [flush_empty r env hb]
    exact ⟨h1, rfl⟩
  · obtain ⟨hp, hd, he⟩ := flush_nonempty r env hb
    have hpe : r.pendingIndexEntry = false := by
      cases hpe0 : r.pendingIndexEntry
      · rfl
      · exact absurd (h1 hpe0) hb
    rw [hp, hd, he, hpe]
    simp [BlockBuilder.init]

theorem add_invariant_step (r : TableBuilderRep) (env : TBEnv) (key value : List Nat) :
    ((r.Add env key value).1.pendingIndexEntry = true →
        (r.Add env key value).1.dataBlock.buffer = []) ∧
    (r.Add env key value).2.count TBEvent.indexEntry
        + (if (r.Add env key value).1.pendingIndexEntry then 1 else 0)
      = (r.Add env key value).2.count TBEvent.dataFlush
        + (if r.pendingIndexEntry then 1 else 0) := by
  unfold TableBuilderRep.Add
  cases hpe : r.pendingIndexEntry <;> cases hfb : r.filterBlock <;>
    simp [hpe, hfb] <;>
    (try split_ifs with hfl) <;>
    simp_all [TableBuilderRep.Flush, TableBuilderRep.WriteBlock,
      TableBuilderRep.WriteRawBlock, blockBuilder_add_ne_nil, BlockBuilder.init]

theorem finish_invariant_step (r : TableBuilderRep) (env : TBEnv)
    (h1 : r.pendingIndexEntry = true → r.dataBlock.buffer = []) :
    ((r.Finish env).1.pendingIndexEntry = true →
        (r.Finish env).1.dataBlock.buffer = []) ∧
    (r.Finish env).2.count TBEvent.indexEntry
        + (if (r.Finish env).1.pendingIndexEntry then 1 else 0)
      = (r.Finish env).2.count TBEvent.dataFlush
        + (if r.pendingIndexEntry then 1 else 0) := by
  unfold TableBuilderRep.Finish
  by_cases hb : r.dataBlock.buffer = []
  · rw [flush_empty r env hb]
    cases hfb : r.filterBlock <;> cases hpe : r.pendingIndexEntry <;>
      simp [hfb, hpe, TableBuilderRep.WriteBlock, TableBuilderRep.WriteRawBlock]
  · obtain ⟨hp, hd, he⟩ := flush_nonempty r env hb
    have hpe : r.pendingIndexEntry = false := by
      cases hpe0 : r.pendingIndexEntry
      · rfl
      · exact absurd (h1 hpe0) hb
    cases hfb : (r.Flush env).1.filterBlock <;>
      simp [hfb, hp, hd, he, hpe, TableBuilderRep.WriteBlock,
        TableBuilderRep.WriteRawBlock]

/-- C10: in every reachable state of the table builder, pending_index_entry
is true only if the current data block is empty; and the number of
index-block entries emitted so far plus the one still pending equals the
number of data blocks flushed — exactly one index entry per flushed data
block, added either at the first Add after the flush or at Finish. -/
theorem tableBuilder_pending_index_invariant (env : TBEnv) (r : TableBuilderRep)
    (evs : List TBEvent) (h : TBReach env r evs) :
    (r.pendingIndexEntry = true → r.dataBlock.buffer = []) ∧
    evs.count TBEvent.indexEntry + (if r.pendingIndexEntry then 1 else 0)
      = evs.count TBEvent.dataFlush := by
  induction h with
  | init opts => simp [TableBuilderRep.init]
  | step r0 evs0 r2 ev hre hstep ih =>
    have hstep2 :
        (r2.pendingIndexEntry = true → r2.dataBlock.buffer = []) ∧
        ev.count TBEvent.indexEntry + (if r2.pendingIndexEntry then 1 else 0)
          = ev.count TBEvent.dataFlush
            + (if r0.pendingIndexEntry then 1 else 0) := by
      cases hstep with
      | add key value hc ho => exact add_invariant_step r0 env key value
      | flush hc => exact flush_invariant_step r0 env ih.1
      | finish hc => exact finish_invariant_step r0 env ih.1
    refine ⟨hstep2.1, ?_⟩
    rw [List.count_append, List.count_append]
    have h2 := hstep2.2
    have h3 := ih.2
    by_cases hp0 : r0.pendingIndexEntry = true <;>
      by_cases hp2 : r2.pendingIndexEntry = true <;>
      simp [hp0, hp2] at h2 h3 ⊢ <;> omega

/-- Witness for C10 after one Add step from a fresh builder. -/
theorem tableBuilder_pending_index_invariant_witness :
    (tbAddedOnce.1.pendingIndexEntry = true → tbAddedOnce.1.dataBlock.buffer = []) ∧
    ([] ++ tbAddedOnce.2).count TBEvent.indexEntry
        + (if tbAddedOnce.1.pendingIndexEntry then 1 else 0)
      = ([] ++ tbAddedOnce.2).count TBEvent.dataFlush :=
  tableBuilder_pending_index_invariant tbEnvTwo tbAddedOnce.1 ([] ++ tbAddedOnce.2)
    (TBReach.step _ _ _ _ (TBReach.init tbOptsSnappy)
      (TBStep.add (TableBuilderRep.init tbOptsSnappy tbEnvTwo) [1] [2] rfl
        (fun hgt => absurd hgt (by decide))))

/-! ### C3/C4: LRU shard — heap and list helper lemmas -/

theorem heapGet_nil (i : Nat) : heapGet [] i = none := rfl

theorem heapGet_cons_succ (x : Option LRUHandle) (t : List (Option LRUHandle))
    (i : Nat) : heapGet (x :: t) (i + 1) = heapGet t i := rfl

theorem heapGet_some_lt (heap : List (Option LRUHandle)) (i : Nat)
    (h : LRUHandle) (hg : heapGet heap i = some h) : i < heap.length := by
  induction heap generalizing i with
  | nil => cases hg
  | cons x t ih =>
    cases i with
    | zero => simp
    | succ n =>
      rw [heapGet_cons_succ] at hg
      have := ih n hg
      simp
      omega

theorem heapGet_set_self (heap : List (Option LRUHandle)) (i : Nat)
    (x : Option LRUHandle) (h : i < heap.length) :
    heapGet (heap.set i x) i = x := by
  induction heap generalizing i with
  | nil => simp at h
  | cons y t ih =>
    cases i with
    | zero => rfl
    | succ n =>
      rw [List.set_cons_succ, heapGet_cons_succ]
      exact ih n (by simpa using h)

theorem heapGet_set_ne (heap : List (Option LRUHandle)) (i j : Nat)
    (x : Option LRUHandle) (h : i ≠ j) :
    heapGet (heap.set i x) j = heapGet heap j := by
  induction heap generalizing i j with
  | nil => rfl
  | cons y t ih =>
    cases i with
    | zero =>
      cases j with
      | zero => exact absurd rfl h
      | succ m => rfl
    | succ n =>
      cases j with
      | zero => rfl
      | succ m =>
        rw [List.set_cons_succ, heapGet_cons_succ, heapGet_cons_succ]
        exact ih n m (by omega)

theorem heapGet_append_self (heap : List (Option LRUHandle))
    (x : Option LRUHandle) : heapGet (heap ++ [x]) heap.length = x := by
  induction heap with
  | nil => rfl
  | cons y t ih => simpa using ih

theorem heapGet_append_ne (heap : List (Option LRUHandle))
    (x : Option LRUHandle) (i : Nat) (h : i ≠ heap.length) :
    heapGet (heap ++ [x]) i = heapGet heap i := by
  induction heap generalizing i with
  | nil =>
    cases i with
    | zero => exact absurd rfl h
    | succ n => cases n <;> rfl
  | cons y t ih =>
    cases i with
    | zero => rfl
    | succ n =>
      rw [List.cons_append, heapGet_cons_succ, heapGet_cons_succ]
      exact ih n (by simpa using h)

theorem cacheCharges_append (heap : List (Option LRUHandle))
    (x : Option LRUHandle) :
    cacheCharges (heap ++ [x]) = cacheCharges heap + entryCharge x := by
  simp [cacheCharges]

theorem cacheCharges_set (heap : List (Option LRUHandle)) (i : Nat)
    (x : Option LRUHandle) (h : LRUHandle) (hg : heapGet heap i = some h) :
    cacheCharges (heap.set i x) + entryCharge (some h)
      = cacheCharges heap + entryCharge x := by
  induction heap generalizing i with
  | nil => cases hg
  | cons y t ih =>
    cases i with
    | zero =>
      have : y = some h := hg
      subst this
      simp [cacheCharges]
      omega
    | succ n =>
      rw [heapGet_cons_succ] at hg
      rw [List.set_cons_succ]
      simp only [cacheCharges, List.map_cons, List.sum_cons]
      have := ih n hg
      simp only [cacheCharges] at this
      omega

theorem entryCharge_le_cacheCharges (heap : List (Option LRUHandle)) (i : Nat)
    (h : LRUHandle) (hg : heapGet heap i = some h) :
    entryCharge (some h) ≤ cacheCharges heap := by
  induction heap generalizing i with
  | nil => cases hg
  | cons y t ih =>
    cases i with
    | zero =>
      have : y = some h := hg
      subst this
      simp [cacheCharges]
    | succ n =>
      rw [heapGet_cons_succ] at hg
      have := ih n hg
      simp only [cacheCharges] at this
      simp only [cacheCharges, List.map_cons, List.sum_cons]
      omega

theorem cacheCharges_all_cold (heap : List (Option LRUHandle))
    (h : ∀ j hj, heapGet heap j = some hj → hj.inCache = false) :
    cacheCharges heap = 0 := by
  induction heap with
  | nil => rfl
  | cons y t ih =>
    simp only [cacheCharges, List.map_cons, List.sum_cons]
    have ht : cacheCharges t = 0 :=
      ih fun j hj hg => h (j + 1) hj (by rwa [heapGet_cons_succ])
    have hy : entryCharge y = 0 := by
      cases hy : y with
      | none => rfl
      | some hh =>
        have := h 0 hh (by rw [← hy]; rfl)
        simp [entryCharge, this]
    simp only [cacheCharges] at ht
    omega

theorem cacheCharges_single_hot (heap : List (Option LRUHandle)) (i : Nat)
    (h : ∀ j hj, j ≠ i → heapGet heap j = some hj → hj.inCache = false) :
    cacheCharges heap = entryCharge (heapGet heap i) := by
  induction heap generalizing i with
  | nil => simp [cacheCharges, heapGet_nil, entryCharge]
  | cons y t ih =>
    cases i with
    | zero =>
      simp only [cacheCharges, List.map_cons, List.sum_cons]
      have ht : cacheCharges t = 0 :=
        cacheCharges_all_cold t fun j hj hg =>
          h (j + 1) hj (by omega) (by rwa [heapGet_cons_succ])
      simp only [cacheCharges] at ht
      have : heapGet (y :: t) 0 = y := rfl
      rw [this]
      omega
    | succ n =>
      simp only [cacheCharges, List.map_cons, List.sum_cons]
      have hy : entryCharge y = 0 := by
        cases hy : y with
        | none => rfl
        | some hh =>
          have := h 0 hh (by omega) (by rw [← hy]; rfl)
          simp [entryCharge, this]
      have ht := ih n fun j hj hne hg =>
        h (j + 1) hj (by omega) (by rwa [heapGet_cons_succ])
      simp only [cacheCharges] at ht
      rw [heapGet_cons_succ]
      omega

theorem mem_listRemove (l : List Nat) (i j : Nat) :
    j ∈ listRemove l i ↔ j ∈ l ∧ j ≠ i := by
  simp [listRemove]

theorem listRemove_nodup (l : List Nat) (i : Nat) (h : l.Nodup) :
    (listRemove l i).Nodup := h.filter _

theorem listRemove_eq_self (l : List Nat) (i : Nat) (h : i ∉ l) :
    listRemove l i = l := by
  induction l with
  | nil => rfl
  | cons x t ih =>
    have hx : x ≠ i := fun he => h (he ▸ List.mem_cons_self x t)
    simp only [listRemove, List.filter_cons]
    rw [if_pos (by simpa using hx)]
    have := ih (fun hmem => h (List.mem_cons_of_mem x hmem))
    simpa [listRemove] using this

theorem listRemove_cons_head (i : Nat) (t : List Nat) (h : i ∉ t) :
    listRemove (i :: t) i = t := by
  simp only [listRemove, List.filter_cons]
  rw [if_neg (by simp)]
  exact listRemove_eq_self t i h

theorem nodup_append_single (l : List Nat) (i : Nat) (h : l.Nodup)
    (hi : i ∉ l) : (l ++ [i]).Nodup := by
  simp [List.nodup_append, h, hi]

/-- Transfer of all LRUWF fields across a state whose lists are those of
`s` with the slot `i` moved around and whose heap is `s.heap` with slot `i`
overwritten by a handle with the same key, hash, charge and in_cache flag
as the old one (only refs changed), and whose table and usage are
unchanged. `mem` describes the new lists. -/
theorem lruwf_update_refs (s : LRUCache) (i : Nat) (h0 : LRUHandle)
    (refs2 : Nat) (wf : LRUWF s) (hg : heapGet s.heap i = some h0)
    (lru2 inUse2 : List Nat)
    (hlruN : lru2.Nodup) (hinUseN : inUse2.Nodup)
    (hlruMem : ∀ j, j ∈ lru2 ↔
      (j ≠ i ∧ j ∈ s.lru) ∨ (j = i ∧ h0.inCache = true ∧ refs2 = 1))
    (hinUseMem : ∀ j, j ∈ inUse2 ↔
      (j ≠ i ∧ j ∈ s.inUse) ∨ (j = i ∧ h0.inCache = true ∧ 2 ≤ refs2))
    (hrefs2 : 1 ≤ refs2) :
    LRUWF { s with lru := lru2, inUse := inUse2,
                   heap := s.heap.set i (some { h0 with refs := refs2 }) } := by
  have hlt := heapGet_some_lt s.heap i h0 hg
  have hgNew : heapGet (s.heap.set i (some { h0 with refs := refs2 })) i
      = some { h0 with refs := refs2 } := heapGet_set_self _ _ _ hlt
  have hgOld : ∀ j, j ≠ i →
      heapGet (s.heap.set i (some { h0 with refs := refs2 })) j
        = heapGet s.heap j :=
    fun j hj => heapGet_set_ne _ _ _ _ (fun he => hj he.symm)
  refine ⟨hlruN, hinUseN, ?_, ?_, ?_, ?_, wf.tableNodup, ?_, ?_⟩
  · intro j
    rw [hlruMem j]
    by_cases hji : j = i
    · subst hji
      rw [hgNew]
      constructor
      · rintro (⟨hne, _⟩ | ⟨_, hic, hr⟩)
        · exact absurd rfl hne
        · exact ⟨_, rfl, hic, hr⟩
      · rintro ⟨h', he', hic, hr⟩
        cases he'
        exact Or.inr ⟨rfl, hic, hr⟩
    · rw [hgOld j hji]
      constructor
      · rintro (⟨_, hm⟩ | ⟨he, _⟩)
        · exact (wf.lruSpec j).mp hm
        · exact absurd he hji
      · intro hx
        exact Or.inl ⟨hji, (wf.lruSpec j).mpr hx⟩
  · intro j
    rw [hinUseMem j]
    by_cases hji : j = i
    · subst hji
      rw [hgNew]
      constructor
      · rintro (⟨hne, _⟩ | ⟨_, hic, hr⟩)
        · exact absurd rfl hne
        · exact ⟨_, rfl, hic, hr⟩
      · rintro ⟨h', he', hic, hr⟩
        cases he'
        exact Or.inr ⟨rfl, hic, hr⟩
    · rw [hgOld j hji]
      constructor
      · rintro (⟨_, hm⟩ | ⟨he, _⟩)
        · exact (wf.inUseSpec j).mp hm
        · exact absurd he hji
      · intro hx
        exact Or.inl ⟨hji, (wf.inUseSpec j).mpr hx⟩
  · intro j h' he'
    by_cases hji : j = i
    · subst hji
      rw [hgNew] at he'
      cases he'
      exact hrefs2
    · rw [hgOld j hji] at he'
      exact wf.refsPos j h' he'
  · intro j
    by_cases hji : j = i
    · subst hji
      rw [hgNew]
      constructor
      · intro hm
        exact ⟨_, rfl, by
          obtain ⟨h', he', hic⟩ := (wf.tableSpec j).mp hm
          rw [hg] at he'
          cases he'
          exact hic⟩
      · rintro ⟨h', he', hic⟩
        cases he'
        exact (wf.tableSpec j).mpr ⟨h0, hg, hic⟩
    · rw [hgOld j hji]
      exact wf.tableSpec j
  · intro j k hj hk hjmem hkmem hmj hmk hkey hhash
    have conv : ∀ m hm,
        heapGet (s.heap.set i (some { h0 with refs := refs2 })) m = some hm →
        ∃ hmOld, heapGet s.heap m = some hmOld ∧
          hmOld.key = hm.key ∧ hmOld.hash = hm.hash := by
      intro m hm hme
      by_cases hmi : m = i
      · subst hmi
        rw [hgNew] at hme
        cases hme
        exact ⟨h0, hg, rfl, rfl⟩
      · rw [hgOld m hmi] at hme
        exact ⟨hm, hme, rfl, rfl⟩
    obtain ⟨hjO, hjOe, hjk, hjh⟩ := conv j _ hmj
    obtain ⟨hkO, hkOe, hkk, hkh⟩ := conv k _ hmk
    exact wf.tableUnique j k hjO hkO hjmem hkmem hjOe hkOe
      (by rw [hjk, hkk, hkey]) (by rw [hjh, hkh, hhash])
  · show s.usage = cacheCharges (s.heap.set i (some { h0 with refs := refs2 }))
    have := cacheCharges_set s.heap i (some { h0 with refs := refs2 }) h0 hg
    have hec : entryCharge (some { h0 with refs := refs2 })
        = entryCharge (some h0) := by
      simp [entryCharge]
    rw [wf.usageSpec]
    omega

theorem Ref_wf (s : LRUCache) (i : Nat) (h0 : LRUHandle) (wf : LRUWF s)
    (hg : heapGet s.heap i = some h0) (hc : h0.inCache = true) :
    LRUWF (s.Ref i) ∧ (s.Ref i).usage = s.usage ∧
    (s.Ref i).capacity = s.capacity ∧ (s.Ref i).table = s.table := by
  have hpos := wf.refsPos i h0 hg
  have hres : s.Ref i = if h0.refs = 1 ∧ h0.inCache = true then
      { s with lru := listRemove s.lru i, inUse := listRemove s.inUse i ++ [i],
               heap := s.heap.set i (some { h0 with refs := h0.refs + 1 }) }
    else { s with heap := s.heap.set i (some { h0 with refs := h0.refs + 1 }) } := by
    unfold LRUCache.Ref
    simp only [hg]
    by_cases hr : h0.refs = 1 ∧ h0.inCache = true
    · rw [if_pos hr, if_pos hr]
    · rw [if_neg hr, if_neg hr]
  rw [hres]
  by_cases hr : h0.refs = 1 ∧ h0.inCache = true
  · rw [if_pos hr]
    refine ⟨?_, rfl, rfl, rfl⟩
    apply lruwf_update_refs s i h0 (h0.refs + 1) wf hg
    · exact listRemove_nodup _ _ wf.lruNodup
    · exact nodup_append_single _ _ (listRemove_nodup _ _ wf.inUseNodup)
        (fun hm => ((mem_listRemove _ _ _).mp hm).2 rfl)
    · intro j
      rw [mem_listRemove]
      constructor
      · rintro ⟨hm, hne⟩
        exact Or.inl ⟨hne, hm⟩
      · rintro (⟨hne, hm⟩ | ⟨rfl, _, hr1⟩)
        · exact ⟨hm, hne⟩
        · omega
    · intro j
      rw [List.mem_append, mem_listRemove]
      constructor
      · rintro (⟨hm, hne⟩ | hji)
        · exact Or.inl ⟨hne, hm⟩
        · have hj : j = i := by simpa using hji
          exact Or.inr ⟨hj, hc, by omega⟩
      · rintro (⟨hne, hm⟩ | ⟨rfl, _, _⟩)
        · exact Or.inl ⟨hm, hne⟩
        · exact Or.inr (by simp)
    · omega
  · rw [if_neg hr]
    have hr2 : 2 ≤ h0.refs := by
      rcases Nat.lt_or_ge h0.refs 2 with hlt | hge
      · exact absurd ⟨by omega, hc⟩ hr
      · exact hge
    refine ⟨?_, rfl, rfl, rfl⟩
    apply lruwf_update_refs s i h0 (h0.refs + 1) wf hg
    · exact wf.lruNodup
    · exact wf.inUseNodup
    · intro j
      constructor
      · intro hm
        by_cases hji : j = i
        · subst hji
          obtain ⟨h', he', _, hr1⟩ := (wf.lruSpec j).mp hm
          rw [hg] at he'
          cases he'
          omega
        · exact Or.inl ⟨hji, hm⟩
      · rintro (⟨_, hm⟩ | ⟨rfl, _, hr1⟩)
        · exact hm
        · omega
    · intro j
      constructor
      · intro hm
        by_cases hji : j = i
        · exact Or.inr ⟨hji, hc, by omega⟩
        · exact Or.inl ⟨hji, hm⟩
      · rintro (⟨_, hm⟩ | ⟨hj, _, _⟩)
        · exact hm
        · rw [hj]
          exact (wf.inUseSpec i).mpr ⟨h0, hg, hc, hr2⟩
    · omega

/-- LRUWF transfer when a dead (not-in-cache) slot is freed. -/
theorem lruwf_free_slot (s : LRUCache) (i : Nat) (h0 : LRUHandle)
    (wf : LRUWF s) (hg : heapGet s.heap i = some h0)
    (hic : h0.inCache = false) :
    LRUWF { s with heap := s.heap.set i none } := by
  have hlt := heapGet_some_lt s.heap i h0 hg
  have hgNew : heapGet (s.heap.set i none) i = none := heapGet_set_self _ _ _ hlt
  have hgOld : ∀ j, j ≠ i →
      heapGet (s.heap.set i none) j = heapGet s.heap j :=
    fun j hj => heapGet_set_ne _ _ _ _ (fun he => hj he.symm)
  have hnolru : i ∉ s.lru := by
    intro hm
    obtain ⟨h', he', hic', _⟩ := (wf.lruSpec i).mp hm
    rw [hg] at he'
    cases he'
    rw [hic] at hic'
    cases hic'
  have hnoinuse : i ∉ s.inUse := by
    intro hm
    obtain ⟨h', he', hic', _⟩ := (wf.inUseSpec i).mp hm
    rw [hg] at he'
    cases he'
    rw [hic] at hic'
    cases hic'
  have hnotable : i ∉ s.table := by
    intro hm
    obtain ⟨h', he', hic'⟩ := (wf.tableSpec i).mp hm
    rw [hg] at he'
    cases he'
    rw [hic] at hic'
    cases hic'
  refine ⟨wf.lruNodup, wf.inUseNodup, ?_, ?_, ?_, ?_, wf.tableNodup, ?_, ?_⟩
  · intro j
    by_cases hji : j = i
    · subst hji
      rw [hgNew]
      simp [hnolru]
    · rw [hgOld j hji]
      exact wf.lruSpec j
  · intro j
    by_cases hji : j = i
    · subst hji
      rw [hgNew]
      simp [hnoinuse]
    · rw [hgOld j hji]
      exact wf.inUseSpec j
  · intro j h' he'
    by_cases hji : j = i
    · subst hji
      rw [hgNew] at he'
      cases he'
    · rw [hgOld j hji] at he'
      exact wf.refsPos j h' he'
  · intro j
    by_cases hji : j = i
    · subst hji
      rw [hgNew]
      simp [hnotable]
    · rw [hgOld j hji]
      exact wf.tableSpec j
  · intro j k hj hk hjmem hkmem hmj hmk hkey hhash
    by_cases hji : j = i
    · subst hji
      rw [hgNew] at hmj
      cases hmj
    · by_cases hki : k = i
      · subst hki
        rw [hgNew] at hmk
        cases hmk
      · rw [hgOld j hji] at hmj
        rw [hgOld k hki] at hmk
        exact wf.tableUnique j k hj hk hjmem hkmem hmj hmk hkey hhash
  · show s.usage = cacheCharges (s.heap.set i none)
    have := cacheCharges_set s.heap i none h0 hg
    have hec : entryCharge (some h0) = 0 := by simp [entryCharge, hic]
    have hen : entryCharge none = 0 := rfl
    rw [wf.usageSpec]
    omega

theorem Unref_wf (s : LRUCache) (i : Nat) (h0 : LRUHandle) (wf : LRUWF s)
    (hg : heapGet s.heap i = some h0)
    (hcp : h0.inCache = true → 2 ≤ h0.refs) :
    LRUWF (s.Unref i) ∧ (s.Unref i).usage = s.usage ∧
    (s.Unref i).capacity = s.capacity ∧ (s.Unref i).table = s.table := by
  have hpos := wf.refsPos i h0 hg
  unfold LRUCache.Unref
  simp only [hg]
  by_cases h1 : h0.refs - 1 = 0
  · rw [if_pos h1]
    have hic : h0.inCache = false := by
      cases hic : h0.inCache
      · rfl
      · have := hcp hic
        omega
    exact ⟨lruwf_free_slot s i h0 wf hg hic, rfl, rfl, rfl⟩
  · rw [if_neg h1]
    by_cases h2 : h0.inCache = true ∧ h0.refs - 1 = 1
    · rw [if_pos h2]
      have hr2 : h0.refs = 2 := by omega
      have hinuse : i ∈ s.inUse := (wf.inUseSpec i).mpr ⟨h0, hg, h2.1, by omega⟩
      have hnolru : i ∉ s.lru := by
        intro hm
        obtain ⟨h', he', _, hr1⟩ := (wf.lruSpec i).mp hm
        rw [hg] at he'
        cases he'
        omega
      refine ⟨?_, rfl, rfl, rfl⟩
      apply lruwf_update_refs s i h0 (h0.refs - 1) wf hg
      · exact nodup_append_single _ _ (listRemove_nodup _ _ wf.lruNodup)
          (fun hm => ((mem_listRemove _ _ _).mp hm).2 rfl)
      · exact listRemove_nodup _ _ wf.inUseNodup
      · intro j
        rw [List.mem_append, mem_listRemove]
        constructor
        · rintro (⟨hm, hne⟩ | hji)
          · exact Or.inl ⟨hne, hm⟩
          · have hj : j = i := by simpa using hji
            exact Or.inr ⟨hj, h2.1, h2.2⟩
        · rintro (⟨hne, hm⟩ | ⟨rfl, _, _⟩)
          · exact Or.inl ⟨hm, hne⟩
          · exact Or.inr (by simp)
      · intro j
        rw [mem_listRemove]
        constructor
        · rintro ⟨hm, hne⟩
          exact Or.inl ⟨hne, hm⟩
        · rintro (⟨hne, hm⟩ | ⟨rfl, _, habs⟩)
          · exact ⟨hm, hne⟩
          · omega
      · omega
    · rw [if_neg h2]
      refine ⟨?_, rfl, rfl, rfl⟩
      apply lruwf_update_refs s i h0 (h0.refs - 1) wf hg
      · exact wf.lruNodup
      · exact wf.inUseNodup
      · intro j
        constructor
        · intro hm
          by_cases hji : j = i
          · subst hji
            obtain ⟨h', he', hic', hr1⟩ := (wf.lruSpec j).mp hm
            rw [hg] at he'
            cases he'
            have := hcp hic'
            omega
          · exact Or.inl ⟨hji, hm⟩
        · rintro (⟨_, hm⟩ | ⟨rfl, hic', hr1⟩)
          · exact hm
          · exact absurd ⟨hic', hr1⟩ h2
      · intro j
        constructor
        · intro hm
          by_cases hji : j = i
          · subst hji
            obtain ⟨h', he', hic', hr'⟩ := (wf.inUseSpec j).mp hm
            rw [hg] at he'
            cases he'
            exact Or.inr ⟨rfl, hic', by
              rcases Nat.lt_or_ge (h0.refs - 1) 2 with hlt | hge
              · exact absurd ⟨hic', by omega⟩ h2
              · exact hge⟩
          · exact Or.inl ⟨hji, hm⟩
        · rintro (⟨_, hm⟩ | ⟨hj, hic', hr'⟩)
          · exact hm
          · rw [hj]
            exact (wf.inUseSpec i).mpr ⟨h0, hg, hic', by omega⟩
      · omega

theorem listRemove_append (a b : List Nat) (i : Nat) :
    listRemove (a ++ b) i = listRemove a i ++ listRemove b i :=
  List.filter_append _ _

/-- LRUWF transfer when a cached slot is finish-erased: dropped from the
table and both lists, its charge subtracted, and its slot either freed or
left as a detached (not-in-cache, still referenced) handle. -/
theorem lruwf_detach (s : LRUCache) (old : Nat) (h0 : LRUHandle)
    (wf : LRUWF s) (hg : heapGet s.heap old = some h0)
    (hic : h0.inCache = true) (x : Option LRUHandle)
    (hx : x = none ∨ ∃ hj, x = some hj ∧ hj.inCache = false ∧ 1 ≤ hj.refs) :
    LRUWF { s with table := listRemove s.table old,
                   lru := listRemove s.lru old,
                   inUse := listRemove s.inUse old,
                   heap := s.heap.set old x,
                   usage := s.usage - h0.charge } := by
  have hlt := heapGet_some_lt s.heap old h0 hg
  have hgNew : heapGet (s.heap.set old x) old = x := heapGet_set_self _ _ _ hlt
  have hgOld : ∀ j, j ≠ old → heapGet (s.heap.set old x) j = heapGet s.heap j :=
    fun j hj => heapGet_set_ne _ _ _ _ (fun he => hj he.symm)
  have hxcold : ∀ hj, x = some hj → hj.inCache = false := by
    rintro hj hxe
    rcases hx with hnone | ⟨hj2, hxe2, hcold, _⟩
    · rw [hnone] at hxe
      cases hxe
    · rw [hxe2] at hxe
      cases hxe
      exact hcold
  refine ⟨listRemove_nodup _ _ wf.lruNodup, listRemove_nodup _ _ wf.inUseNodup,
    ?_, ?_, ?_, ?_, listRemove_nodup _ _ wf.tableNodup, ?_, ?_⟩
  · intro j
    rw [mem_listRemove]
    by_cases hji : j = old
    · subst hji
      rw [hgNew]
      constructor
      · rintro ⟨_, hne⟩
        exact absurd rfl hne
      · rintro ⟨hj, hxe, hic', _⟩
        rw [hxcold hj hxe] at hic'
        cases hic'
    · rw [hgOld j hji]
      constructor
      · rintro ⟨hm, _⟩
        exact (wf.lruSpec j).mp hm
      · intro hs
        exact ⟨(wf.lruSpec j).mpr hs, hji⟩
  · intro j
    rw [mem_listRemove]
    by_cases hji : j = old
    · subst hji
      rw [hgNew]
      constructor
      · rintro ⟨_, hne⟩
        exact absurd rfl hne
      · rintro ⟨hj, hxe, hic', _⟩
        rw [hxcold hj hxe] at hic'
        cases hic'
    · rw [hgOld j hji]
      constructor
      · rintro ⟨hm, _⟩
        exact (wf.inUseSpec j).mp hm
      · intro hs
        exact ⟨(wf.inUseSpec j).mpr hs, hji⟩
  · intro j h' he'
    by_cases hji : j = old
    · subst hji
      rw [hgNew] at he'
      rcases hx with hnone | ⟨hj2, hxe2, _, hrefs⟩
      · rw [hnone] at he'
        cases he'
      · rw [hxe2] at he'
        cases he'
        exact hrefs
    · rw [hgOld j hji] at he'
      exact wf.refsPos j h' he'
  · intro j
    rw [mem_listRemove]
    by_cases hji : j = old
    · subst hji
      rw [hgNew]
      constructor
      · rintro ⟨_, hne⟩
        exact absurd rfl hne
      · rintro ⟨hj, hxe, hic'⟩
        rw [hxcold hj hxe] at hic'
        cases hic'
    · rw [hgOld j hji]
      constructor
      · rintro ⟨hm, _⟩
        exact (wf.tableSpec j).mp hm
      · intro hs
        exact ⟨(wf.tableSpec j).mpr hs, hji⟩
  · intro j k hj hk hjmem hkmem hmj hmk hkey hhash
    rw [mem_listRemove] at hjmem hkmem
    rw [hgOld j hjmem.2] at hmj
    rw [hgOld k hkmem.2] at hmk
    exact wf.tableUnique j k hj hk hjmem.1 hkmem.1 hmj hmk hkey hhash
  · show s.usage - h0.charge = cacheCharges (s.heap.set old x)
    have hcs := cacheCharges_set s.heap old x h0 hg
    have hec : entryCharge (some h0) = h0.charge := by simp [entryCharge, hic]
    have hxz : entryCharge x = 0 := by
      rcases hx with hnone | ⟨hj2, hxe2, hcold, _⟩
      · rw [hnone]
        rfl
      · rw [hxe2]
        simp [entryCharge, hcold]
    have hle := entryCharge_le_cacheCharges s.heap old h0 hg
    rw [wf.usageSpec]
    omega

/-- With a well-formed table, FindPointer run for the key and hash of a
stored handle finds exactly that handle. -/
theorem find?_matches_unique (s : LRUCache) (wf : LRUWF s) (key : List Nat)
    (hash : Nat) (old : Nat) (h0 : LRUHandle) (hmem : old ∈ s.table)
    (hg : heapGet s.heap old = some h0) (hkey : h0.key = key)
    (hhash : h0.hash = hash) :
    s.table.find? (handleMatches s.heap key hash) = some old := by
  cases hfind : s.table.find? (handleMatches s.heap key hash) with
  | none =>
    exfalso
    apply List.find?_eq_none.mp hfind old hmem
    unfold handleMatches
    rw [hg]
    simp [hkey, hhash]
  | some j =>
    have hpj : handleMatches s.heap key hash j = true := List.find?_some hfind
    have hjm : j ∈ s.table := List.mem_of_find?_eq_some hfind
    unfold handleMatches at hpj
    cases hgj : heapGet s.heap j with
    | none =>
      rw [hgj] at hpj
      cases hpj
    | some hj =>
      rw [hgj] at hpj
      simp only [Bool.and_eq_true, beq_iff_eq] at hpj
      rw [wf.tableUnique j old hj h0 hjm hmem hgj hg
        (by rw [hpj.2, hkey]) (by rw [hpj.1, hhash])]

theorem eraseByKey_spec (s : LRUCache) (key : List Nat) (hash : Nat)
    (old : Nat) (h0 : LRUHandle) (wf : LRUWF s)
    (hmem : old ∈ s.table) (hg : heapGet s.heap old = some h0)
    (hkey : h0.key = key) (hhash : h0.hash = hash) :
    LRUWF (s.eraseByKey key hash) ∧
    (s.eraseByKey key hash).lru = listRemove s.lru old ∧
    (s.eraseByKey key hash).inUse = listRemove s.inUse old ∧
    (s.eraseByKey key hash).usage + h0.charge = s.usage ∧
    (s.eraseByKey key hash).capacity = s.capacity ∧
    (∀ j, j ≠ old →
      heapGet (s.eraseByKey key hash).heap j = heapGet s.heap j) := by
  have hic : h0.inCache = true := by
    obtain ⟨h', he', hic'⟩ := (wf.tableSpec old).mp hmem
    rw [hg] at he'
    cases he'
    exact hic'
  have hlt := heapGet_some_lt s.heap old h0 hg
  have hpos := wf.refsPos old h0 hg
  have hle : h0.charge ≤ s.usage := by
    have := entryCharge_le_cacheCharges s.heap old h0 hg
    have hec : entryCharge (some h0) = h0.charge := by simp [entryCharge, hic]
    rw [wf.usageSpec]
    omega
  have hfind := find?_matches_unique s wf key hash old h0 hmem hg hkey hhash
  have hstate : s.eraseByKey key hash =
      LRUCache.Unref
        { s with table := listRemove s.table old,
                 lru := listRemove s.lru old,
                 inUse := listRemove s.inUse old,
                 heap := s.heap.set old (some { h0 with inCache := false }),
                 usage := s.usage - h0.charge } old := by
    unfold LRUCache.eraseByKey tableRemove
    simp only [hfind]
    unfold LRUCache.FinishErase
    simp only [hg]
  rw [hstate]
  have hgInter : heapGet (s.heap.set old (some { h0 with inCache := false })) old
      = some { h0 with inCache := false } := heapGet_set_self _ _ _ hlt
  unfold LRUCache.Unref
  simp only [hgInter]
  by_cases h1 : h0.refs - 1 = 0
  · rw [if_pos (by simpa using h1)]
    rw [List.set_set]
    refine ⟨lruwf_detach s old h0 wf hg hic none (Or.inl rfl), rfl, rfl,
      by show s.usage - h0.charge + h0.charge = s.usage; omega, rfl, ?_⟩
    intro j hj
    exact heapGet_set_ne _ _ _ _ (fun he => hj he.symm)
  · rw [if_neg (by simpa using h1)]
    rw [if_neg (by simp)]
    rw [List.set_set]
    refine ⟨lruwf_detach s old h0 wf hg hic
        (some { h0 with inCache := false, refs := h0.refs - 1 })
        (Or.inr ⟨_, rfl, rfl, by show 1 ≤ h0.refs - 1; omega⟩), rfl, rfl,
      by show s.usage - h0.charge + h0.charge = s.usage; omega, rfl, ?_⟩
    intro j hj
    exact heapGet_set_ne _ _ _ _ (fun he => hj he.symm)

theorem Erase_wf (s : LRUCache) (key : List Nat) (hash : Nat) (wf : LRUWF s) :
    LRUWF (s.Erase key hash) ∧ (s.Erase key hash).usage ≤ s.usage ∧
    (s.Erase key hash).capacity = s.capacity := by
  unfold LRUCache.Erase
  cases hfind : s.table.find? (handleMatches s.heap key hash) with
  | none =>
    have heq : s.eraseByKey key hash = s := by
      unfold LRUCache.eraseByKey tableRemove LRUCache.FinishErase
      simp only [hfind]
    rw [heq]
    exact ⟨wf, le_refl _, rfl⟩
  | some j =>
    have hpj : handleMatches s.heap key hash j = true := List.find?_some hfind
    have hjm : j ∈ s.table := List.mem_of_find?_eq_some hfind
    unfold handleMatches at hpj
    cases hgj : heapGet s.heap j with
    | none =>
      rw [hgj] at hpj
      cases hpj
    | some hj =>
      rw [hgj] at hpj
      simp only [Bool.and_eq_true, beq_iff_eq] at hpj
      obtain ⟨hwf, _, _, husage, hcap, _⟩ :=
        eraseByKey_spec s key hash j hj wf hjm hgj hpj.2 hpj.1
      exact ⟨hwf, by omega, hcap⟩

theorem evictLoop_spec (fuel : Nat) : ∀ s : LRUCache, LRUWF s →
    s.lru.length ≤ fuel →
    LRUWF (LRUCache.evictLoop fuel s) ∧
    ((LRUCache.evictLoop fuel s).usage ≤ s.capacity ∨
      (LRUCache.evictLoop fuel s).lru = []) ∧
    (LRUCache.evictLoop fuel s).inUse = s.inUse ∧
    (LRUCache.evictLoop fuel s).capacity = s.capacity ∧
    (LRUCache.evictLoop fuel s).usage ≤ s.usage ∧
    (∀ j, j ∈ s.inUse →
      heapGet (LRUCache.evictLoop fuel s).heap j = heapGet s.heap j) := by
  induction fuel with
  | zero =>
    intro s wf hf
    have hnil : s.lru = [] := List.eq_nil_of_length_eq_zero (by omega)
    exact ⟨wf, Or.inr hnil, rfl, rfl, le_refl _, fun j _ => rfl⟩
  | succ fuel ih =>
    intro s wf hf
    by_cases hcond : s.capacity < s.usage ∧ s.lru ≠ []
    · cases hlru : s.lru with
      | nil => exact absurd hlru hcond.2
      | cons old t =>
        have hmemlru : old ∈ s.lru := by
          rw [hlru]
          exact List.mem_cons_self _ _
        obtain ⟨h0, hg, hic, hr1⟩ := (wf.lruSpec old).mp hmemlru
        have hmemtab : old ∈ s.table := (wf.tableSpec old).mpr ⟨h0, hg, hic⟩
        have hnotuse : old ∉ s.inUse := by
          intro hm
          obtain ⟨h', he', _, hr2⟩ := (wf.inUseSpec old).mp hm
          rw [hg] at he'
          cases he'
          omega
        have hstep : LRUCache.evictLoop (fuel + 1) s
            = LRUCache.evictLoop fuel (s.eraseByKey h0.key h0.hash) := by
          simp only [LRUCache.evictLoop]
          rw [if_pos hcond]
          simp only [hlru, hg]
        obtain ⟨hwf2, hlru2, hinUse2, husage2, hcap2, hheap2⟩ :=
          eraseByKey_spec s h0.key h0.hash old h0 wf hmemtab hg rfl rfl
        have hnotint : old ∉ t := by
          have hnd := wf.lruNodup
          rw [hlru] at hnd
          exact (List.nodup_cons.mp hnd).1
        have hlru2t : (s.eraseByKey h0.key h0.hash).lru = t := by
          rw [hlru2, hlru, listRemove_cons_head old t hnotint]
        have hlen : (s.eraseByKey h0.key h0.hash).lru.length ≤ fuel := by
          rw [hlru2t]
          rw [hlru] at hf
          simp only [List.length_cons] at hf
          omega
        obtain ⟨iwf, ibound, iinuse, icap, iusage, iheap⟩ := ih _ hwf2 hlen
        have hinUse2s : (s.eraseByKey h0.key h0.hash).inUse = s.inUse := by
          rw [hinUse2, listRemove_eq_self _ _ hnotuse]
        rw [hstep]
        refine ⟨iwf, ?_, ?_, ?_, ?_, ?_⟩
        · rcases ibound with hb | hb
          · left
            rw [hcap2] at hb
            exact hb
          · right
            exact hb
        · rw [iinuse, hinUse2s]
        · rw [icap, hcap2]
        · omega
        · intro j hj
          have hj2 : j ∈ (s.eraseByKey h0.key h0.hash).inUse := by
            rw [hinUse2s]
            exact hj
          have hjne : j ≠ old := fun he => hnotuse (he ▸ hj)
          rw [iheap j hj2, hheap2 j hjne]
    · have heq : LRUCache.evictLoop (fuel + 1) s = s := by
        simp only [LRUCache.evictLoop]
        rw [if_neg hcond]
      rw [heq]
      refine ⟨wf, ?_, rfl, rfl, le_refl _, fun j _ => rfl⟩
      rcases Decidable.not_and_iff_or_not.mp hcond with hb | hb
      · left
        omega
      · right
        exact Decidable.not_not.mp hb

theorem pruneLoop_spec (fuel : Nat) : ∀ s : LRUCache, LRUWF s →
    s.lru.length ≤ fuel →
    LRUWF (LRUCache.pruneLoop fuel s) ∧
    (LRUCache.pruneLoop fuel s).usage ≤ s.usage ∧
    (LRUCache.pruneLoop fuel s).capacity = s.capacity := by
  induction fuel with
  | zero => intro s wf _; exact ⟨wf, le_refl _, rfl⟩
  | succ fuel ih =>
    intro s wf hf
    cases hlru : s.lru with
    | nil =>
      have heq : LRUCache.pruneLoop (fuel + 1) s = s := by
        simp only [LRUCache.pruneLoop]
        simp only [hlru]
      rw [heq]
      exact ⟨wf, le_refl _, rfl⟩
    | cons old t =>
      have hmemlru : old ∈ s.lru := by
        rw [hlru]
        exact List.mem_cons_self _ _
      obtain ⟨h0, hg, hic, hr1⟩ := (wf.lruSpec old).mp hmemlru
      have hmemtab : old ∈ s.table := (wf.tableSpec old).mpr ⟨h0, hg, hic⟩
      have hstep : LRUCache.pruneLoop (fuel + 1) s
          = LRUCache.pruneLoop fuel (s.eraseByKey h0.key h0.hash) := by
        simp only [LRUCache.pruneLoop]
        simp only [hlru, hg]
      obtain ⟨hwf2, hlru2, _, husage2, hcap2, _⟩ :=
        eraseByKey_spec s h0.key h0.hash old h0 wf hmemtab hg rfl rfl
      have hnotint : old ∉ t := by
        have hnd := wf.lruNodup
        rw [hlru] at hnd
        exact (List.nodup_cons.mp hnd).1
      have hlen : (s.eraseByKey h0.key h0.hash).lru.length ≤ fuel := by
        rw [hlru2, hlru, listRemove_cons_head old t hnotint]
        rw [hlru] at hf
        simp only [List.length_cons] at hf
        omega
      obtain ⟨iwf, iusage, icap⟩ := ih _ hwf2 hlen
      rw [hstep]
      exact ⟨iwf, by omega, by rw [icap, hcap2]⟩

theorem Lookup_wf (s : LRUCache) (key : List Nat) (hash : Nat) (wf : LRUWF s) :
    LRUWF (s.Lookup key hash).1 ∧ (s.Lookup key hash).1.usage = s.usage ∧
    (s.Lookup key hash).1.capacity = s.capacity := by
  unfold LRUCache.Lookup
  cases hfind : s.table.find? (handleMatches s.heap key hash) with
  | none => exact ⟨wf, rfl, rfl⟩
  | some j =>
    have hjm : j ∈ s.table := List.mem_of_find?_eq_some hfind
    obtain ⟨hj, hgj, hic⟩ := (wf.tableSpec j).mp hjm
    obtain ⟨hwf, husage, hcap, _⟩ := Ref_wf s j hj wf hgj hic
    exact ⟨hwf, husage, hcap⟩

theorem empty_wf (C : Nat) : LRUWF (LRUCache.empty C) := by
  refine ⟨List.nodup_nil, List.nodup_nil, ?_, ?_, ?_, ?_, List.nodup_nil, ?_, rfl⟩
  · intro i
    simp [LRUCache.empty, heapGet_nil]
  · intro i
    simp [LRUCache.empty, heapGet_nil]
  · intro i h he
    cases he
  · intro i
    simp [LRUCache.empty, heapGet_nil]
  · intro i j hi hj hmi hmj
    cases hmi

theorem find?_congr (l : List Nat) (p q : Nat → Bool)
    (h : ∀ a ∈ l, p a = q a) : l.find? p = l.find? q := by
  induction l with
  | nil => rfl
  | cons x t ih =>
    rw [List.find?_cons, List.find?_cons, h x (List.mem_cons_self x t)]
    cases q x with
    | true => rfl
    | false => exact ih fun a ha => h a (List.mem_cons_of_mem x ha)

theorem set_append_left (l1 l2 : List (Option LRUHandle)) (i : Nat)
    (x : Option LRUHandle) (h : i < l1.length) :
    (l1 ++ l2).set i x = l1.set i x ++ l2 := by
  induction l1 generalizing i with
  | nil => simp at h
  | cons y t ih =>
    cases i with
    | zero => rfl
    | succ n =>
      simp only [List.cons_append, List.set_cons_succ]
      rw [ih n (by simpa using h)]

theorem mem_replace (l : List Nat) (old nw j : Nat) (hnew : nw ∉ l)
    (hold : old ∈ l) :
    (j ∈ l.map fun x => if x = old then nw else x) ↔
      j = nw ∨ (j ∈ l ∧ j ≠ old) := by
  rw [List.mem_map]
  constructor
  · rintro ⟨a, ha, hfa⟩
    by_cases hao : a = old
    · rw [if_pos hao] at hfa
      exact Or.inl hfa.symm
    · rw [if_neg hao] at hfa
      exact Or.inr ⟨hfa ▸ ha, hfa ▸ hao⟩
  · rintro (rfl | ⟨hmem, hne⟩)
    · exact ⟨old, hold, by rw [if_pos rfl]⟩
    · exact ⟨j, hmem, by rw [if_neg hne]⟩

theorem nodup_replace (l : List Nat) (old nw : Nat) (hnodup : l.Nodup)
    (hnew : nw ∉ l) :
    (l.map fun x => if x = old then nw else x).Nodup := by
  apply List.Nodup.map_on ?_ hnodup
  intro x hx y hy hxy
  by_cases hxo : x = old <;> by_cases hyo : y = old
  · rw [hxo, hyo]
  · rw [if_pos hxo, if_neg hyo] at hxy
    exact absurd (hxy ▸ hy) hnew
  · rw [if_neg hxo, if_pos hyo] at hxy
    exact absurd (hxy.symm ▸ hx) hnew
  · rwa [if_neg hxo, if_neg hyo] at hxy

/-- LRUWF only depends on the table through membership and distinctness. -/
theorem lruwf_table_congr (s : LRUCache) (table2 : List Nat) (wf : LRUWF s)
    (hmem : ∀ j, j ∈ table2 ↔ j ∈ s.table) (hnd : table2.Nodup) :
    LRUWF { s with table := table2 } := by
  refine ⟨wf.lruNodup, wf.inUseNodup, wf.lruSpec, wf.inUseSpec, wf.refsPos,
    ?_, hnd, ?_, wf.usageSpec⟩
  · intro j
    rw [show ({ s with table := table2 } : LRUCache).table = table2 from rfl,
      hmem j]
    exact wf.tableSpec j
  · intro j k hj hk hjmem hkmem hmj hmk hkey hhash
    exact wf.tableUnique j k hj hk ((hmem j).mp hjmem) ((hmem k).mp hkmem)
      hmj hmk hkey hhash

/-- LRUWF after a hot insert with no matching key in the table: new handle
appended to the heap, to in_use_ and to the table, charge added. -/
theorem lruwf_insert_nodisplace (s : LRUCache) (key : List Nat)
    (hash value charge : Nat) (wf : LRUWF s)
    (hnomatch : ∀ a ∈ s.table, handleMatches s.heap key hash a = false) :
    LRUWF { s with
        heap := s.heap ++ [some ⟨value, charge, key, hash, true, 2⟩],
        inUse := s.inUse ++ [s.heap.length],
        usage := s.usage + charge,
        table := s.table ++ [s.heap.length] } := by
  set nid := s.heap.length with hnid
  set e2 : LRUHandle := ⟨value, charge, key, hash, true, 2⟩ with he2
  have hgNew : heapGet (s.heap ++ [some e2]) nid = some e2 :=
    heapGet_append_self _ _
  have hgOld : ∀ j, j ≠ nid → heapGet (s.heap ++ [some e2]) j = heapGet s.heap j :=
    fun j hj => heapGet_append_ne _ _ _ hj
  have hlru_lt : ∀ j, j ∈ s.lru → j ≠ nid := by
    intro j hm
    obtain ⟨h', he', _, _⟩ := (wf.lruSpec j).mp hm
    have := heapGet_some_lt _ _ _ he'
    omega
  have hinuse_lt : ∀ j, j ∈ s.inUse → j ≠ nid := by
    intro j hm
    obtain ⟨h', he', _, _⟩ := (wf.inUseSpec j).mp hm
    have := heapGet_some_lt _ _ _ he'
    omega
  have htable_lt : ∀ j, j ∈ s.table → j ≠ nid := by
    intro j hm
    obtain ⟨h', he', _⟩ := (wf.tableSpec j).mp hm
    have := heapGet_some_lt _ _ _ he'
    omega
  refine ⟨wf.lruNodup,
    nodup_append_single _ _ wf.inUseNodup (fun hm => hinuse_lt nid hm rfl),
    ?_, ?_, ?_, ?_,
    nodup_append_single _ _ wf.tableNodup (fun hm => htable_lt nid hm rfl),
    ?_, ?_⟩
  · intro j
    by_cases hji : j = nid
    · subst hji
      rw [hgNew]
      constructor
      · intro hm
        exact absurd rfl (hlru_lt nid hm)
      · rintro ⟨h', he', _, hr1⟩
        cases he'
        simp [he2] at hr1
    · rw [hgOld j hji]
      exact wf.lruSpec j
  · intro j
    rw [List.mem_append]
    by_cases hji : j = nid
    · subst hji
      rw [hgNew]
      constructor
      · intro _
        exact ⟨e2, rfl, by simp [he2], by simp [he2]⟩
      · intro _
        exact Or.inr (by simp)
    · rw [hgOld j hji]
      constructor
      · rintro (hm | hm)
        · exact (wf.inUseSpec j).mp hm
        · exact absurd (by simpa using hm) hji
      · intro hx
        exact Or.inl ((wf.inUseSpec j).mpr hx)
  · intro j h' he'
    by_cases hji : j = nid
    · subst hji
      rw [hgNew] at he'
      cases he'
      simp [he2]
    · rw [hgOld j hji] at he'
      exact wf.refsPos j h' he'
  · intro j
    rw [List.mem_append]
    by_cases hji : j = nid
    · subst hji
      rw [hgNew]
      constructor
      · intro _
        exact ⟨e2, rfl, by simp [he2]⟩
      · intro _
        exact Or.inr (by simp)
    · rw [hgOld j hji]
      constructor
      · rintro (hm | hm)
        · exact (wf.tableSpec j).mp hm
        · exact absurd (by simpa using hm) hji
      · intro hx
        exact Or.inl ((wf.tableSpec j).mpr hx)
  · intro j k hj hk hjmem hkmem hmj hmk hkey hhash
    rw [List.mem_append] at hjmem hkmem
    by_cases hji : j = nid <;> by_cases hki : k = nid
    · rw [hji, hki]
    · exfalso
      subst hji
      rw [hgNew] at hmj
      cases hmj
      rcases hkmem with hkm | hkm
      · rw [hgOld k hki] at hmk
        have := hnomatch k hkm
        unfold handleMatches at this
        rw [hmk] at this
        simp only [Bool.and_eq_false_iff, beq_eq_false_iff_ne] at this
        rcases this with hh | hh
        · refine hh ?_
          rw [← hhash]
        · refine hh ?_
          rw [← hkey]
      · exact hki (by simpa using hkm)
    · exfalso
      subst hki
      rw [hgNew] at hmk
      cases hmk
      rcases hjmem with hjm | hjm
      · rw [hgOld j hji] at hmj
        have := hnomatch j hjm
        unfold handleMatches at this
        rw [hmj] at this
        simp only [Bool.and_eq_false_iff, beq_eq_false_iff_ne] at this
        rcases this with hh | hh
        · refine hh ?_
          rw [hhash]
        · refine hh ?_
          rw [hkey]
      · exact hji (by simpa using hjm)
    · rw [hgOld j hji] at hmj
      rw [hgOld k hki] at hmk
      rcases hjmem with hjm | hjm
      · rcases hkmem with hkm | hkm
        · exact wf.tableUnique j k hj hk hjm hkm hmj hmk hkey hhash
        · exact absurd (by simpa using hkm) hki
      · exact absurd (by simpa using hjm) hji
  · show s.usage + charge = cacheCharges (s.heap ++ [some e2])
    rw [cacheCharges_append, wf.usageSpec]
    have : entryCharge (some e2) = charge := by simp [entryCharge, he2]
    omega

/-- LRUWF after a capacity-0 insert: a cold handle appended to the heap
only. -/
theorem lruwf_append_cold (s : LRUCache) (e : LRUHandle) (wf : LRUWF s)
    (hcold : e.inCache = false) (hrefs : 1 ≤ e.refs) :
    LRUWF { s with heap := s.heap ++ [some e] } := by
  have hgNew : heapGet (s.heap ++ [some e]) s.heap.length = some e :=
    heapGet_append_self _ _
  have hgOld : ∀ j, j ≠ s.heap.length →
      heapGet (s.heap ++ [some e]) j = heapGet s.heap j :=
    fun j hj => heapGet_append_ne _ _ _ hj
  have hlru_ne : ∀ j, j ∈ s.lru → j ≠ s.heap.length := by
    intro j hm
    obtain ⟨h', he', _, _⟩ := (wf.lruSpec j).mp hm
    have := heapGet_some_lt _ _ _ he'
    omega
  have hinuse_ne : ∀ j, j ∈ s.inUse → j ≠ s.heap.length := by
    intro j hm
    obtain ⟨h', he', _, _⟩ := (wf.inUseSpec j).mp hm
    have := heapGet_some_lt _ _ _ he'
    omega
  have htable_ne : ∀ j, j ∈ s.table → j ≠ s.heap.length := by
    intro j hm
    obtain ⟨h', he', _⟩ := (wf.tableSpec j).mp hm
    have := heapGet_some_lt _ _ _ he'
    omega
  refine ⟨wf.lruNodup, wf.inUseNodup, ?_, ?_, ?_, ?_, wf.tableNodup, ?_, ?_⟩
  · intro j
    by_cases hji : j = s.heap.length
    · subst hji
      rw [hgNew]
      constructor
      · intro hm
        exact absurd rfl (hlru_ne _ hm)
      · rintro ⟨h', he', hic, _⟩
        cases he'
        rw [hcold] at hic
        cases hic
    · rw [hgOld j hji]
      exact wf.lruSpec j
  · intro j
    by_cases hji : j = s.heap.length
    · subst hji
      rw [hgNew]
      constructor
      · intro hm
        exact absurd rfl (hinuse_ne _ hm)
      · rintro ⟨h', he', hic, _⟩
        cases he'
        rw [hcold] at hic
        cases hic
    · rw [hgOld j hji]
      exact wf.inUseSpec j
  · intro j h' he'
    by_cases hji : j = s.heap.length
    · subst hji
      rw [hgNew] at he'
      cases he'
      exact hrefs
    · rw [hgOld j hji] at he'
      exact wf.refsPos j h' he'
  · intro j
    by_cases hji : j = s.heap.length
    · subst hji
      rw [hgNew]
      constructor
      · intro hm
        exact absurd rfl (htable_ne _ hm)
      · rintro ⟨h', he', hic⟩
        cases he'
        rw [hcold] at hic
        cases hic
    · rw [hgOld j hji]
      exact wf.tableSpec j
  · intro j k hj hk hjmem hkmem hmj hmk hkey hhash
    rw [hgOld j (htable_ne j hjmem)] at hmj
    rw [hgOld k (htable_ne k hkmem)] at hmk
    exact wf.tableUnique j k hj hk hjmem hkmem hmj hmk hkey hhash
  · show s.usage = cacheCharges (s.heap ++ [some e])
    rw [cacheCharges_append, wf.usageSpec]
    have : entryCharge (some e) = 0 := by simp [entryCharge, hcold]
    omega

/-- Decomposition of LRUCache::Insert: the returned state is the eviction
loop run on a well-formed intermediate state. -/
theorem Insert_core (s : LRUCache) (key : List Nat) (hash value charge : Nat)
    (wf : LRUWF s) :
    ∃ s1 : LRUCache,
      (s.Insert key hash value charge).1
        = LRUCache.evictLoop s1.lru.length s1 ∧
      LRUWF s1 ∧ s1.capacity = s.capacity ∧
      (s.capacity = 0 → s1.usage = s.usage) ∧
      (0 < s.capacity → s1.usage ≤ s.usage + charge ∧
        heapGet s1.heap s.heap.length
          = some ⟨value, charge, key, hash, true, 2⟩ ∧
        (s.inUse = [] → s1.inUse = [s.heap.length])) := by
  by_cases hcap : 0 < s.capacity
  · set e2 : LRUHandle := ⟨value, charge, key, hash, true, 2⟩ with he2
    have hbridge : ∀ a ∈ s.table,
        handleMatches (s.heap ++ [some e2]) key hash a
          = handleMatches s.heap key hash a := by
      intro a ha
      obtain ⟨h', he', _⟩ := (wf.tableSpec a).mp ha
      have hane : a ≠ s.heap.length := by
        have := heapGet_some_lt _ _ _ he'
        omega
      unfold handleMatches
      rw [heapGet_append_ne _ _ _ hane]
    have hfc : s.table.find? (handleMatches (s.heap ++ [some e2]) key hash)
        = s.table.find? (handleMatches s.heap key hash) :=
      find?_congr _ _ _ hbridge
    cases hfind : s.table.find? (handleMatches s.heap key hash) with
    | none =>
      refine ⟨{ s with
          heap := s.heap ++ [some e2],
          inUse := s.inUse ++ [s.heap.length],
          usage := s.usage + charge,
          table := s.table ++ [s.heap.length] }, ?_, ?_, rfl,
        fun hc => by omega, fun _ => ⟨le_refl _, heapGet_append_self _ _, ?_⟩⟩
      · rw [he2] at hfc
        unfold LRUCache.Insert tableInsert
        simp only [if_pos hcap, hfc, hfind, LRUCache.FinishErase, he2]
      · exact lruwf_insert_nodisplace s key hash value charge wf
          (fun a ha => by
            have := List.find?_eq_none.mp hfind a ha
            simpa using this)
      · intro hu
        rw [hu]
        rfl
    | some old =>
      have hpj : handleMatches s.heap key hash old = true :=
        List.find?_some hfind
      have hmem : old ∈ s.table := List.mem_of_find?_eq_some hfind
      unfold handleMatches at hpj
      cases hgOld0 : heapGet s.heap old with
      | none =>
        rw [hgOld0] at hpj
        cases hpj
      | some hOld =>
        rw [hgOld0] at hpj
        simp only [Bool.and_eq_true, beq_iff_eq] at hpj
        have hic : hOld.inCache = true := by
          obtain ⟨h', he', hic'⟩ := (wf.tableSpec old).mp hmem
          rw [hgOld0] at he'
          cases he'
          exact hic'
        have holdlt : old < s.heap.length := heapGet_some_lt _ _ _ hgOld0
        have holdne : old ≠ s.heap.length := by omega
        have hpos := wf.refsPos old hOld hgOld0
        have hle : hOld.charge ≤ s.usage := by
          have := entryCharge_le_cacheCharges s.heap old hOld hgOld0
          have hec : entryCharge (some hOld) = hOld.charge := by
            simp [entryCharge, hic]
          rw [wf.usageSpec]
          omega
        have hg2 : heapGet (s.heap ++ [some e2]) old = some hOld := by
          rw [heapGet_append_ne _ _ _ holdne]
          exact hgOld0
        -- the slot left behind by FinishErase + Unref
        set x : Option LRUHandle :=
          if hOld.refs - 1 = 0 then none
          else some { hOld with inCache := false, refs := hOld.refs - 1 }
          with hx
        have hxok : x = none ∨
            ∃ hj, x = some hj ∧ hj.inCache = false ∧ 1 ≤ hj.refs := by
          by_cases h1 : hOld.refs - 1 = 0
          · left
            rw [hx, if_pos h1]
          · right
            refine ⟨_, by rw [hx, if_neg h1], rfl, ?_⟩
            show 1 ≤ hOld.refs - 1
            omega
        refine ⟨{ s with
            heap := (s.heap ++ [some e2]).set old x,
            lru := listRemove s.lru old,
            inUse := listRemove s.inUse old ++ [s.heap.length],
            usage := s.usage + charge - hOld.charge,
            table := s.table.map fun j => if j = old then s.heap.length else j },
          ?_, ?_, rfl, fun hc => by omega,
          fun _ => ⟨?_, ?_, ?_⟩⟩
        · -- the state equation
          have hgInter : heapGet ((s.heap ++ [some e2]).set old
              (some { hOld with inCache := false })) old
              = some { hOld with inCache := false } :=
            heapGet_set_self _ _ _ (by
              rw [List.length_append]
              omega)
          have hrem : listRemove (s.inUse ++ [s.heap.length]) old
              = listRemove s.inUse old ++ [s.heap.length] := by
            rw [listRemove_append]
            congr 1
            have hne : s.heap.length ≠ old := Ne.symm holdne
            simp [listRemove, hne]
          rw [he2] at hfc hg2 hgInter
          unfold LRUCache.Insert tableInsert
          simp only [if_pos hcap, hfc, hfind, LRUCache.FinishErase, hg2,
            LRUCache.Unref, hgInter, he2]
          by_cases h1 : hOld.refs - 1 = 0
          · simp only [if_pos h1, List.set_set, hrem]
            rw [hx, if_pos h1]
          · simp only [if_neg h1, Bool.false_eq_true, false_and, if_neg,
              List.set_set, hrem]
            rw [hx, if_neg h1]
            simp only [if_false]
        · -- well-formedness of the intermediate state
          have hdetach := lruwf_detach s old hOld wf hgOld0 hic x hxok
          have hins := lruwf_insert_nodisplace
            { s with table := listRemove s.table old,
                     lru := listRemove s.lru old,
                     inUse := listRemove s.inUse old,
                     heap := s.heap.set old x,
                     usage := s.usage - hOld.charge }
            key hash value charge hdetach ?_
          · have hlen : (s.heap.set old x).length = s.heap.length :=
              List.length_set _ _ _
            rw [hlen] at hins
            have hheq : (s.heap.set old x) ++ [some e2]
                = (s.heap ++ [some e2]).set old x :=
              (set_append_left _ _ _ _ holdlt).symm
            rw [hheq] at hins
            have husg : s.usage - hOld.charge + charge
                = s.usage + charge - hOld.charge := by omega
            rw [husg] at hins
            apply lruwf_table_congr _ _ hins
            · intro j
              rw [List.mem_append, mem_listRemove]
              rw [mem_replace s.table old s.heap.length j ?_ hmem]
              · constructor
                · rintro (rfl | ⟨hm, hne⟩)
                  · exact Or.inr (by simp)
                  · exact Or.inl ⟨hm, hne⟩
                · rintro (⟨hm, hne⟩ | hj)
                  · exact Or.inr ⟨hm, hne⟩
                  · exact Or.inl (by simpa using hj)
              · intro hm
                obtain ⟨h', he', _⟩ := (wf.tableSpec _).mp hm
                have := heapGet_some_lt _ _ _ he'
                omega
            · apply nodup_replace _ _ _ wf.tableNodup
              intro hm
              obtain ⟨h', he', _⟩ := (wf.tableSpec _).mp hm
              have := heapGet_some_lt _ _ _ he'
              omega
          · -- no match left after removing old from the table
            intro a ha
            rw [mem_listRemove] at ha
            show handleMatches (s.heap.set old x) key hash a = false
            unfold handleMatches
            rw [heapGet_set_ne _ _ _ _ (fun he => ha.2 he.symm)]
            cases hga : heapGet s.heap a with
            | none => rfl
            | some hA =>
              by_cases hmatch : hA.hash = hash ∧ hA.key = key
              · exfalso
                apply ha.2
                exact wf.tableUnique a old hA hOld ha.1 hmem hga hgOld0
                  (by rw [hmatch.2, hpj.2]) (by rw [hmatch.1, hpj.1])
              · simp only [Bool.and_eq_false_iff, beq_eq_false_iff_ne]
                by_cases hh : hA.hash = hash
                · exact Or.inr (fun hk => hmatch ⟨hh, hk⟩)
                · exact Or.inl hh
        · show s.usage + charge - hOld.charge ≤ s.usage + charge
          omega
        · -- the new handle's slot
          rw [heapGet_set_ne _ _ _ _ (fun he => holdne he)]
          rw [he2]
          exact heapGet_append_self _ _
        · intro hu
          rw [hu]
          rfl
  · have hcap0 : s.capacity = 0 := by omega
    refine ⟨{ s with
        heap := s.heap ++ [some ⟨value, charge, key, hash, false, 1⟩] },
      ?_, ?_, rfl, fun _ => rfl, fun hc => absurd hc hcap⟩
    · unfold LRUCache.Insert
      simp only [if_neg hcap]
    · exact lruwf_append_cold s _ wf rfl (by norm_num)

/-- LRUCache::Insert preserves well-formedness and the capacity. -/
theorem Insert_wf (s : LRUCache) (key : List Nat) (hash value charge : Nat)
    (wf : LRUWF s) :
    LRUWF (s.Insert key hash value charge).1 ∧
    (s.Insert key hash value charge).1.capacity = s.capacity := by
  obtain ⟨s1, heq, hwf1, hcap1, _, _⟩ := Insert_core s key hash value charge wf
  obtain ⟨rwf, _, _, rcap, _, _⟩ :=
    evictLoop_spec s1.lru.length s1 hwf1 (le_refl _)
  rw [heq]
  exact ⟨rwf, by omega⟩

/-- When no handle carries an external reference at Insert time and both the
new charge and the current usage fit the capacity, Insert keeps the usage
within the capacity. -/
theorem Insert_quiescent (s : LRUCache) (key : List Nat)
    (hash value charge : Nat) (wf : LRUWF s)
    (hq : ∀ i h, heapGet s.heap i = some h →
      h.refs ≤ if h.inCache then 1 else 0)
    (hch : charge ≤ s.capacity) (hus : s.usage ≤ s.capacity) :
    (s.Insert key hash value charge).1.usage ≤ s.capacity := by
  have hinuse : s.inUse = [] := by
    cases hiu : s.inUse with
    | nil => rfl
    | cons a t =>
      exfalso
      have hm : a ∈ s.inUse := by
        rw [hiu]
        exact List.mem_cons_self _ _
      obtain ⟨h', hg', hic', hr'⟩ := (wf.inUseSpec a).mp hm
      have := hq a h' hg'
      rw [hic'] at this
      simp at this
      omega
  obtain ⟨s1, heq, hwf1, hcap1, hzero, hposf⟩ :=
    Insert_core s key hash value charge wf
  obtain ⟨rwf, rloop, rinuse, rcap, rusage, rheap⟩ :=
    evictLoop_spec s1.lru.length s1 hwf1 (le_refl _)
  rw [heq]
  by_cases hcap : 0 < s.capacity
  · obtain ⟨hub, hg1, hiu1⟩ := hposf hcap
    have hiu1' : s1.inUse = [s.heap.length] := hiu1 hinuse
    rcases rloop with hle | hnil
    · omega
    · have hrg : heapGet (LRUCache.evictLoop s1.lru.length s1).heap
          s.heap.length = some ⟨value, charge, key, hash, true, 2⟩ := by
        rw [rheap s.heap.length (by
          rw [hiu1']
          exact List.mem_cons_self _ _)]
        exact hg1
      have hsingle : ∀ j hj, j ≠ s.heap.length →
          heapGet (LRUCache.evictLoop s1.lru.length s1).heap j = some hj →
          hj.inCache = false := by
        intro j hj hne hgj
        cases hicj : hj.inCache with
        | false => rfl
        | true =>
          exfalso
          by_cases hr1 : hj.refs = 1
          · have : j ∈ (LRUCache.evictLoop s1.lru.length s1).lru :=
              (rwf.lruSpec j).mpr ⟨hj, hgj, hicj, hr1⟩
            rw [hnil] at this
            cases this
          · have hpos := rwf.refsPos j hj hgj
            have : j ∈ (LRUCache.evictLoop s1.lru.length s1).inUse :=
              (rwf.inUseSpec j).mpr ⟨hj, hgj, hicj, by omega⟩
            rw [rinuse, hiu1'] at this
            exact hne (List.mem_singleton.mp this)
      have hcc := cacheCharges_single_hot
        (LRUCache.evictLoop s1.lru.length s1).heap s.heap.length hsingle
      rw [rwf.usageSpec, hcc, hrg]
      show (if true then charge else 0) ≤ s.capacity
      simpa using hch
  · have hc0 : s.capacity = 0 := by omega
    have := hzero hc0
    omega

/-- Every reachable shard state is well-formed and keeps the capacity it was
created with. -/
theorem lruReach_wf (C : Nat) (s : LRUCache) (hr : LRUReach C s) :
    LRUWF s ∧ s.capacity = C := by
  induction hr with
  | empty => exact ⟨empty_wf C, rfl⟩
  | insert s key hash value charge _ ih =>
    obtain ⟨wf, hcap⟩ := ih
    obtain ⟨hwf, hc⟩ := Insert_wf s key hash value charge wf
    exact ⟨hwf, by omega⟩
  | lookup s key hash _ ih =>
    obtain ⟨wf, hcap⟩ := ih
    obtain ⟨hwf, _, hc⟩ := Lookup_wf s key hash wf
    exact ⟨hwf, by omega⟩
  | release s i h _ hg hcp ih =>
    obtain ⟨wf, hcap⟩ := ih
    obtain ⟨hwf, _, hc, _⟩ := Unref_wf s i h wf hg hcp
    unfold LRUCache.Release
    exact ⟨hwf, by omega⟩
  | erase s key hash _ ih =>
    obtain ⟨wf, hcap⟩ := ih
    obtain ⟨hwf, _, hc⟩ := Erase_wf s key hash wf
    exact ⟨hwf, by omega⟩
  | prune s _ ih =>
    obtain ⟨wf, hcap⟩ := ih
    obtain ⟨hwf, _, hc⟩ := pruneLoop_spec s.lru.length s wf (le_refl _)
    unfold LRUCache.Prune
    exact ⟨hwf, by omega⟩

/-- Along quiescent-client histories the shard stays well-formed, keeps its
capacity, and never exceeds it. -/
theorem lruReachQ_inv (C : Nat) (s : LRUCache) (hr : LRUReachQ C s) :
    LRUWF s ∧ s.capacity = C ∧ s.usage ≤ C := by
  induction hr with
  | empty => exact ⟨empty_wf C, rfl, Nat.zero_le C⟩
  | insert s key hash value charge _ hch hq ih =>
    obtain ⟨wf, hcap, hus⟩ := ih
    obtain ⟨hwf, hc⟩ := Insert_wf s key hash value charge wf
    have hb := Insert_quiescent s key hash value charge wf hq
      (by omega) (by omega)
    exact ⟨hwf, by omega, by omega⟩
  | lookup s key hash _ ih =>
    obtain ⟨wf, hcap, hus⟩ := ih
    obtain ⟨hwf, hu, hc⟩ := Lookup_wf s key hash wf
    exact ⟨hwf, by omega, by omega⟩
  | release s i h _ hg hcp ih =>
    obtain ⟨wf, hcap, hus⟩ := ih
    obtain ⟨hwf, hu, hc, _⟩ := Unref_wf s i h wf hg hcp
    unfold LRUCache.Release
    exact ⟨hwf, by omega, by omega⟩
  | erase s key hash _ ih =>
    obtain ⟨wf, hcap, hus⟩ := ih
    obtain ⟨hwf, hu, hc⟩ := Erase_wf s key hash wf
    exact ⟨hwf, by omega, by omega⟩
  | prune s _ ih =>
    obtain ⟨wf, hcap, hus⟩ := ih
    obtain ⟨hwf, hu, hc⟩ := pruneLoop_spec s.lru.length s wf (le_refl _)
    unfold LRUCache.Prune
    exact ⟨hwf, by omega, by omega⟩

/-- C3: in every shard state reachable from the empty shard by Insert,
Lookup, Release, Erase and Prune, a live handle is on in_use_ iff
refs ≥ 2 and in_cache; on lru_ iff refs = 1 and in_cache; and on neither
list iff not in_cache. -/
theorem lru_list_invariant (C : Nat) (s : LRUCache) (hr : LRUReach C s)
    (i : Nat) (h : LRUHandle) (hg : heapGet s.heap i = some h) :
    (i ∈ s.inUse ↔ 2 ≤ h.refs ∧ h.inCache = true) ∧
    (i ∈ s.lru ↔ h.refs = 1 ∧ h.inCache = true) ∧
    ((i ∉ s.lru ∧ i ∉ s.inUse) ↔ h.inCache = false) := by
  obtain ⟨wf, _⟩ := lruReach_wf C s hr
  have hiu : i ∈ s.inUse ↔ 2 ≤ h.refs ∧ h.inCache = true := by
    rw [wf.inUseSpec i]
    constructor
    · rintro ⟨h', hg', hic', hr'⟩
      rw [hg] at hg'
      cases hg'
      exact ⟨hr', hic'⟩
    · rintro ⟨hr', hic'⟩
      exact ⟨h, hg, hic', hr'⟩
  have hlr : i ∈ s.lru ↔ h.refs = 1 ∧ h.inCache = true := by
    rw [wf.lruSpec i]
    constructor
    · rintro ⟨h', hg', hic', hr'⟩
      rw [hg] at hg'
      cases hg'
      exact ⟨hr', hic'⟩
    · rintro ⟨hr', hic'⟩
      exact ⟨h, hg, hic', hr'⟩
  refine ⟨hiu, hlr, ?_⟩
  have hpos := wf.refsPos i h hg
  constructor
  · rintro ⟨hnl, hnu⟩
    cases hic : h.inCache with
    | false => rfl
    | true =>
      exfalso
      by_cases hr1 : h.refs = 1
      · exact hnl (hlr.mpr ⟨hr1, hic⟩)
      · exact hnu (hiu.mpr ⟨by omega, hic⟩)
  · intro hic
    constructor
    · intro hm
      rw [(hlr.mp hm).2] at hic
      cases hic
    · intro hm
      rw [(hiu.mp hm).2] at hic
      cases hic

theorem lru_list_invariant_witness :
    heapGet ((LRUCache.empty 1).Insert [5] 0 7 1).1.heap 0
        = some ⟨7, 1, [5], 0, true, 2⟩ ∧
    ((0 ∈ ((LRUCache.empty 1).Insert [5] 0 7 1).1.inUse ↔
        2 ≤ (⟨7, 1, [5], 0, true, 2⟩ : LRUHandle).refs ∧
        (⟨7, 1, [5], 0, true, 2⟩ : LRUHandle).inCache = true) ∧
      (0 ∈ ((LRUCache.empty 1).Insert [5] 0 7 1).1.lru ↔
        (⟨7, 1, [5], 0, true, 2⟩ : LRUHandle).refs = 1 ∧
        (⟨7, 1, [5], 0, true, 2⟩ : LRUHandle).inCache = true) ∧
      ((0 ∉ ((LRUCache.empty 1).Insert [5] 0 7 1).1.lru ∧
        0 ∉ ((LRUCache.empty 1).Insert [5] 0 7 1).1.inUse) ↔
        (⟨7, 1, [5], 0, true, 2⟩ : LRUHandle).inCache = false)) :=
  ⟨by decide,
    lru_list_invariant 1 ((LRUCache.empty 1).Insert [5] 0 7 1).1
      (LRUReach.insert (LRUCache.empty 1) [5] 0 7 1 LRUReach.empty)
      0 ⟨7, 1, [5], 0, true, 2⟩ (by decide)⟩

/-- The final state of the C4 counterexample run: capacity 1, two inserts of
charge 1 each, both handles then Released. -/
def c4state : LRUCache :=
  ((((LRUCache.empty 1).Insert [1] 0 0 1).1.Insert [2] 1 0 1).1.Release 0).Release 1

/-- C4 counterexample: a shard with capacity 1 reached by Insert and Release
alone, in which no handle has more than one reference outstanding, yet
usage = 2 > 1. Release never evicts, so usage stays above the capacity
until the next Insert, Erase or Prune. -/
theorem lru_capacity_counterexample :
    LRUReach 1 c4state ∧
    (∀ i h, heapGet c4state.heap i = some h → h.refs ≤ 1) ∧
    ¬ c4state.usage ≤ 1 := by
  refine ⟨?_, ?_, by decide⟩
  · exact LRUReach.release _ 1 ⟨0, 1, [2], 1, true, 2⟩
      (LRUReach.release _ 0 ⟨0, 1, [1], 0, true, 2⟩
        (LRUReach.insert _ [2] 1 0 1
          (LRUReach.insert _ [1] 0 0 1 LRUReach.empty))
        (by decide) (by decide))
      (by decide) (by decide)
  · intro i h hg
    have hi : i < c4state.heap.length := heapGet_some_lt _ _ _ hg
    have hlen : c4state.heap.length = 2 := by decide
    rw [hlen] at hi
    interval_cases i
    · rw [show heapGet c4state.heap 0 = some ⟨0, 1, [1], 0, true, 1⟩ from
        by decide] at hg
      injection hg with hh
      rw [← hh]
    · rw [show heapGet c4state.heap 1 = some ⟨0, 1, [2], 1, true, 1⟩ from
        by decide] at hg
      injection hg with hh
      rw [← hh]

/-- C4 (amended): usage ≤ capacity holds in every state reachable by a
client who keeps each charge at most the capacity and has Released every
outstanding handle before each Insert (so that at Insert time no handle
carries an external reference). -/
theorem lru_capacity_quiescent (C : Nat) (s : LRUCache)
    (hr : LRUReachQ C s) : s.usage ≤ C :=
  (lruReachQ_inv C s hr).2.2

theorem lru_capacity_quiescent_witness :
    ((((LRUCache.empty 1).Insert [1] 0 0 1).1.Release 0).Insert
        [2] 1 0 1).1.usage ≤ 1 :=
  lru_capacity_quiescent 1 _
    (LRUReachQ.insert _ [2] 1 0 1
      (LRUReachQ.release _ 0 ⟨0, 1, [1], 0, true, 2⟩
        (LRUReachQ.insert _ [1] 0 0 1 LRUReachQ.empty (by norm_num)
          (fun i h hg => by
            rw [show (LRUCache.empty 1).heap = [] from rfl, heapGet_nil] at hg
            cases hg))
        (by decide) (by decide))
      (by norm_num)
      (fun i h hg => by
        have hi : i < (((LRUCache.empty 1).Insert [1] 0 0 1).1.Release 0).heap.length :=
          heapGet_some_lt _ _ _ hg
        have hlen : (((LRUCache.empty 1).Insert [1] 0 0 1).1.Release 0).heap.length = 1 :=
          by decide
        rw [hlen] at hi
        interval_cases i
        rw [show heapGet (((LRUCache.empty 1).Insert [1] 0 0 1).1.Release 0).heap 0
            = some ⟨0, 1, [1], 0, true, 1⟩ from by decide] at hg
        injection hg with hh
        rw [← hh]
        decide))

/-- C6 counterexample: a well-formed filter block built by the
FilterBlockBuilder itself, whose probed filter is empty (equal consecutive
recorded offsets) and whose policy answers true on every probe;
KeyMayMatch returns true, not false, because start = limit together with
limit ≤ offset-array-start falls into the delegating branch, which is
always the case on a well-formed block. -/
theorem filter_empty_reject_counterexample :
    DecodeFixed32 (c6reader.data.drop c6reader.offsetStart)
        = DecodeFixed32 (c6reader.data.drop (c6reader.offsetStart + 4)) ∧
    0 / 2 ^ c6reader.baseLg < c6reader.num ∧
    c6reader.KeyMayMatch 0 [7] = true := by decide

/-- C6 (amended): when the probed filter index is in range and the filter
is empty (its recorded start offset equals the next recorded offset),
KeyMayMatch delegates to the policy with a zero-length filter slice
whenever that offset lies within the offset-array start (always the case
on a well-formed block), and returns false only in the remaining
corrupt-offsets case; an out-of-range index always answers "may match". -/
theorem filter_empty_probe (r : FilterBlockReader) (o : Nat) (k : List Nat)
    (hempty : DecodeFixed32 (r.data.drop (r.offsetStart + o / 2 ^ r.baseLg * 4))
      = DecodeFixed32 (r.data.drop (r.offsetStart + o / 2 ^ r.baseLg * 4 + 4))) :
    (o / 2 ^ r.baseLg < r.num →
      r.KeyMayMatch o k =
        if DecodeFixed32 (r.data.drop (r.offsetStart + o / 2 ^ r.baseLg * 4 + 4))
            ≤ r.offsetStart
        then r.policy.keyMayMatch k []
        else false) ∧
    (r.num ≤ o / 2 ^ r.baseLg → r.KeyMayMatch o k = true) := by
  constructor
  · intro hidx
    unfold FilterBlockReader.KeyMayMatch
    simp only [if_pos hidx]
    by_cases hle :
        DecodeFixed32 (r.data.drop (r.offsetStart + o / 2 ^ r.baseLg * 4 + 4))
          ≤ r.offsetStart
    · rw [if_pos hle, if_pos ⟨le_of_eq hempty, hle⟩]
      simp [hempty]
    · rw [if_neg hle, if_neg (fun hc => hle hc.2), if_pos hempty]
  · intro hge
    unfold FilterBlockReader.KeyMayMatch
    simp only [if_neg (show ¬o / 2 ^ r.baseLg < r.num by omega)]

theorem filter_empty_probe_witness :
    (0 / 2 ^ c6reader.baseLg < c6reader.num →
      c6reader.KeyMayMatch 0 [7] =
        if DecodeFixed32 (c6reader.data.drop
            (c6reader.offsetStart + 0 / 2 ^ c6reader.baseLg * 4 + 4))
            ≤ c6reader.offsetStart
        then c6reader.policy.keyMayMatch [7] []
        else false) ∧
    (c6reader.num ≤ 0 / 2 ^ c6reader.baseLg →
      c6reader.KeyMayMatch 0 [7] = true) :=
  filter_empty_probe c6reader 0 [7] (by decide)

theorem decodeFixed32_encode_append (v : Nat) (rest : List Nat)
    (hv : v < 2 ^ 32) : DecodeFixed32 (EncodeFixed32 v ++ rest) = v := by
  unfold DecodeFixed32 EncodeFixed32
  simp only [List.cons_append, List.nil_append, List.getD_cons_zero,
    List.getD_cons_succ]
  omega

theorem startsOf_length (ks : List (List Nat)) :
    (startsOf ks).length = ks.length := by
  induction ks with
  | nil => rfl
  | cons k t ih => simp [startsOf, ih]

theorem startsOf_append_single (ks : List (List Nat)) (k : List Nat) :
    startsOf (ks ++ [k]) = startsOf ks ++ [ks.flatten.length] := by
  induction ks with
  | nil => simp [startsOf]
  | cons a t ih =>
    show 0 :: (startsOf (t ++ [k])).map (· + a.length)
        = (0 :: (startsOf t).map (· + a.length)) ++ [((a :: t).flatten).length]
    rw [ih, List.map_append]
    simp [Nat.add_comm]

theorem getD_map_range (f : Nat → Nat) (n i : Nat) (h : i < n) :
    ((List.range n).map f).getD i 0 = f i := by
  rw [List.getD_eq_getElem _ _ (by simpa using h)]
  simp

theorem getD_map_add (l : List Nat) (c i : Nat) (h : i < l.length) :
    (l.map (· + c)).getD i 0 = l.getD i 0 + c := by
  rw [List.getD_eq_getElem _ _ (by simpa using h), List.getD_eq_getElem _ _ h]
  simp

theorem startsOf_getD_zero (t : List (List Nat)) :
    (startsOf t ++ [t.flatten.length]).getD 0 0 = 0 := by
  cases t with
  | nil => rfl
  | cons a s => rfl

theorem startsOf_reconstruct (ks : List (List Nat)) :
    (List.range ks.length).map (fun i =>
      ((ks.flatten.drop ((startsOf ks ++ [ks.flatten.length]).getD i 0)).take
        ((startsOf ks ++ [ks.flatten.length]).getD (i + 1) 0
          - (startsOf ks ++ [ks.flatten.length]).getD i 0))) = ks := by
  induction ks with
  | nil => rfl
  | cons k t ih =>
    have hS : startsOf (k :: t) ++ [(k :: t).flatten.length]
        = 0 :: ((startsOf t ++ [t.flatten.length]).map (· + k.length)) := by
      show 0 :: (startsOf t).map (· + k.length) ++ [((k :: t).flatten).length]
          = 0 :: ((startsOf t ++ [t.flatten.length]).map (· + k.length))
      rw [List.map_append]
      simp [Nat.add_comm]
    have hSlen : (startsOf t ++ [t.flatten.length]).length = t.length + 1 := by
      simp [startsOf_length]
    simp only [hS, List.length_cons]
    rw [List.range_succ_eq_map, List.map_cons, List.map_map]
    have hhead : ((k :: t).flatten.drop ((0 ::
          (startsOf t ++ [t.flatten.length]).map (· + k.length)).getD 0 0)).take
        ((0 :: (startsOf t ++ [t.flatten.length]).map (· + k.length)).getD 1 0
          - (0 :: (startsOf t ++ [t.flatten.length]).map (· + k.length)).getD 0 0)
        = k := by
      have h1 : (0 :: (startsOf t ++ [t.flatten.length]).map
          (· + k.length)).getD 1 0 = k.length := by
        show ((startsOf t ++ [t.flatten.length]).map (· + k.length)).getD 0 0
          = k.length
        rw [getD_map_add _ _ _ (by omega), startsOf_getD_zero]
        omega
      rw [h1]
      show ((k ++ t.flatten).drop 0).take (k.length - 0) = k
      simp [List.take_left]
    rw [hhead]
    have htail : ∀ i ∈ List.range t.length,
        ((k :: t).flatten.drop ((0 :: (startsOf t ++ [t.flatten.length]).map
            (· + k.length)).getD (i + 1) 0)).take
          ((0 :: (startsOf t ++ [t.flatten.length]).map
            (· + k.length)).getD (i + 1 + 1) 0
            - (0 :: (startsOf t ++ [t.flatten.length]).map
              (· + k.length)).getD (i + 1) 0)
        = ((t.flatten.drop ((startsOf t ++ [t.flatten.length]).getD i 0)).take
            ((startsOf t ++ [t.flatten.length]).getD (i + 1) 0
              - (startsOf t ++ [t.flatten.length]).getD i 0)) := by
      intro i hi
      rw [List.mem_range] at hi
      have hg1 : (0 :: (startsOf t ++ [t.flatten.length]).map
          (· + k.length)).getD (i + 1) 0
          = (startsOf t ++ [t.flatten.length]).getD i 0 + k.length := by
        show ((startsOf t ++ [t.flatten.length]).map (· + k.length)).getD i 0 = _
        rw [getD_map_add _ _ _ (by omega)]
      have hg2 : (0 :: (startsOf t ++ [t.flatten.length]).map
          (· + k.length)).getD (i + 1 + 1) 0
          = (startsOf t ++ [t.flatten.length]).getD (i + 1) 0 + k.length := by
        show ((startsOf t ++ [t.flatten.length]).map (· + k.length)).getD (i + 1) 0 = _
        rw [getD_map_add _ _ _ (by omega)]
      rw [hg1, hg2]
      have hdrop : (k :: t).flatten.drop
          ((startsOf t ++ [t.flatten.length]).getD i 0 + k.length)
          = t.flatten.drop ((startsOf t ++ [t.flatten.length]).getD i 0) := by
        show (k ++ t.flatten).drop _ = _
        rw [Nat.add_comm, List.drop_append]
      rw [hdrop]
      congr 1
      omega
    simp only [Function.comp_def, Nat.succ_eq_add_one]
    rw [List.map_congr_left htail, ih]

theorem getD_concat {α : Type} (l : List α) (x : α) (d : α) :
    (l ++ [x]).getD l.length d = x := by
  rw [List.getD_append_right _ _ _ _ (le_refl _)]
  simp

theorem groupResult_append (p : FilterPolicy) (gs hs : List (List (List Nat))) :
    groupResult p (gs ++ hs) = groupResult p gs ++ groupResult p hs := by
  simp [groupResult]

theorem groupOffsets_append (p : FilterPolicy)
    (groups : List (List (List Nat))) (g : List (List Nat)) :
    (List.range (groups ++ [g]).length).map
        (fun i => (groupResult p ((groups ++ [g]).take i)).length)
      = ((List.range groups.length).map
          fun i => (groupResult p (groups.take i)).length)
        ++ [(groupResult p groups).length] := by
  rw [show (groups ++ [g]).length = groups.length + 1 by simp]
  rw [List.range_succ, List.map_append]
  congr 1
  · apply List.map_congr_left
    intro i hi
    rw [List.mem_range] at hi
    rw [List.take_append_of_le_length (by omega)]
  · rw [List.map_cons, List.map_nil, List.take_left]

theorem fbinv_init (p : FilterPolicy) :
    FBInv p (FilterBlockBuilder.init p) [] [] := ⟨rfl, rfl, rfl, rfl, rfl⟩

theorem fbinv_offsLen (p : FilterPolicy) (b : FilterBlockBuilder)
    (groups : List (List (List Nat))) (pend : List (List Nat))
    (h : FBInv p b groups pend) : b.filterOffsets.length = groups.length := by
  rw [h.offsEq]
  simp

theorem fbinv_addKey (p : FilterPolicy) (b : FilterBlockBuilder)
    (groups : List (List (List Nat))) (pend : List (List Nat)) (k : List Nat)
    (h : FBInv p b groups pend) : FBInv p (b.AddKey k) groups (pend ++ [k]) := by
  obtain ⟨hp, hk, hs, hr, ho⟩ := h
  refine ⟨hp, ?_, ?_, hr, ho⟩
  · show b.keys ++ k = (pend ++ [k]).flatten
    rw [hk]
    simp
  · show b.start ++ [b.keys.length] = startsOf (pend ++ [k])
    rw [hs, hk, startsOf_append_single]

theorem fbinv_generate (p : FilterPolicy) (b : FilterBlockBuilder)
    (groups : List (List (List Nat))) (pend : List (List Nat))
    (h : FBInv p b groups pend) :
    FBInv p b.GenerateFilter (groups ++ [pend]) [] := by
  obtain ⟨hp, hk, hs, hr, ho⟩ := h
  by_cases hn : b.start.length = 0
  · have hpend : pend = [] := by
      rw [hs, startsOf_length] at hn
      exact List.eq_nil_of_length_eq_zero hn
    subst hpend
    simp only [FilterBlockBuilder.GenerateFilter, if_pos hn]
    refine ⟨hp, hk, hs, ?_, ?_⟩
    · show b.result = groupResult p (groups ++ [[]])
      rw [groupResult_append, hr]
      simp [groupResult, filterBytes]
    · show b.filterOffsets ++ [b.result.length] = _
      rw [groupOffsets_append, ho, hr]
  · simp only [FilterBlockBuilder.GenerateFilter, if_neg hn]
    have hpl : pend.length ≠ 0 := by rwa [hs, startsOf_length] at hn
    have htmp : (List.range b.start.length).map (fun i =>
        ((b.keys.drop ((b.start ++ [b.keys.length]).getD i 0)).take
          ((b.start ++ [b.keys.length]).getD (i + 1) 0
            - (b.start ++ [b.keys.length]).getD i 0))) = pend := by
      rw [hs, hk, startsOf_length]
      exact startsOf_reconstruct pend
    refine ⟨hp, rfl, rfl, ?_, ?_⟩
    · show b.result ++ b.policy.createFilter _ = groupResult p (groups ++ [pend])
      rw [hp, htmp, groupResult_append, hr]
      have : groupResult p [pend] = p.createFilter pend := by
        simp [groupResult, filterBytes, hpl]
      rw [this]
    · show b.filterOffsets ++ [b.result.length] = _
      rw [groupOffsets_append, ho, hr]

theorem startBlockGo_inv (p : FilterPolicy) : ∀ (fuel target : Nat)
    (b : FilterBlockBuilder) (groups : List (List (List Nat)))
    (pend : List (List Nat)), FBInv p b groups pend →
    target ≤ groups.length + fuel →
    (groups.length < target →
      FBInv p (FilterBlockBuilder.startBlockGo fuel target b)
        (groups ++ [pend] ++ List.replicate (target - groups.length - 1) [])
        []) ∧
    (target ≤ groups.length →
      FilterBlockBuilder.startBlockGo fuel target b = b) := by
  intro fuel
  induction fuel with
  | zero =>
    intro target b groups pend h hf
    exact ⟨fun hlt => absurd hlt (by omega), fun _ => rfl⟩
  | succ fuel ih =>
    intro target b groups pend h hf
    have hlen := fbinv_offsLen p b groups pend h
    constructor
    · intro hlt
      have hcond : b.filterOffsets.length < target := by omega
      show FBInv p (FilterBlockBuilder.startBlockGo (fuel + 1) target b) _ _
      rw [show FilterBlockBuilder.startBlockGo (fuel + 1) target b
          = FilterBlockBuilder.startBlockGo fuel target b.GenerateFilter by
        simp only [FilterBlockBuilder.startBlockGo, if_pos hcond]]
      have h2 := fbinv_generate p b groups pend h
      have hlen2 : (groups ++ [pend]).length = groups.length + 1 := by simp
      by_cases h3 : groups.length + 1 < target
      · have hres := (ih target _ _ _ h2 (by omega)).1 (by omega)
        have hgeq : (groups ++ [pend]) ++ [([] : List (List Nat))]
              ++ List.replicate (target - (groups ++ [pend]).length - 1) []
            = groups ++ [pend]
              ++ List.replicate (target - groups.length - 1) [] := by
          rw [hlen2, show target - groups.length - 1
            = (target - (groups.length + 1) - 1) + 1 by omega,
            List.replicate_succ]
          simp
        rw [hgeq] at hres
        exact hres
      · have hres := (ih target _ _ _ h2 (by omega)).2 (by omega)
        rw [hres, show target - groups.length - 1 = 0 by omega]
        simpa using h2
    · intro hge
      simp only [FilterBlockBuilder.startBlockGo]
      rw [if_neg (by omega)]

theorem fbinv_startBlock (p : FilterPolicy) (b : FilterBlockBuilder)
    (groups : List (List (List Nat))) (pend : List (List Nat)) (o : Nat)
    (h : FBInv p b groups pend) :
    (groups.length < o / kFilterBase →
      FBInv p (b.StartBlock o)
        (groups ++ [pend]
          ++ List.replicate (o / kFilterBase - groups.length - 1) []) []) ∧
    (o / kFilterBase ≤ groups.length → b.StartBlock o = b) :=
  startBlockGo_inv p (o / kFilterBase) (o / kFilterBase) b groups pend h
    (by omega)

theorem runFBOps_inv (p : FilterPolicy) : ∀ (ops : List FBOp) (cur : Nat)
    (b : FilterBlockBuilder) (groups : List (List (List Nat)))
    (pend : List (List Nat)),
    FBInv p b groups pend → fbMono cur ops = true →
    groups.length = cur / kFilterBase →
    ∃ groups' pend',
      FBInv p (runFBOps b ops) groups' pend' ∧
      groups.length ≤ groups'.length ∧
      (∀ i, i < groups.length → groups'.getD i [] = groups.getD i []) ∧
      (∀ k, k ∈ pend →
        (groups.length < groups'.length ∧
          k ∈ groups'.getD groups.length []) ∨
        (groups'.length = groups.length ∧ k ∈ pend')) ∧
      (∀ o k, (o, k) ∈ fbPairs cur ops →
        (o / kFilterBase < groups'.length ∧
          k ∈ groups'.getD (o / kFilterBase) []) ∨
        (o / kFilterBase = groups'.length ∧ k ∈ pend')) := by
  intro ops
  induction ops with
  | nil =>
    intro cur b groups pend h _ _
    exact ⟨groups, pend, h, le_refl _, fun i _ => rfl,
      fun k hk => Or.inr ⟨rfl, hk⟩,
      fun o k hok => by simp [fbPairs] at hok⟩
  | cons op rest ih =>
    intro cur b groups pend h hmono hcur
    cases op with
    | startBlock o =>
      have hmono' : (decide (cur ≤ o) && fbMono o rest) = true := hmono
      rw [Bool.and_eq_true, decide_eq_true_eq] at hmono'
      obtain ⟨hco, hrest⟩ := hmono'
      have hdivle : cur / kFilterBase ≤ o / kFilterBase :=
        Nat.div_le_div_right hco
      have hsb := fbinv_startBlock p b groups pend o h
      by_cases hlt : groups.length < o / kFilterBase
      · have hmid := hsb.1 hlt
        have hmidlen : (groups ++ [pend]
            ++ List.replicate (o / kFilterBase - groups.length - 1) []).length
            = o / kFilterBase := by
          simp
          omega
        obtain ⟨groups', pend', hinv', hlen', hpre', _, hpairs'⟩ :=
          ih o (b.StartBlock o) _ [] hmid hrest hmidlen
        refine ⟨groups', pend', hinv', by omega, ?_, ?_, ?_⟩
        · intro i hi
          rw [hpre' i (by omega)]
          rw [List.append_assoc]
          rw [List.getD_append _ _ _ _ hi]
        · intro k hk
          have hg : (groups ++ [pend]
              ++ List.replicate (o / kFilterBase - groups.length - 1)
                []).getD groups.length [] = pend := by
            rw [List.getD_append _ _ _ _ (by simp)]
            exact getD_concat _ _ _
          refine Or.inl ⟨by omega, ?_⟩
          rw [hpre' groups.length (by omega), hg]
          exact hk
        · intro o' k hok
          exact hpairs' o' k hok
      · have heq := hsb.2 (by omega)
        have hcur2 : groups.length = o / kFilterBase := by omega
        show ∃ groups' pend',
          FBInv p (runFBOps (b.StartBlock o) rest) groups' pend' ∧ _
        rw [heq]
        obtain ⟨groups', pend', hinv', hlen', hpre', hpend', hpairs'⟩ :=
          ih o b groups pend h hrest hcur2
        exact ⟨groups', pend', hinv', hlen', hpre', hpend', hpairs'⟩
    | addKey k0 =>
      have h2 := fbinv_addKey p b groups pend k0 h
      obtain ⟨groups', pend', hinv', hlen', hpre', hpend', hpairs'⟩ :=
        ih cur (b.AddKey k0) groups (pend ++ [k0]) h2 hmono hcur
      refine ⟨groups', pend', hinv', hlen', hpre', ?_, ?_⟩
      · intro k hk
        exact hpend' k (List.mem_append_left _ hk)
      · intro o k hok
        rw [show fbPairs cur (FBOp.addKey k0 :: rest)
            = (cur, k0) :: fbPairs cur rest from rfl] at hok
        rcases List.mem_cons.mp hok with heq | hmem
        · rw [Prod.mk.injEq] at heq
          obtain ⟨rfl, rfl⟩ := heq
          have := hpend' k (by simp)
          rw [hcur] at this
          rcases this with hl | ⟨he, hm⟩
          · exact Or.inl hl
          · exact Or.inr ⟨he.symm, hm⟩
        · exact hpairs' o k hmem

theorem fixed32Array_length (vals : List Nat) :
    ((vals.map EncodeFixed32).flatten).length = 4 * vals.length := by
  induction vals with
  | nil => rfl
  | cons v t ih =>
    simp only [List.map_cons, List.flatten_cons, List.length_append, ih,
      List.length_cons]
    show 4 + 4 * t.length = 4 * (t.length + 1)
    omega

theorem fixed32Array_drop (vals : List Nat) : ∀ i, i < vals.length →
    ((vals.map EncodeFixed32).flatten).drop (i * 4)
      = EncodeFixed32 (vals.getD i 0)
        ++ ((vals.drop (i + 1)).map EncodeFixed32).flatten := by
  induction vals with
  | nil =>
    intro i hi
    cases hi
  | cons v t ih =>
    intro i hi
    cases i with
    | zero => simp
    | succ n =>
      simp only [List.map_cons, List.flatten_cons, List.getD_cons_succ,
        List.drop_succ_cons]
      rw [show (n + 1) * 4 = (EncodeFixed32 v).length + n * 4 by
        show (n + 1) * 4 = 4 + n * 4
        ring]
      rw [List.drop_append]
      exact ih n (by simpa using hi)

theorem groupResult_take_succ (p : FilterPolicy) (gs : List (List (List Nat)))
    (idx : Nat) (h : idx < gs.length) :
    groupResult p (gs.take (idx + 1))
      = groupResult p (gs.take idx) ++ filterBytes p (gs.getD idx []) := by
  rw [List.take_succ, groupResult_append]
  congr 1
  rw [List.getElem?_eq_getElem h, List.getD_eq_getElem _ _ h]
  simp [groupResult]

theorem groupResult_drop (p : FilterPolicy) (gs : List (List (List Nat)))
    (idx : Nat) (h : idx < gs.length) :
    (groupResult p gs).drop (groupResult p (gs.take idx)).length
      = filterBytes p (gs.getD idx [])
        ++ groupResult p (gs.drop (idx + 1)) := by
  have hsplit : groupResult p gs = groupResult p (gs.take idx)
      ++ (filterBytes p (gs.getD idx [])
        ++ groupResult p (gs.drop (idx + 1))) := by
    conv_lhs => rw [show gs = gs.take (idx + 1) ++ gs.drop (idx + 1) from
      (List.take_append_drop _ _).symm]
    rw [groupResult_append, groupResult_take_succ p gs idx h,
      List.append_assoc]
  rw [hsplit, List.drop_left]

theorem groupResult_take_le (p : FilterPolicy) (gs : List (List (List Nat)))
    (i j : Nat) (hij : i ≤ j) :
    (groupResult p (gs.take i)).length
      ≤ (groupResult p (gs.take j)).length := by
  conv_rhs => rw [show j = i + (j - i) by omega]
  rw [List.take_add, groupResult_append]
  simp

/-- Reading back a finished filter block: a reader over the serialization
of a fully flushed builder answers true on any key of any recorded group
(given a policy with no false negatives). -/
theorem finish_probe (p : FilterPolicy) (b1 : FilterBlockBuilder)
    (groups1 : List (List (List Nat))) (hinv : FBInv p b1 groups1 [])
    (hsize : b1.Finish.length < 2 ^ 32) (o : Nat) (k : List Nat)
    (hidx : o / kFilterBase < groups1.length)
    (hmem : k ∈ groups1.getD (o / kFilterBase) [])
    (hnofn : ∀ ks k', k' ∈ ks → p.keyMayMatch k' (p.createFilter ks) = true) :
    (FilterBlockReader.init p b1.Finish).KeyMayMatch o k = true := by
  have hfin0 : b1.start.length = 0 := by
    rw [hinv.startEq]
    rfl
  have hser : b1.Finish = b1.result
      ++ (b1.filterOffsets.map EncodeFixed32).flatten
      ++ EncodeFixed32 b1.result.length ++ [kFilterBaseLg] := by
    simp only [FilterBlockBuilder.Finish,
      if_neg (show ¬b1.start.length ≠ 0 by simp [hfin0])]
  have hA := hinv.resultEq
  have h4 : ∀ v : Nat, (EncodeFixed32 v).length = 4 := fun _ => rfl
  have harr1 : b1.filterOffsets.map EncodeFixed32
      = ((List.range groups1.length).map
          fun i => (groupResult p (groups1.take i)).length).map
        EncodeFixed32 := by
    rw [hinv.offsEq]
  have harr1len : ((b1.filterOffsets.map EncodeFixed32).flatten).length
      = 4 * groups1.length := by
    rw [harr1, fixed32Array_length]
    simp
  have hflen : b1.Finish.length
      = (groupResult p groups1).length + 4 * groups1.length + 5 := by
    rw [hser]
    simp only [List.length_append, harr1len, hA, h4, List.length_cons,
      List.length_nil]
  have hL32 : (groupResult p groups1).length < 2 ^ 32 := by omega
  have htakeN : groups1.take groups1.length = groups1 := List.take_length _
  have hoffsLe : ∀ i, i ≤ groups1.length →
      (groupResult p (groups1.take i)).length
        ≤ (groupResult p groups1).length := by
    intro i hi
    have := groupResult_take_le p groups1 i groups1.length hi
    rwa [htakeN] at this
  have hvalsfull : (b1.filterOffsets.map EncodeFixed32).flatten
        ++ EncodeFixed32 b1.result.length
      = ((((List.range (groups1.length + 1)).map
          fun i => (groupResult p (groups1.take i)).length).map
            EncodeFixed32).flatten) := by
    rw [harr1, List.range_succ, List.map_append, List.map_append,
      List.flatten_append, hA]
    simp [htakeN]
  have hsplitR : b1.Finish = groupResult p groups1
      ++ (((((List.range (groups1.length + 1)).map
          fun i => (groupResult p (groups1.take i)).length).map
            EncodeFixed32).flatten) ++ [kFilterBaseLg]) := by
    rw [hser, List.append_assoc, List.append_assoc,
      ← List.append_assoc ((b1.filterOffsets.map EncodeFixed32).flatten)
        (EncodeFixed32 b1.result.length) [kFilterBaseLg],
      hvalsfull, hA]
  have hfulllen : (((((List.range (groups1.length + 1)).map
      fun i => (groupResult p (groups1.take i)).length).map
        EncodeFixed32).flatten)).length = 4 * (groups1.length + 1) := by
    rw [fixed32Array_length]
    simp
  have hdecode : ∀ i, i ≤ groups1.length →
      DecodeFixed32 (b1.Finish.drop
          ((groupResult p groups1).length + i * 4))
        = (groupResult p (groups1.take i)).length := by
    intro i hi
    rw [hsplitR, List.drop_append, List.drop_append_eq_append_drop]
    rw [fixed32Array_drop _ i (by simp; omega)]
    rw [getD_map_range _ _ _ (by omega)]
    rw [show i * 4 - (((((List.range (groups1.length + 1)).map
        fun j => (groupResult p (groups1.take j)).length).map
          EncodeFixed32).flatten)).length = 0 by rw [hfulllen]; omega]
    rw [List.append_assoc]
    exact decodeFixed32_encode_append _ _
      (lt_of_le_of_lt (hoffsLe i hi) hL32)
  have hinit : FilterBlockReader.init p b1.Finish
      = ⟨p, b1.Finish, (groupResult p groups1).length, groups1.length,
          kFilterBaseLg⟩ := by
    have hbase : b1.Finish.getD (b1.Finish.length - 1) 0 = kFilterBaseLg := by
      have hidxeq : b1.Finish.length - 1
          = (b1.result ++ (b1.filterOffsets.map EncodeFixed32).flatten
            ++ EncodeFixed32 b1.result.length).length := by
        simp only [List.length_append, harr1len, hA, h4]
        rw [hflen]
        omega
      rw [hidxeq, hser]
      exact getD_concat _ _ _
    have hlast : DecodeFixed32 (b1.Finish.drop (b1.Finish.length - 5))
        = (groupResult p groups1).length := by
      have hd := hdecode groups1.length (le_refl _)
      rw [htakeN] at hd
      rw [show b1.Finish.length - 5
          = (groupResult p groups1).length + groups1.length * 4 by omega]
      exact hd
    simp only [FilterBlockReader.init]
    rw [if_neg (show ¬b1.Finish.length < 5 by omega)]
    rw [hbase, hlast]
    rw [if_neg (show ¬(groupResult p groups1).length
        > b1.Finish.length - 5 by omega)]
    rw [show b1.Finish.length - 5 - (groupResult p groups1).length
        = 4 * groups1.length by omega]
    rw [Nat.mul_div_cancel_left _ (by norm_num : (0 : Nat) < 4)]
  rw [hinit]
  simp only [FilterBlockReader.KeyMayMatch]
  rw [show (2 : Nat) ^ kFilterBaseLg = kFilterBase from rfl]
  rw [if_pos (show o / kFilterBase < groups1.length from hidx)]
  have hstart := hdecode (o / kFilterBase) (by omega)
  have hlimit : DecodeFixed32 (b1.Finish.drop
      ((groupResult p groups1).length + o / kFilterBase * 4 + 4))
      = (groupResult p (groups1.take (o / kFilterBase + 1))).length := by
    have hd := hdecode (o / kFilterBase + 1) (by omega)
    rw [show (groupResult p groups1).length + (o / kFilterBase + 1) * 4
      = (groupResult p groups1).length + o / kFilterBase * 4 + 4 by ring]
      at hd
    exact hd
  rw [hstart, hlimit]
  rw [if_pos ⟨groupResult_take_le p groups1 _ _ (by omega),
    hoffsLe (o / kFilterBase + 1) (by omega)⟩]
  have hgetlen : (groupResult p (groups1.take (o / kFilterBase + 1))).length
      = (groupResult p (groups1.take (o / kFilterBase))).length
        + (filterBytes p (groups1.getD (o / kFilterBase) [])).length := by
    rw [groupResult_take_succ p groups1 _ hidx]
    simp
  have hslice : (b1.Finish.drop
        (groupResult p (groups1.take (o / kFilterBase))).length).take
      ((groupResult p (groups1.take (o / kFilterBase + 1))).length
        - (groupResult p (groups1.take (o / kFilterBase))).length)
      = filterBytes p (groups1.getD (o / kFilterBase) []) := by
    rw [hsplitR, List.drop_append_eq_append_drop]
    rw [show (groupResult p (groups1.take (o / kFilterBase))).length
        - (groupResult p groups1).length = 0 by
      have := hoffsLe (o / kFilterBase) (by omega)
      omega]
    rw [List.drop_zero]
    rw [groupResult_drop p groups1 (o / kFilterBase) hidx]
    rw [List.append_assoc]
    rw [show (groupResult p (groups1.take (o / kFilterBase + 1))).length
        - (groupResult p (groups1.take (o / kFilterBase))).length
        = (filterBytes p (groups1.getD (o / kFilterBase) [])).length by
      rw [hgetlen]
      omega]
    exact List.take_left _ _
  rw [hslice]
  have hgne : ¬(groups1.getD (o / kFilterBase) []).length = 0 := by
    intro h0
    rw [List.eq_nil_of_length_eq_zero h0] at hmem
    cases hmem
  rw [show filterBytes p (groups1.getD (o / kFilterBase) [])
      = p.createFilter (groups1.getD (o / kFilterBase) []) by
    unfold filterBytes
    rw [if_neg hgne]]
  exact hnofn _ k hmem

/-- C5: assuming the filter policy has no false negatives, for every
sequence of StartBlock/AddKey calls with nondecreasing block offsets whose
finished block fits 32-bit offsets, and every key k added while block
offset o was the most recent StartBlock argument, a FilterBlockReader over
the finished block answers KeyMayMatch(o, k) = true. -/
theorem filter_block_soundness (p : FilterPolicy)
    (hnofn : ∀ ks k', k' ∈ ks → p.keyMayMatch k' (p.createFilter ks) = true)
    (ops : List FBOp) (hmono : fbMono 0 ops = true)
    (hsize : (runFBOps (FilterBlockBuilder.init p) ops).Finish.length < 2 ^ 32)
    (o : Nat) (k : List Nat) (hin : (o, k) ∈ fbPairs 0 ops) :
    (FilterBlockReader.init p
      (runFBOps (FilterBlockBuilder.init p) ops).Finish).KeyMayMatch o k
      = true := by
  obtain ⟨groups', pend', hinv, _, _, _, hpairs⟩ :=
    runFBOps_inv p ops 0 (FilterBlockBuilder.init p) [] []
      (fbinv_init p) hmono (by simp)
  by_cases hps : pend' = []
  · subst hps
    rcases hpairs o k hin with ⟨hlt, hmem⟩ | ⟨_, hmem⟩
    · exact finish_probe p _ groups' hinv hsize o k hlt hmem hnofn
    · cases hmem
  · have hlenne : (runFBOps (FilterBlockBuilder.init p) ops).start.length
        ≠ 0 := by
      rw [hinv.startEq, startsOf_length]
      intro h0
      exact hps (List.eq_nil_of_length_eq_zero h0)
    have hinv2 := fbinv_generate p _ _ _ hinv
    have hlen0 :
        ((runFBOps (FilterBlockBuilder.init p) ops).GenerateFilter).start.length
        = 0 := by
      rw [hinv2.startEq]
      rfl
    have hfeq : (runFBOps (FilterBlockBuilder.init p) ops).Finish
        = ((runFBOps (FilterBlockBuilder.init p) ops).GenerateFilter).Finish := by
      simp only [FilterBlockBuilder.Finish, if_pos hlenne,
        if_neg (show ¬((runFBOps (FilterBlockBuilder.init p)
          ops).GenerateFilter).start.length ≠ 0 by simp [hlen0])]
    rw [hfeq]
    rw [hfeq] at hsize
    rcases hpairs o k hin with ⟨hlt, hmem⟩ | ⟨heq, hmem⟩
    · refine finish_probe p _ (groups' ++ [pend']) hinv2 hsize o k
        (by simp; omega) ?_ hnofn
      rw [List.getD_append _ _ _ _ hlt]
      exact hmem
    · refine finish_probe p _ (groups' ++ [pend']) hinv2 hsize o k
        (by simp; omega) ?_ hnofn
      rw [heq, getD_concat]
      exact hmem

theorem filter_block_soundness_witness :
    (FilterBlockReader.init alwaysTruePolicy
      (runFBOps (FilterBlockBuilder.init alwaysTruePolicy)
        [FBOp.addKey [3]]).Finish).KeyMayMatch 0 [3] = true :=
  filter_block_soundness alwaysTruePolicy (fun _ _ _ => rfl)
    [FBOp.addKey [3]] rfl (by decide) 0 [3] (by decide)

theorem CmpOK.eq_symm {K : Type} {cmp : K → K → Int} (h : CmpOK cmp)
    {a b : K} (hab : cmp a b = 0) : cmp b a = 0 := by
  have h1 := h.asymm a b
  have h2 := h.asymm b a
  omega

theorem CmpOK.irrefl {K : Type} {cmp : K → K → Int} (h : CmpOK cmp) (a : K) :
    ¬cmp a a < 0 := by
  have h1 := h.asymm a a
  omega

theorem CmpOK.eq_right {K : Type} {cmp : K → K → Int} (h : CmpOK cmp)
    {a b c : K} (hab : cmp a b = 0) (hca : cmp c a < 0) : cmp c b < 0 := by
  rcases lt_trichotomy (cmp c b) 0 with h1 | h1 | h1
  · exact h1
  · exfalso
    have := h.eq_left c b a h1
    have hba := h.eq_symm hab
    have h2 := h.asymm c a
    omega
  · exfalso
    have hbc : cmp b c < 0 := by
      have := h.asymm b c
      omega
    have hba := h.eq_symm hab
    have hac := h.eq_left b a c hba hbc
    have := h.asymm c a
    omega

theorem linksAt_suffix {K : Type} (s : SkipList K) (lvl : Nat) :
    ∀ (c1 : List Nat) (x : Option Nat) (j : Nat) (c2 : List Nat),
    LinksAt s lvl x (c1 ++ j :: c2) → LinksAt s lvl (some j) c2 := by
  intro c1
  induction c1 with
  | nil =>
    intro x j c2 h
    cases h with
    | cons _ h2 => exact h2
  | cons a t ih =>
    intro x j c2 h
    cases h with
    | cons _ h2 => exact ih _ j c2 h2

theorem linksAt_to_traverse {K : Type} (s : SkipList K) (lvl : Nat) :
    ∀ (c1 c2 : List Nat) (x : Option Nat),
    LinksAt s lvl x (c1 ++ c2) →
    ∃ p, Traverse s lvl x c1 p ∧ LinksAt s lvl p c2 := by
  intro c1
  induction c1 with
  | nil =>
    intro c2 x h
    exact ⟨x, Traverse.nil, h⟩
  | cons a t ih =>
    intro c2 x h
    cases h with
    | cons h1 h2 =>
      obtain ⟨p, hp1, hp2⟩ := ih c2 _ h2
      exact ⟨p, Traverse.cons h1 hp1, hp2⟩

theorem traverse_links {K : Type} {s : SkipList K} {lvl : Nat} :
    ∀ {x : Option Nat} {c : List Nat} {p : Option Nat},
    Traverse s lvl x c p → ∀ {d : List Nat}, LinksAt s lvl p d →
    LinksAt s lvl x (c ++ d) := by
  intro x c p htr
  induction htr with
  | nil => intro d hd; exact hd
  | cons h1 _ ih => intro d hd; exact LinksAt.cons h1 (ih hd)

theorem traverse_trans {K : Type} {s : SkipList K} {lvl : Nat} :
    ∀ {x : Option Nat} {c : List Nat} {p : Option Nat},
    Traverse s lvl x c p → ∀ {d : List Nat} {q : Option Nat},
    Traverse s lvl p d q → Traverse s lvl x (c ++ d) q := by
  intro x c p htr
  induction htr with
  | nil => intro d q hd; exact hd
  | cons h1 _ ih => intro d q hd; exact Traverse.cons h1 (ih hd)

theorem traverse_end {K : Type} {s : SkipList K} {lvl : Nat} :
    ∀ {x : Option Nat} {c : List Nat} {p : Option Nat},
    Traverse s lvl x c p →
    (c = [] ∧ p = x) ∨ ∃ j, j ∈ c ∧ c.getLast? = some j ∧ p = some j := by
  intro x c p htr
  induction htr with
  | nil => exact Or.inl ⟨rfl, rfl⟩
  | @cons x' j c' p' h1 h2 ih =>
    right
    rcases ih with ⟨hc, hp⟩ | ⟨j', hj1, hj2, hj3⟩
    · subst hc
      exact ⟨j, List.mem_singleton_self j, rfl, hp⟩
    · refine ⟨j', List.mem_cons_of_mem j hj1, ?_, hj3⟩
      cases c' with
      | nil => cases hj1
      | cons a t =>
        rw [List.getLast?_cons_cons]
        exact hj2

/-- Chains transfer to a state whose links agree on the traversed slots. -/
theorem linksAt_congr {K : Type} {s s' : SkipList K} {lvl : Nat} :
    ∀ {x : Option Nat} {c : List Nat},
    LinksAt s lvl x c →
    (∀ y, (y = x ∨ ∃ j ∈ c, y = some j) → nodeNext s' y lvl = nodeNext s y lvl) →
    LinksAt s' lvl x c := by
  intro x c h
  induction h with
  | @nil x' hn =>
    intro hch
    exact LinksAt.nil (by rw [hch x' (Or.inl rfl)]; exact hn)
  | @cons x' j c' hn _ ih =>
    intro hch
    refine LinksAt.cons (by rw [hch x' (Or.inl rfl)]; exact hn) (ih ?_)
    intro y hy
    apply hch
    rcases hy with rfl | ⟨j', hj', rfl⟩
    · exact Or.inr ⟨j, List.mem_cons_self _ _, rfl⟩
    · exact Or.inr ⟨j', List.mem_cons_of_mem _ hj', rfl⟩

/-- Traversals transfer to a state whose links agree on all slots except
possibly the endpoint's (the endpoint's own link is not read). -/
theorem traverse_congr {K : Type} {s s' : SkipList K} {lvl : Nat} :
    ∀ {x : Option Nat} {c : List Nat} {p : Option Nat},
    Traverse s lvl x c p → c.Nodup → (∀ j ∈ c, x ≠ some j) →
    (∀ y, y ≠ p → (y = x ∨ ∃ j ∈ c, y = some j) →
      nodeNext s' y lvl = nodeNext s y lvl) →
    Traverse s' lvl x c p := by
  intro x c p h
  induction h with
  | nil => intro _ _ _; exact Traverse.nil
  | @cons x' j c' p' hn htr ih =>
    intro hnd hxc hch
    have hxp : x' ≠ p' := by
      rcases traverse_end (Traverse.cons hn htr) with ⟨hc, _⟩ | ⟨j', hj1, _, hj3⟩
      · cases hc
      · rw [hj3]
        exact hxc j' hj1
    refine Traverse.cons (by rw [hch x' hxp (Or.inl rfl)]; exact hn) ?_
    refine ih (List.nodup_cons.mp hnd).2 ?_ ?_
    · intro j' hj' he
      rw [Option.some.injEq] at he
      subst he
      exact (List.nodup_cons.mp hnd).1 hj'
    · intro y hyp hy
      apply hch y hyp
      rcases hy with rfl | ⟨j', hj', rfl⟩
      · exact Or.inr ⟨j, List.mem_cons_self _ _, rfl⟩
      · exact Or.inr ⟨j', List.mem_cons_of_mem _ hj', rfl⟩

theorem keyIsAfterNode_iff {K : Type} (cmp : K → K → Int) (s : SkipList K)
    (key : K) (j : Nat) :
    keyIsAfterNode cmp s key (some j) = true ↔ ltKey cmp s j key := by
  unfold keyIsAfterNode ltKey keyAt?
  simp only [List.get?_eq_getElem?]
  cases hg : s.nodes[j]? <;> simp [hg]

/-- All of a sorted chain's tail is at-or-after `key` once its head is. -/
theorem chain_ge_of_head {K : Type} {cmp : K → K → Int} (hc : CmpOK cmp)
    {s : SkipList K} {b : List Nat} {key : K}
    (hsort : b.Pairwise (ltAt cmp s))
    (hb : ∀ j, b.head? = some j → ¬ltKey cmp s j key) :
    ∀ i ∈ b, ¬ltKey cmp s i key := by
  cases b with
  | nil => intro i hi; cases hi
  | cons j t =>
    intro i hi
    rcases List.mem_cons.mp hi with rfl | hit
    · exact hb i rfl
    · rintro ⟨ki, hki, hlt⟩
      have hji : ltAt cmp s j i := (List.pairwise_cons.mp hsort).1 i hit
      obtain ⟨kj, ki', hkj, hki', hlt'⟩ := hji
      rw [hki] at hki'
      cases hki'
      exact hb j rfl ⟨kj, hkj, hc.lt_trans _ _ _ hlt' hlt⟩

/-- All of a sorted chain's prefix is strictly before `key` when the member
just after it is. -/
theorem chain_lt_of_mem {K : Type} {cmp : K → K → Int} (hc : CmpOK cmp)
    {s : SkipList K} {c1 : List Nat} {i : Nat} {c2 : List Nat} {key : K}
    (hsort : (c1 ++ i :: c2).Pairwise (ltAt cmp s))
    (hik : ltKey cmp s i key) :
    ∀ e ∈ c1, ltKey cmp s e key := by
  intro e he
  have hei : ltAt cmp s e i := by
    have := List.pairwise_append.mp hsort
    exact this.2.2 e he i (List.mem_cons_self _ _)
  obtain ⟨ke, ki, hke, hki, hlt⟩ := hei
  obtain ⟨ki', hki', hlt'⟩ := hik
  rw [hki] at hki'
  cases hki'
  exact ⟨ke, hke, hc.lt_trans _ _ _ hlt hlt'⟩

/-- The within-level walk splits the suffix chain at the first node not
before `key`: it traverses the strictly-smaller prefix and stops there. -/
theorem walkLevel_spec {K : Type} (cmp : K → K → Int) (s : SkipList K)
    (key : K) (lvl : Nat) : ∀ (fuel : Nat) (x : Option Nat) (c : List Nat),
    LinksAt s lvl x c → c.length ≤ fuel →
    ∃ a b, c = a ++ b ∧ (∀ i ∈ a, ltKey cmp s i key) ∧
      Traverse s lvl x a (walkLevel cmp s key fuel x lvl) ∧
      LinksAt s lvl (walkLevel cmp s key fuel x lvl) b ∧
      (∀ j, b.head? = some j → ¬ltKey cmp s j key) := by
  intro fuel
  induction fuel with
  | zero =>
    intro x c hc0 hlen
    have hcnil : c = [] := List.eq_nil_of_length_eq_zero (by omega)
    subst hcnil
    exact ⟨[], [], rfl, by simp, Traverse.nil, hc0, by simp⟩
  | succ fuel ih =>
    intro x c hc0 hlen
    cases hc0 with
    | nil hnx =>
      rw [show walkLevel cmp s key (fuel + 1) x lvl = x by
        simp [walkLevel, hnx, keyIsAfterNode]]
      exact ⟨[], [], rfl, by simp, Traverse.nil, LinksAt.nil hnx, by simp⟩
    | @cons _ j c' hnx hrest =>
      by_cases hafter : keyIsAfterNode cmp s key (nodeNext s x lvl) = true
      · rw [show walkLevel cmp s key (fuel + 1) x lvl
            = walkLevel cmp s key fuel (some j) lvl by
          rw [walkLevel, if_pos hafter, hnx]]
        obtain ⟨a, b, hab, ha, htr, hlk, hb⟩ :=
          ih (some j) c' hrest (by
            rw [List.length_cons] at hlen
            omega)
        have hjlt : ltKey cmp s j key := by
          rw [hnx, keyIsAfterNode_iff] at hafter
          exact hafter
        refine ⟨j :: a, b, by rw [hab]; rfl, ?_, Traverse.cons hnx htr, hlk,
          hb⟩
        intro i hi
        rcases List.mem_cons.mp hi with rfl | hia
        · exact hjlt
        · exact ha i hia
      · rw [show walkLevel cmp s key (fuel + 1) x lvl = x by
          rw [walkLevel, if_neg hafter]]
        refine ⟨[], j :: c', rfl, by simp, Traverse.nil,
          LinksAt.cons hnx hrest, ?_⟩
        intro j' hj'
        rw [List.head?_cons, Option.some.injEq] at hj'
        subst hj'
        rw [hnx, keyIsAfterNode_iff] at hafter
        exact fun hl => hafter hl

theorem ltAt_irrefl {K : Type} {cmp : K → K → Int} (hc : CmpOK cmp)
    (s : SkipList K) (i : Nat) : ¬ltAt cmp s i i := by
  rintro ⟨ki, kj, hki, hkj, hlt⟩
  rw [hki] at hkj
  cases hkj
  exact hc.irrefl _ hlt

theorem chain_nodup {K : Type} {cmp : K → K → Int} (hc : CmpOK cmp)
    {s : SkipList K} {c : List Nat} (hsort : c.Pairwise (ltAt cmp s)) :
    c.Nodup := by
  refine hsort.imp ?_
  intro i j hij
  intro he
  subst he
  exact ltAt_irrefl hc s i hij

theorem chain_len_le {K : Type} {cmp : K → K → Int} (hc : CmpOK cmp)
    {s : SkipList K} {c : List Nat} (hsort : c.Pairwise (ltAt cmp s))
    (hvalid : ∀ i ∈ c, i < s.nodes.length) : c.length ≤ s.nodes.length := by
  have hsub : c ⊆ List.range s.nodes.length := by
    intro i hi
    rw [List.mem_range]
    exact hvalid i hi
  have := (List.subperm_of_subset (chain_nodup hc hsort) hsub).length_le
  simpa using this

/-- Decompose a level chain at a valid starting pointer: the prefix up to x
is strictly below the key, and the links from x cover the rest. -/
theorem chain_split_at {K : Type} (cmp : K → K → Int) (hc : CmpOK cmp)
    (s : SkipList K) (lvl : Nat) (c : List Nat)
    (hlinks : LinksAt s lvl none c) (hsort : c.Pairwise (ltAt cmp s))
    (key : K) (x : Option Nat)
    (hx : x = none ∨ ∃ i, x = some i ∧ i ∈ c ∧ ltKey cmp s i key) :
    ∃ pre cx, c = pre ++ cx ∧ (∀ e ∈ pre, ltKey cmp s e key) ∧
      Traverse s lvl none pre x ∧ LinksAt s lvl x cx := by
  rcases hx with rfl | ⟨i, rfl, hmemx, hltx⟩
  · exact ⟨[], c, rfl, by simp, Traverse.nil, hlinks⟩
  · obtain ⟨c1, c2, rfl⟩ := List.append_of_mem hmemx
    refine ⟨c1 ++ [i], c2, by simp, ?_, ?_,
      linksAt_suffix s lvl c1 none i c2 hlinks⟩
    · intro e he
      rcases List.mem_append.mp he with he1 | he2
      · exact chain_lt_of_mem hc hsort hltx e he1
      · rw [List.mem_singleton] at he2
        subst he2
        exact hltx
    · have hl2 : LinksAt s lvl none ((c1 ++ [i]) ++ c2) := by
        rw [List.append_assoc]
        simpa using hlinks
      obtain ⟨p, hp1, hp2⟩ := linksAt_to_traverse s lvl (c1 ++ [i]) c2 none hl2
      rcases traverse_end hp1 with ⟨hnil, _⟩ | ⟨j, _, hjlast, hjp⟩
      · simp at hnil
      · rw [List.getLast?_concat, Option.some.injEq] at hjlast
        subst hjlast
        rw [hjp] at hp1
        exact hp1

/-- FindGreaterOrEqual's descending loop: below the starting level every
prev entry splits its chain at the key (prev reaches the end of the
strictly-smaller prefix, and links onward over the at-or-after suffix);
higher prev entries are untouched; the result is the head of the level-0
at-or-after suffix. -/
theorem findGEGo_spec {K : Type} (cmp : K → K → Int) (hc : CmpOK cmp)
    (s : SkipList K) (key : K) (chains : Nat → List Nat)
    (wf : SLWF cmp s chains) :
    ∀ (lvl : Nat) (x : Option Nat) (prev0 : Nat → Option Nat),
    lvl < kMaxHeight →
    (x = none ∨ ∃ i, x = some i ∧ i ∈ chains lvl ∧ ltKey cmp s i key) →
    (∀ l, l ≤ lvl → ∃ a b, chains l = a ++ b ∧
      (∀ i ∈ a, ltKey cmp s i key) ∧ (∀ i ∈ b, ¬ltKey cmp s i key) ∧
      Traverse s l none a ((findGEGo cmp s key lvl x prev0).2 l) ∧
      LinksAt s l ((findGEGo cmp s key lvl x prev0).2 l) b) ∧
    (∀ l, lvl < l → (findGEGo cmp s key lvl x prev0).2 l = prev0 l) ∧
    (∃ a b, chains 0 = a ++ b ∧ (∀ i ∈ a, ltKey cmp s i key) ∧
      (∀ i ∈ b, ¬ltKey cmp s i key) ∧
      (findGEGo cmp s key lvl x prev0).1 = b.head?) := by
  intro lvl
  induction lvl with
  | zero =>
    intro x prev0 hlvl hx
    obtain ⟨pre, cx, hceq, hpre, htrpre, hlkx⟩ :=
      chain_split_at cmp hc s 0 (chains 0) (wf.links 0 hlvl)
        (wf.sorted 0 hlvl) key x hx
    have hcxlen : cx.length ≤ s.nodes.length + 1 := by
      have hval : ∀ i ∈ chains 0, i < s.nodes.length := by
        intro i hi
        exact ((wf.mem 0 hlvl i).mp hi).1
      have := chain_len_le hc (wf.sorted 0 hlvl) hval
      rw [hceq, List.length_append] at this
      omega
    obtain ⟨aw, bw, hcw, haw, htrw, hlkw, hbw⟩ :=
      walkLevel_spec cmp s key 0 (s.nodes.length + 1) x cx hlkx hcxlen
    have hchain : chains 0 = (pre ++ aw) ++ bw := by
      rw [hceq, hcw, List.append_assoc]
    have hAlt : ∀ i ∈ pre ++ aw, ltKey cmp s i key := by
      intro i hi
      rcases List.mem_append.mp hi with h1 | h2
      · exact hpre i h1
      · exact haw i h2
    have hBsort : bw.Pairwise (ltAt cmp s) := by
      have := wf.sorted 0 hlvl
      rw [hchain] at this
      exact (List.pairwise_append.mp this).2.1
    have hBge := chain_ge_of_head hc hBsort hbw
    have htrA : Traverse s 0 none (pre ++ aw)
        (walkLevel cmp s key (s.nodes.length + 1) x 0) :=
      traverse_trans htrpre htrw
    refine ⟨?_, ?_, ?_⟩
    · intro l hl
      have hl0 : l = 0 := by omega
      subst hl0
      refine ⟨pre ++ aw, bw, hchain, hAlt, hBge, ?_, ?_⟩
      · show Traverse s 0 none (pre ++ aw)
          (if (0 : Nat) = 0 then _ else prev0 0)
        rw [if_pos rfl]
        exact htrA
      · show LinksAt s 0 (if (0 : Nat) = 0 then _ else prev0 0) bw
        rw [if_pos rfl]
        exact hlkw
    · intro l hl
      show (if l = 0 then _ else prev0 l) = prev0 l
      rw [if_neg (by omega)]
    · refine ⟨pre ++ aw, bw, hchain, hAlt, hBge, ?_⟩
      show nodeNext s (walkLevel cmp s key (s.nodes.length + 1) x 0) 0
        = bw.head?
      cases hlkw with
      | nil hn => rw [hn]; rfl
      | cons hn _ => rw [hn]; rfl
  | succ l ih =>
    intro x prev0 hlvl hx
    obtain ⟨pre, cx, hceq, hpre, htrpre, hlkx⟩ :=
      chain_split_at cmp hc s (l + 1) (chains (l + 1)) (wf.links (l + 1) hlvl)
        (wf.sorted (l + 1) hlvl) key x hx
    have hcxlen : cx.length ≤ s.nodes.length + 1 := by
      have hval : ∀ i ∈ chains (l + 1), i < s.nodes.length := by
        intro i hi
        exact ((wf.mem (l + 1) hlvl i).mp hi).1
      have := chain_len_le hc (wf.sorted (l + 1) hlvl) hval
      rw [hceq, List.length_append] at this
      omega
    obtain ⟨aw, bw, hcw, haw, htrw, hlkw, hbw⟩ :=
      walkLevel_spec cmp s key (l + 1) (s.nodes.length + 1) x cx hlkx hcxlen
    have hchain : chains (l + 1) = (pre ++ aw) ++ bw := by
      rw [hceq, hcw, List.append_assoc]
    have hAlt : ∀ i ∈ pre ++ aw, ltKey cmp s i key := by
      intro i hi
      rcases List.mem_append.mp hi with h1 | h2
      · exact hpre i h1
      · exact haw i h2
    have hBsort : bw.Pairwise (ltAt cmp s) := by
      have := wf.sorted (l + 1) hlvl
      rw [hchain] at this
      exact (List.pairwise_append.mp this).2.1
    have hBge := chain_ge_of_head hc hBsort hbw
    have htrA : Traverse s (l + 1) none (pre ++ aw)
        (walkLevel cmp s key (s.nodes.length + 1) x (l + 1)) :=
      traverse_trans htrpre htrw
    have hx1 : walkLevel cmp s key (s.nodes.length + 1) x (l + 1) = none ∨
        ∃ i, walkLevel cmp s key (s.nodes.length + 1) x (l + 1) = some i ∧
          i ∈ chains l ∧ ltKey cmp s i key := by
      rcases traverse_end htrA with ⟨_, hpx⟩ | ⟨j, hjmem, _, hjp⟩
      · exact Or.inl hpx
      · refine Or.inr ⟨j, hjp, ?_, hAlt j hjmem⟩
        have hj1 : j ∈ chains (l + 1) := by
          rw [hchain]
          exact List.mem_append_left _ hjmem
        obtain ⟨hjv, hjh⟩ := (wf.mem (l + 1) hlvl j).mp hj1
        exact (wf.mem l (by omega) j).mpr ⟨hjv, by omega⟩
    obtain ⟨ih1, ih2, ih3⟩ := ih
      (walkLevel cmp s key (s.nodes.length + 1) x (l + 1))
      (fun j => if j = l + 1 then
        walkLevel cmp s key (s.nodes.length + 1) x (l + 1) else prev0 j)
      (by omega) hx1
    have hr : findGEGo cmp s key (l + 1) x prev0
        = findGEGo cmp s key l
          (walkLevel cmp s key (s.nodes.length + 1) x (l + 1))
          (fun j => if j = l + 1 then
            walkLevel cmp s key (s.nodes.length + 1) x (l + 1)
          else prev0 j) := by
      simp only [findGEGo]
    rw [hr]
    refine ⟨?_, ?_, ih3⟩
    · intro l' hl'
      by_cases hle : l' ≤ l
      · exact ih1 l' hle
      · have hl'eq : l' = l + 1 := by omega
        subst hl'eq
        rw [ih2 (l + 1) (by omega), if_pos rfl]
        exact ⟨pre ++ aw, bw, hchain, hAlt, hBge, htrA, hlkw⟩
    · intro l' hl'
      rw [ih2 l' (by omega), if_neg (by omega)]

theorem getD_set_self_opt (l : List (Option Nat)) (i : Nat) (x : Option Nat)
    (h : i < l.length) : (l.set i x).getD i none = x := by
  induction l generalizing i with
  | nil => simp at h
  | cons y t ih =>
    cases i with
    | zero => rfl
    | succ n => exact ih n (by simpa using h)

theorem getD_set_ne_opt (l : List (Option Nat)) (i j : Nat) (x : Option Nat)
    (h : i ≠ j) : (l.set i x).getD j none = l.getD j none := by
  induction l generalizing i j with
  | nil => rfl
  | cons y t ih =>
    cases i with
    | zero =>
      cases j with
      | zero => exact absurd rfl h
      | succ m => rfl
    | succ n =>
      cases j with
      | zero => rfl
      | succ m => exact ih n m (by omega)

theorem get?_set_self {α : Type} (l : List α) (i : Nat) (x : α)
    (h : i < l.length) : (l.set i x).get? i = some x := by
  induction l generalizing i with
  | nil => simp at h
  | cons y t ih =>
    cases i with
    | zero => rfl
    | succ n => exact ih n (by simpa using h)

theorem get?_set_ne {α : Type} (l : List α) (i j : Nat) (x : α) (h : i ≠ j) :
    (l.set i x).get? j = l.get? j := by
  induction l generalizing i j with
  | nil => rfl
  | cons y t ih =>
    cases i with
    | zero =>
      cases j with
      | zero => exact absurd rfl h
      | succ m => rfl
    | succ n =>
      cases j with
      | zero => rfl
      | succ m => exact ih n m (by omega)

/-- The linking loop of Insert: each round writes `some nid` into the slot
(prev l, l); the written slots are pairwise distinct across rounds, so the
final state is described pointwise. -/
theorem setLinks_fold_spec {K : Type} (s1 : SkipList K)
    (prev : Nat → Option Nat) (nid : Nat) :
    ∀ (lvls done : List Nat) (acc : SkipList K),
    lvls.Nodup →
    (∀ l ∈ lvls, l ∉ done) →
    (∀ l ∈ lvls, prev l = none → l < s1.headNext.length) →
    (∀ l ∈ lvls, ∀ pi, prev l = some pi →
      l < nodeHeight s1 pi ∧ pi < s1.nodes.length) →
    acc.nodes.length = s1.nodes.length →
    (∀ i, keyAt? acc i = keyAt? s1 i) →
    (∀ i, nodeHeight acc i = nodeHeight s1 i) →
    acc.headNext.length = s1.headNext.length →
    acc.maxHeight = s1.maxHeight →
    (∀ x lvl, nodeNext acc x lvl =
      if lvl ∈ done ∧ x = prev lvl then some nid else nodeNext s1 x lvl) →
    (lvls.foldl (fun a l => slSetLink a (prev l) l (some nid))
        acc).nodes.length = s1.nodes.length ∧
    (∀ i, keyAt? (lvls.foldl (fun a l => slSetLink a (prev l) l (some nid))
        acc) i = keyAt? s1 i) ∧
    (∀ i, nodeHeight (lvls.foldl
        (fun a l => slSetLink a (prev l) l (some nid)) acc) i
      = nodeHeight s1 i) ∧
    (lvls.foldl (fun a l => slSetLink a (prev l) l (some nid))
        acc).headNext.length = s1.headNext.length ∧
    (lvls.foldl (fun a l => slSetLink a (prev l) l (some nid))
        acc).maxHeight = s1.maxHeight ∧
    (∀ x lvl, nodeNext (lvls.foldl
        (fun a l => slSetLink a (prev l) l (some nid)) acc) x lvl =
      if lvl ∈ done ++ lvls ∧ x = prev lvl then some nid
      else nodeNext s1 x lvl) := by
  intro lvls
  induction lvls with
  | nil =>
    intro done acc _ _ _ _ h1 h2 h3 h4 h5 h6
    exact ⟨h1, h2, h3, h4, h5, by simpa using h6⟩
  | cons l t ih =>
    intro done acc hnodup hdone hv1 hv2 h1 h2 h3 h4 h5 h6
    simp only [List.foldl_cons]
    have hmeml : l ∈ l :: t := List.mem_cons_self _ _
    have hnd2 := List.nodup_cons.mp hnodup
    have hiff : ∀ (x : Option Nat) (lvl : Nat), x ≠ prev l ∨ lvl ≠ l →
        ((lvl ∈ done ++ [l] ∧ x = prev lvl) ↔
          (lvl ∈ done ∧ x = prev lvl)) := by
      intro x lvl hor
      constructor
      · rintro ⟨hm, hx⟩
        refine ⟨?_, hx⟩
        rcases List.mem_append.mp hm with h' | h'
        · exact h'
        · rw [List.mem_singleton] at h'
          subst h'
          rcases hor with h | h
          · exact absurd hx h
          · exact absurd rfl h
      · rintro ⟨hm, hx⟩
        exact ⟨List.mem_append_left _ hm, hx⟩
    have hdone' : ∀ l' ∈ t, l' ∉ done ++ [l] := by
      intro l' hl' hmem
      rcases List.mem_append.mp hmem with hm | hm
      · exact hdone l' (List.mem_cons_of_mem _ hl') hm
      · rw [List.mem_singleton] at hm
        subst hm
        exact hnd2.1 hl'
    have happ : (done ++ [l]) ++ t = done ++ l :: t := by simp
    cases hp : prev l with
    | none =>
      have hl : l < acc.headNext.length := by
        rw [h4]
        exact hv1 l hmeml hp
      have hsl : slSetLink acc none l (some nid)
          = { acc with headNext := acc.headNext.set l (some nid) } := rfl
      rw [hsl]
      have h6' : ∀ (x : Option Nat) (lvl : Nat),
          nodeNext { acc with headNext := acc.headNext.set l (some nid) } x lvl
          = if lvl ∈ done ++ [l] ∧ x = prev lvl then some nid
            else nodeNext s1 x lvl := by
        intro x lvl
        cases x with
        | none =>
          show (acc.headNext.set l (some nid)).getD lvl none = _
          by_cases hll : lvl = l
          · subst hll
            rw [getD_set_self_opt _ _ _ hl,
              if_pos ⟨List.mem_append_right _ (List.mem_singleton_self _),
                hp.symm⟩]
          · rw [getD_set_ne_opt _ _ _ _ (fun he => hll he.symm)]
            have hold := h6 none lvl
            calc (acc.headNext.getD lvl none) = _ := hold
            _ = _ := (if_congr (hiff none lvl (Or.inr hll)) rfl rfl).symm
        | some i =>
          have hsame : nodeNext { acc with
              headNext := acc.headNext.set l (some nid) } (some i) lvl
              = nodeNext acc (some i) lvl := rfl
          rw [hsame, h6 (some i) lvl]
          refine (if_congr (hiff (some i) lvl (Or.inl ?_)) rfl rfl).symm
          rw [hp]
          intro he
          cases he
      have hres := ih (done ++ [l])
        { acc with headNext := acc.headNext.set l (some nid) }
        hnd2.2 hdone'
        (fun l' hl' => hv1 l' (List.mem_cons_of_mem _ hl'))
        (fun l' hl' => hv2 l' (List.mem_cons_of_mem _ hl'))
        h1 h2 h3
        (by
          show (acc.headNext.set l (some nid)).length = s1.headNext.length
          rw [List.length_set]
          exact h4)
        h5 h6'
      rw [happ] at hres
      exact hres
    | some pi =>
      obtain ⟨hlt, hpi⟩ := hv2 l hmeml pi hp
      have hpiacc : pi < acc.nodes.length := by omega
      cases hg : acc.nodes.get? pi with
      | none =>
        exfalso
        have := List.get?_eq_none.mp hg
        omega
      | some nd =>
        set nd2 : SLNode K := { nd with next := nd.next.set l (some nid) }
          with hnd2def
        have hndlen : l < nd.next.length := by
          have := h3 pi
          rw [show nodeHeight acc pi = nd.next.length by
            unfold nodeHeight
            rw [hg]] at this
          omega
        have hsl : slSetLink acc (some pi) l (some nid)
            = { acc with nodes := acc.nodes.set pi nd2 } := by
          simp only [slSetLink, hg]
        rw [hsl]
        have hkey' : ∀ i,
            keyAt? { acc with nodes := acc.nodes.set pi nd2 } i
            = keyAt? s1 i := by
          intro i
          by_cases hip : i = pi
          · subst hip
            rw [← h2 i]
            show ((acc.nodes.set i _).get? i).map _ = _
            rw [get?_set_self _ _ _ hpiacc]
            unfold keyAt?
            rw [hg]
            rfl
          · rw [← h2 i]
            show ((acc.nodes.set pi _).get? i).map _ = _
            rw [get?_set_ne _ _ _ _ (fun he => hip he.symm)]
            rfl
        have hh' : ∀ i,
            nodeHeight { acc with nodes := acc.nodes.set pi nd2 } i
            = nodeHeight s1 i := by
          intro i
          by_cases hip : i = pi
          · subst hip
            rw [← h3 i]
            show nodeHeight { acc with nodes := acc.nodes.set i _ } i = _
            unfold nodeHeight
            rw [get?_set_self _ _ _ hpiacc, hg]
            show nd2.next.length = nd.next.length
            rw [hnd2def]
            exact List.length_set _ _ _
          · rw [← h3 i]
            unfold nodeHeight
            rw [get?_set_ne _ _ _ _ (fun he => hip he.symm)]
        have h6' : ∀ (x : Option Nat) (lvl : Nat),
            nodeNext { acc with nodes := acc.nodes.set pi nd2 } x lvl
            = if lvl ∈ done ++ [l] ∧ x = prev lvl then some nid
              else nodeNext s1 x lvl := by
          intro x lvl
          cases x with
          | none =>
            have hsame : nodeNext { acc with
                nodes := acc.nodes.set pi nd2 } none lvl
                = nodeNext acc none lvl := rfl
            rw [hsame, h6 none lvl]
            refine (if_congr (hiff none lvl (Or.inl ?_)) rfl rfl).symm
            rw [hp]
            intro he
            cases he
          | some i =>
            by_cases hip : i = pi
            · subst hip
              show (match (acc.nodes.set i _).get? i with
                | none => none
                | some nd2 => nd2.next.getD lvl none) = _
              rw [get?_set_self _ _ _ hpiacc]
              show (nd.next.set l (some nid)).getD lvl none = _
              by_cases hll : lvl = l
              · subst hll
                rw [getD_set_self_opt _ _ _ hndlen,
                  if_pos ⟨List.mem_append_right _ (List.mem_singleton_self _),
                    hp.symm⟩]
              · rw [getD_set_ne_opt _ _ _ _ (fun he => hll he.symm)]
                have hold := h6 (some i) lvl
                rw [show nodeNext acc (some i) lvl = nd.next.getD lvl none by
                  show (match acc.nodes.get? i with
                    | none => none
                    | some nd2 => nd2.next.getD lvl none) = _
                  rw [hg]] at hold
                calc nd.next.getD lvl none = _ := hold
                _ = _ := (if_congr (hiff (some i) lvl (Or.inr hll)) rfl
                  rfl).symm
            · show (match (acc.nodes.set pi _).get? i with
                | none => none
                | some nd2 => nd2.next.getD lvl none) = _
              rw [get?_set_ne _ _ _ _ (fun he => hip he.symm)]
              have hold := h6 (some i) lvl
              rw [show nodeNext acc (some i) lvl
                  = (match acc.nodes.get? i with
                    | none => none
                    | some nd2 => nd2.next.getD lvl none) from rfl] at hold
              calc (match acc.nodes.get? i with
                | none => none
                | some nd2 => nd2.next.getD lvl none) = _ := hold
              _ = _ := by
                refine (if_congr (hiff (some i) lvl (Or.inl ?_)) rfl rfl).symm
                rw [hp]
                intro he
                rw [Option.some.injEq] at he
                exact hip he
        have hres := ih (done ++ [l])
          { acc with nodes := acc.nodes.set pi nd2 }
          hnd2.2 hdone'
          (fun l' hl' => hv1 l' (List.mem_cons_of_mem _ hl'))
          (fun l' hl' => hv2 l' (List.mem_cons_of_mem _ hl'))
          (by
            show (acc.nodes.set pi _).length = s1.nodes.length
            rw [List.length_set]
            exact h1)
          hkey' hh' h4 h5 h6'
        rw [happ] at hres
        exact hres

theorem getD_map_range_gen {α : Type} (f : Nat → α) (d : α) (n i : Nat)
    (h : i < n) : ((List.range n).map f).getD i d = f i := by
  rw [List.getD_eq_getElem _ _ (by simpa using h)]
  simp

/-- SkipList::Insert preserves well-formedness: the new node is spliced
into every chain up to its height at the position FindGreaterOrEqual
computed, chains above are untouched, and the stored keys grow by exactly
the inserted key. -/
theorem Insert_wf_sl {K : Type} (cmp : K → K → Int) (hc : CmpOK cmp)
    (s : SkipList K) (chains : Nat → List Nat) (wf : SLWF cmp s chains)
    (key : K) (height : Nat) (h1 : 1 ≤ height) (h2 : height ≤ kMaxHeight)
    (hnew : ∀ i ki, keyAt? s i = some ki → cmp ki key ≠ 0) :
    ∃ chains', SLWF cmp (s.Insert cmp key height) chains' ∧
      (s.Insert cmp key height).nodes.map SLNode.key
        = s.nodes.map SLNode.key ++ [key] ∧
      (s.Insert cmp key height).nodes.length = s.nodes.length + 1 := by
  have hmax1 : s.maxHeight - 1 < kMaxHeight := by
    have := wf.maxLe
    omega
  obtain ⟨HS1, HS2, _⟩ := findGEGo_spec cmp hc s key chains wf
    (s.maxHeight - 1) none (fun _ => none) hmax1 (Or.inl rfl)
  have HSplit : ∀ l, l < kMaxHeight → ∃ a b, chains l = a ++ b ∧
      (∀ i ∈ a, ltKey cmp s i key) ∧ (∀ i ∈ b, ¬ltKey cmp s i key) ∧
      Traverse s l none a ((FindGreaterOrEqual cmp s key).2 l) ∧
      LinksAt s l ((FindGreaterOrEqual cmp s key).2 l) b := by
    intro l hl
    by_cases hml : l ≤ s.maxHeight - 1
    · exact HS1 l hml
    · have hchl : chains l = [] := by
        rw [List.eq_nil_iff_forall_not_mem]
        intro i hi
        obtain ⟨hv, hh⟩ := (wf.mem l hl i).mp hi
        have hhh := (wf.heights i hv).2
        have := wf.maxPos
        omega
      have hprev : (FindGreaterOrEqual cmp s key).2 l = none :=
        HS2 l (by omega)
      refine ⟨[], [], by rw [hchl]; rfl, by simp, by simp, ?_, ?_⟩
      · rw [hprev]
        exact Traverse.nil
      · rw [hprev]
        have hold := wf.links l hl
        rw [hchl] at hold
        exact hold
  have HSplit' : ∀ l, ∃ a b, l < kMaxHeight → (chains l = a ++ b ∧
      (∀ i ∈ a, ltKey cmp s i key) ∧ (∀ i ∈ b, ¬ltKey cmp s i key) ∧
      Traverse s l none a ((FindGreaterOrEqual cmp s key).2 l) ∧
      LinksAt s l ((FindGreaterOrEqual cmp s key).2 l) b) := by
    intro l
    by_cases hl : l < kMaxHeight
    · obtain ⟨a, b, hfacts⟩ := HSplit l hl
      exact ⟨a, b, fun _ => hfacts⟩
    · exact ⟨[], [], fun hh => absurd hh hl⟩
  choose A B HAB using HSplit'
  set prevF := (FindGreaterOrEqual cmp s key).2 with hprevF
  set nid := s.nodes.length with hnid
  set s1 : SkipList K := { s with
    maxHeight := if s.maxHeight < height then height else s.maxHeight,
    nodes := s.nodes ++ [⟨key, (List.range height).map fun i =>
      nodeNext s (prevF i) i⟩] } with hs1
  have hs1nodes : s1.nodes = s.nodes
      ++ [⟨key, (List.range height).map fun i => nodeNext s (prevF i) i⟩] :=
    by rw [hs1]
  have hs1head : s1.headNext = s.headNext := by rw [hs1]
  have hs1max : s1.maxHeight
      = if s.maxHeight < height then height else s.maxHeight := by rw [hs1]
  have hins : s.Insert cmp key height = (List.range height).foldl
      (fun acc i => slSetLink acc (prevF i) i (some nid)) s1 := rfl
  have hs1len : s1.nodes.length = s.nodes.length + 1 := by
    rw [hs1nodes]
    simp
  have hkey_old : ∀ i, i < s.nodes.length → keyAt? s1 i = keyAt? s i := by
    intro i hi
    unfold keyAt?
    rw [hs1nodes, List.get?_append hi]
  have hkey_new : keyAt? s1 nid = some key := by
    unfold keyAt?
    rw [hs1nodes, List.get?_concat_length]
    rfl
  have hh_old : ∀ i, i < s.nodes.length → nodeHeight s1 i = nodeHeight s i := by
    intro i hi
    unfold nodeHeight
    rw [hs1nodes, List.get?_append hi]
  have hh_new : nodeHeight s1 nid = height := by
    unfold nodeHeight
    rw [hs1nodes, List.get?_concat_length]
    simp
  have hh_hi : ∀ i, s.nodes.length + 1 ≤ i → nodeHeight s1 i = 0 := by
    intro i hi
    unfold nodeHeight
    rw [hs1nodes, List.get?_eq_none.mpr (by simp; omega)]
  have hnext_old : ∀ (x : Option Nat) (lvl : Nat),
      (x = none ∨ ∃ i, x = some i ∧ i < s.nodes.length) →
      nodeNext s1 x lvl = nodeNext s x lvl := by
    rintro x lvl (rfl | ⟨i, rfl, hi⟩)
    · show s1.headNext.getD lvl none = _
      rw [hs1head]
      rfl
    · show (match s1.nodes.get? i with
        | none => none
        | some nd => nd.next.getD lvl none) = _
      rw [hs1nodes, List.get?_append hi]
      rfl
  have hnext_new : ∀ lvl, lvl < height →
      nodeNext s1 (some nid) lvl = nodeNext s (prevF lvl) lvl := by
    intro lvl hlvl
    show (match s1.nodes.get? nid with
      | none => none
      | some nd => nd.next.getD lvl none) = _
    rw [hs1nodes, List.get?_concat_length]
    exact getD_map_range_gen _ _ _ _ hlvl
  have hnext_new_hi : ∀ lvl, height ≤ lvl →
      nodeNext s1 (some nid) lvl = none := by
    intro lvl hlvl
    show (match s1.nodes.get? nid with
      | none => none
      | some nd => nd.next.getD lvl none) = none
    rw [hs1nodes, List.get?_concat_length]
    exact List.getD_eq_default _ _ (by simp; omega)
  have hprev_shape : ∀ l, l < kMaxHeight →
      prevF l = none ∨ ∃ j, prevF l = some j ∧ j ∈ chains l ∧
        ltKey cmp s j key := by
    intro l hl
    obtain ⟨hchain, hA, _, hTr, _⟩ := HAB l hl
    rcases traverse_end hTr with ⟨_, hpx⟩ | ⟨j, hj1, _, hj3⟩
    · exact Or.inl hpx
    · exact Or.inr ⟨j, hj3, by
        rw [hchain]
        exact List.mem_append_left _ hj1, hA j hj1⟩
  have hv1 : ∀ l ∈ List.range height, prevF l = none →
      l < s1.headNext.length := by
    intro l hlm _
    rw [hs1head, wf.headLen]
    rw [List.mem_range] at hlm
    omega
  have hv2 : ∀ l ∈ List.range height, ∀ pi, prevF l = some pi →
      l < nodeHeight s1 pi ∧ pi < s1.nodes.length := by
    intro l hlm pi hps
    rw [List.mem_range] at hlm
    have hl12 : l < kMaxHeight := by omega
    rcases hprev_shape l hl12 with hn | ⟨j, hj, hjm, _⟩
    · rw [hn] at hps
      cases hps
    · rw [hj, Option.some.injEq] at hps
      subst hps
      obtain ⟨hv, hh⟩ := (wf.mem l hl12 j).mp hjm
      refine ⟨by rw [hh_old j hv]; omega, by omega⟩
  obtain ⟨HF1, HF2, HF3, HF4, HF5, HF6⟩ := setLinks_fold_spec s1 prevF
    nid (List.range height) [] s1 (List.nodup_range _)
    (by simp) hv1 hv2 rfl (fun _ => rfl) (fun _ => rfl) rfl rfl
    (by
      intro x lvl
      rw [if_neg (by simp)])
  rw [← hins] at HF1 HF2 HF3 HF4 HF5 HF6
  have hnext' : ∀ (x : Option Nat) (lvl : Nat),
      nodeNext (s.Insert cmp key height) x lvl
      = if lvl < height ∧ x = prevF lvl then some nid
        else nodeNext s1 x lvl := by
    intro x lvl
    rw [HF6 x lvl]
    exact if_congr (by simp) rfl rfl
  -- key lookups in the final state
  have hkey'_old : ∀ i, i < s.nodes.length →
      keyAt? (s.Insert cmp key height) i = keyAt? s i := by
    intro i hi
    rw [HF2, hkey_old i hi]
  have hkey'_new : keyAt? (s.Insert cmp key height) nid = some key := by
    rw [HF2]
    exact hkey_new
  -- comparisons transfer for old nodes
  have hltAt_old : ∀ i j, i < s.nodes.length → j < s.nodes.length →
      (ltAt cmp s i j ↔ ltAt cmp (s.Insert cmp key height) i j) := by
    intro i j hi hj
    unfold ltAt
    rw [hkey'_old i hi, hkey'_old j hj]
  have hkey_exists : ∀ i, i < s.nodes.length → ∃ ki, keyAt? s i = some ki := by
    intro i hi
    unfold keyAt?
    cases hg : s.nodes.get? i with
    | none =>
      exfalso
      have := List.get?_eq_none.mp hg
      omega
    | some nd => exact ⟨nd.key, rfl⟩
  have hltKey_nid : ∀ i, i < s.nodes.length → ltKey cmp s i key →
      ltAt cmp (s.Insert cmp key height) i nid := by
    rintro i hi ⟨ki, hki, hlt⟩
    exact ⟨ki, key, by rw [hkey'_old i hi]; exact hki, hkey'_new, hlt⟩
  have hnid_gt : ∀ i, i < s.nodes.length → ¬ltKey cmp s i key →
      ltAt cmp (s.Insert cmp key height) nid i := by
    intro i hi hge
    obtain ⟨ki, hki⟩ := hkey_exists i hi
    refine ⟨key, ki, hkey'_new, by rw [hkey'_old i hi]; exact hki, ?_⟩
    have hne := hnew i ki hki
    have hnlt : ¬cmp ki key < 0 := fun hl => hge ⟨ki, hki, hl⟩
    have := hc.asymm key ki
    omega
  -- the new chains
  refine ⟨fun lvl => if lvl < height then A lvl ++ nid :: B lvl
    else chains lvl, ?_, ?_, by rw [HF1, hs1len]⟩
  · refine ⟨?_, ?_, ?_, ?_, ?_, ?_, ?_⟩
    · rw [HF4, hs1head]
      exact wf.headLen
    · rw [HF5, hs1max]
      have := wf.maxPos
      split <;> omega
    · rw [HF5, hs1max]
      have h2' := h2
      have := wf.maxLe
      split <;> omega
    · -- links
      intro lvl hlvl
      obtain ⟨hchain, hA, hB, hTr, hLk⟩ := HAB lvl hlvl
      have hvalidchain : ∀ i, i ∈ chains lvl → i < s.nodes.length :=
        fun i hi => ((wf.mem lvl hlvl i).mp hi).1
      by_cases hlh : lvl < height
      · simp only [if_pos hlh]
        have hprevne : ∀ jb ∈ B lvl, prevF lvl ≠ some jb := by
          intro jb hjb hpe
          rcases hprev_shape lvl hlvl with hn0 | ⟨j0, hj0, _, hj0lt⟩
          · rw [hn0] at hpe
            cases hpe
          · rw [hj0, Option.some.injEq] at hpe
            subst hpe
            exact hB _ hjb hj0lt
        have hprev_not_nid : ¬(some nid = prevF lvl) := by
          rcases hprev_shape lvl hlvl with hn0 | ⟨j0, hj0, hj0m, _⟩
          · rw [hn0]
            intro he
            cases he
          · rw [hj0]
            intro he
            rw [Option.some.injEq] at he
            have := hvalidchain j0 hj0m
            omega
        have hnext_nid : nodeNext (s.Insert cmp key height) (some nid) lvl
            = nodeNext s (prevF lvl) lvl := by
          rw [hnext', if_neg (fun hcond => hprev_not_nid hcond.2),
            hnext_new lvl hlh]
        have hnextB : ∀ jb ∈ B lvl,
            nodeNext (s.Insert cmp key height) (some jb) lvl
            = nodeNext s (some jb) lvl := by
          intro jb hjb
          rw [hnext', if_neg (fun hcond => hprevne jb hjb hcond.2.symm)]
          exact hnext_old _ _ (Or.inr ⟨jb, rfl, hvalidchain jb (by
            rw [hchain]
            exact List.mem_append_right _ hjb)⟩)
        have hTr' : Traverse (s.Insert cmp key height) lvl none (A lvl)
            (prevF lvl) := by
          refine traverse_congr hTr ?_ ?_ ?_
          · have hnd := chain_nodup hc (wf.sorted lvl hlvl)
            rw [hchain] at hnd
            exact hnd.of_append_left
          · intro j _ he
            cases he
          · intro y hyne hy
            rw [hnext', if_neg (fun hcond => hyne hcond.2)]
            apply hnext_old
            rcases hy with rfl | ⟨j, hj, rfl⟩
            · exact Or.inl rfl
            · exact Or.inr ⟨j, rfl, hvalidchain j (by
                rw [hchain]
                exact List.mem_append_left _ hj)⟩
        have hlink_prev : nodeNext (s.Insert cmp key height) (prevF lvl) lvl
            = some nid := by
          rw [hnext', if_pos ⟨hlh, rfl⟩]
        have hlinkB : LinksAt (s.Insert cmp key height) lvl (some nid)
            (B lvl) := by
          have hLk2 := hLk
          generalize hBl : B lvl = bl at hLk2
          cases hLk2 with
          | nil hn => exact LinksAt.nil (by rw [hnext_nid, hn])
          | @cons _ jb tb hn hrest =>
            refine LinksAt.cons (by rw [hnext_nid, hn]) ?_
            refine linksAt_congr hrest ?_
            intro y hy
            rcases hy with rfl | ⟨j', hj', rfl⟩
            · exact hnextB jb (by
                rw [hBl]
                exact List.mem_cons_self _ _)
            · exact hnextB j' (by
                rw [hBl]
                exact List.mem_cons_of_mem _ hj')
        exact traverse_links hTr' (LinksAt.cons hlink_prev hlinkB)
      · simp only [if_neg hlh]
        refine linksAt_congr (wf.links lvl hlvl) ?_
        intro y hy
        rw [hnext', if_neg (fun hcond => hlh hcond.1)]
        apply hnext_old
        rcases hy with rfl | ⟨j, hj, rfl⟩
        · exact Or.inl rfl
        · exact Or.inr ⟨j, rfl, hvalidchain j hj⟩
    · -- membership
      intro lvl hlvl i
      obtain ⟨hchain, hA, hB, hTr, hLk⟩ := HAB lvl hlvl
      have hlen' : (s.Insert cmp key height).nodes.length
          = s.nodes.length + 1 := by rw [HF1, hs1len]
      rw [hlen']
      by_cases hlh : lvl < height
      · simp only [if_pos hlh]
        constructor
        · intro hm
          rcases List.mem_append.mp hm with hma | hmb
          · have hmold : i ∈ chains lvl := by
              rw [hchain]
              exact List.mem_append_left _ hma
            obtain ⟨hv, hh⟩ := (wf.mem lvl hlvl i).mp hmold
            refine ⟨by omega, ?_⟩
            rw [HF3, hh_old i hv]
            exact hh
          · rcases List.mem_cons.mp hmb with rfl | hmb2
            · refine ⟨by omega, ?_⟩
              rw [HF3, hh_new]
              exact hlh
            · have hmold : i ∈ chains lvl := by
                rw [hchain]
                exact List.mem_append_right _ hmb2
              obtain ⟨hv, hh⟩ := (wf.mem lvl hlvl i).mp hmold
              refine ⟨by omega, ?_⟩
              rw [HF3, hh_old i hv]
              exact hh
        · rintro ⟨hiv, hih⟩
          rw [HF3] at hih
          by_cases hin : i < s.nodes.length
          · rw [hh_old i hin] at hih
            have hmold : i ∈ chains lvl := (wf.mem lvl hlvl i).mpr ⟨hin, hih⟩
            rw [hchain] at hmold
            rcases List.mem_append.mp hmold with h | h
            · exact List.mem_append_left _ h
            · exact List.mem_append_right _ (List.mem_cons_of_mem _ h)
          · have hieq : i = nid := by
              rw [hnid]
              omega
            subst hieq
            exact List.mem_append_right _ (List.mem_cons_self _ _)
      · simp only [if_neg hlh]
        constructor
        · intro hm
          obtain ⟨hv, hh⟩ := (wf.mem lvl hlvl i).mp hm
          refine ⟨by omega, ?_⟩
          rw [HF3, hh_old i hv]
          exact hh
        · rintro ⟨hiv, hih⟩
          rw [HF3] at hih
          by_cases hin : i < s.nodes.length
          · rw [hh_old i hin] at hih
            exact (wf.mem lvl hlvl i).mpr ⟨hin, hih⟩
          · exfalso
            have hieq : i = nid := by
              rw [hnid]
              omega
            subst hieq
            rw [hh_new] at hih
            omega
    · -- sortedness
      intro lvl hlvl
      obtain ⟨hchain, hA, hB, hTr, hLk⟩ := HAB lvl hlvl
      have hvalidchain : ∀ i, i ∈ chains lvl → i < s.nodes.length :=
        fun i hi => ((wf.mem lvl hlvl i).mp hi).1
      have hsortold := wf.sorted lvl hlvl
      rw [hchain] at hsortold
      obtain ⟨hsA, hsB, hsAB⟩ := List.pairwise_append.mp hsortold
      by_cases hlh : lvl < height
      · simp only [if_pos hlh]
        rw [List.pairwise_append]
        refine ⟨?_, ?_, ?_⟩
        · refine hsA.imp_of_mem ?_
          intro a b ha hb hab
          exact (hltAt_old a b
            (hvalidchain a (by rw [hchain]; exact List.mem_append_left _ ha))
            (hvalidchain b (by
              rw [hchain]
              exact List.mem_append_left _ hb))).mp hab
        · rw [List.pairwise_cons]
          refine ⟨?_, ?_⟩
          · intro b hb
            exact hnid_gt b (hvalidchain b (by
              rw [hchain]
              exact List.mem_append_right _ hb)) (hB b hb)
          · refine hsB.imp_of_mem ?_
            intro a b ha hb hab
            exact (hltAt_old a b
              (hvalidchain a (by
                rw [hchain]
                exact List.mem_append_right _ ha))
              (hvalidchain b (by
                rw [hchain]
                exact List.mem_append_right _ hb))).mp hab
        · intro a ha b hb
          rcases List.mem_cons.mp hb with rfl | hb2
          · exact hltKey_nid a (hvalidchain a (by
              rw [hchain]
              exact List.mem_append_left _ ha)) (hA a ha)
          · exact (hltAt_old a b
              (hvalidchain a (by
                rw [hchain]
                exact List.mem_append_left _ ha))
              (hvalidchain b (by
                rw [hchain]
                exact List.mem_append_right _ hb2))).mp (hsAB a ha b hb2)
      · simp only [if_neg hlh]
        refine (wf.sorted lvl hlvl).imp_of_mem ?_
        intro a b ha hb hab
        exact (hltAt_old a b (hvalidchain a ha) (hvalidchain b hb)).mp hab
    · -- heights
      intro i hi
      rw [HF1, hs1len] at hi
      rw [HF3, HF5, hs1max]
      by_cases hin : i < s.nodes.length
      · rw [hh_old i hin]
        obtain ⟨ha, hb⟩ := wf.heights i hin
        refine ⟨ha, ?_⟩
        split <;> omega
      · have hieq : i = nid := by
          rw [hnid]
          omega
        subst hieq
        rw [hh_new]
        refine ⟨h1, ?_⟩
        split <;> omega
  · -- the stored keys grow by exactly the inserted key
    have hmap1 : s1.nodes.map SLNode.key
        = s.nodes.map SLNode.key ++ [key] := by
      rw [hs1nodes, List.map_append]
      rfl
    rw [← hmap1]
    apply List.ext_getElem?
    intro i
    rw [List.getElem?_map, List.getElem?_map]
    have hkk := HF2 i
    unfold keyAt? at hkk
    rw [List.get?_eq_getElem?, List.get?_eq_getElem?] at hkk
    exact hkk


/-- Evaluating SkipList::Contains when FindGreaterOrEqual found a node. -/
theorem contains_eval {K : Type} (cmp : K → K → Int) (s : SkipList K)
    (k : K) (i : Nat) (nd : SLNode K)
    (h1 : (FindGreaterOrEqual cmp s k).1 = some i)
    (h2 : s.nodes.get? i = some nd) :
    SkipList.Contains cmp s k = decide (cmp k nd.key = 0) := by
  unfold SkipList.Contains
  rw [h1]
  show (match s.nodes.get? i with
    | none => false
    | some nd => decide (cmp k nd.key = 0)) = decide (cmp k nd.key = 0)
  rw [h2]

/-- Evaluating SkipList::Contains when FindGreaterOrEqual found nothing. -/
theorem contains_none {K : Type} (cmp : K → K → Int) (s : SkipList K)
    (k : K) (h1 : (FindGreaterOrEqual cmp s k).1 = none) :
    SkipList.Contains cmp s k = false := by
  unfold SkipList.Contains
  rw [h1]

/-- Evaluating SkipList::Contains on a dangling found index. -/
theorem contains_dangling {K : Type} (cmp : K → K → Int) (s : SkipList K)
    (k : K) (i : Nat) (h1 : (FindGreaterOrEqual cmp s k).1 = some i)
    (h2 : s.nodes.get? i = none) :
    SkipList.Contains cmp s k = false := by
  unfold SkipList.Contains
  rw [h1]
  show (match s.nodes.get? i with
    | none => false
    | some nd => decide (cmp k nd.key = 0)) = false
  rw [h2]

/-- Contains answers exactly "k compares equal to some stored key". -/
theorem contains_spec {K : Type} (cmp : K → K → Int) (hc : CmpOK cmp)
    (s : SkipList K) (chains : Nat → List Nat) (wf : SLWF cmp s chains)
    (k : K) :
    SkipList.Contains cmp s k = true ↔
      ∃ i ki, keyAt? s i = some ki ∧ cmp k ki = 0 := by
  have hmax1 : s.maxHeight - 1 < kMaxHeight := by
    have := wf.maxLe
    have := wf.maxPos
    omega
  have h012 : (0 : Nat) < kMaxHeight := by decide
  obtain ⟨_, _, a, b, hab, hA, hB, hres⟩ :=
    findGEGo_spec cmp hc s k chains wf (s.maxHeight - 1) none
      (fun _ => none) hmax1 (Or.inl rfl)
  have hsorted0 := wf.sorted 0 h012
  rw [hab] at hsorted0
  obtain ⟨hsa, hsb, hsab⟩ := List.pairwise_append.mp hsorted0
  constructor
  · intro hcont
    cases hg1 : (FindGreaterOrEqual cmp s k).1 with
    | none =>
      rw [contains_none cmp s k hg1] at hcont
      exact Bool.noConfusion hcont
    | some i =>
      cases hg2 : s.nodes.get? i with
      | none =>
        rw [contains_dangling cmp s k i hg1 hg2] at hcont
        exact Bool.noConfusion hcont
      | some nd =>
        rw [contains_eval cmp s k i nd hg1 hg2] at hcont
        exact ⟨i, nd.key, by unfold keyAt?; rw [hg2]; rfl, of_decide_eq_true hcont⟩
  · rintro ⟨i, ki, hki, heq⟩
    have hilen : i < s.nodes.length := by
      by_contra hnot
      rw [show keyAt? s i = Option.map SLNode.key (s.nodes.get? i) from rfl,
        List.get?_eq_none.mpr (Nat.le_of_not_lt hnot)] at hki
      cases hki
    have hmem : i ∈ chains 0 :=
      (wf.mem 0 h012 i).mpr ⟨hilen, (wf.heights i hilen).1⟩
    rw [hab] at hmem
    rcases List.mem_append.mp hmem with hia | hib
    · exfalso
      obtain ⟨ki', hki', hlt⟩ := hA i hia
      rw [hki] at hki'
      cases hki'
      have hkk : cmp ki k = 0 := hc.eq_symm heq
      omega
    · cases b with
      | nil => cases hib
      | cons j t =>
        have hjmem : j ∈ chains 0 := by
          rw [hab]
          exact List.mem_append_right _ (List.mem_cons_self _ _)
        have hjlen : j < s.nodes.length := ((wf.mem 0 h012 j).mp hjmem).1
        cases hgj : s.nodes.get? j with
        | none =>
          exfalso
          rw [List.get?_eq_none] at hgj
          omega
        | some ndj =>
          have hkj : keyAt? s j = some ndj.key := by
            unfold keyAt?
            rw [hgj]
            rfl
          have hres' : (FindGreaterOrEqual cmp s k).1 = some j := hres
          have hBj : ¬ltKey cmp s j k := hB j (List.mem_cons_self _ _)
          rcases lt_trichotomy (cmp k ndj.key) 0 with hlt | hz | hgt
          · exfalso
            rcases List.mem_cons.mp hib with rfl | hit
            · rw [hki] at hkj
              cases hkj
              omega
            · obtain ⟨kj', ki', hkj', hki', hlt2⟩ :=
                (List.pairwise_cons.mp hsb).1 i hit
              rw [hkj] at hkj'
              cases hkj'
              rw [hki] at hki'
              cases hki'
              have := hc.lt_trans k ndj.key ki hlt hlt2
              omega
          · rw [contains_eval cmp s k j ndj hres' hgj]
            exact decide_eq_true hz
          · exfalso
            exact hBj ⟨ndj.key, hkj, (hc.asymm ndj.key k).mpr hgt⟩

/-- The iterator read off a level-0 chain yields exactly the chain's keys. -/
theorem iterFrom_links {K : Type} (s : SkipList K) :
    ∀ (c : List Nat) (fuel : Nat) (x : Option Nat),
    LinksAt s 0 x c → (∀ i ∈ c, i < s.nodes.length) → c.length ≤ fuel →
    iterFrom s fuel (nodeNext s x 0) = c.filterMap (keyAt? s) := by
  intro c
  induction c with
  | nil =>
    intro fuel x hlk _ _
    cases hlk with
    | nil hn =>
      rw [hn]
      cases fuel with
      | zero => rfl
      | succ f => rfl
  | cons j t ih =>
    intro fuel x hlk hval hlen
    cases hlk with
    | cons hn hrest =>
      rw [hn]
      cases fuel with
      | zero => exact absurd hlen (by simp)
      | succ f =>
        cases hgj : s.nodes.get? j with
        | none =>
          exfalso
          rw [List.get?_eq_none] at hgj
          exact absurd (hval j (List.mem_cons_self _ _)) (by omega)
        | some nd =>
          show (match s.nodes.get? j with
            | none => []
            | some nd => nd.key :: iterFrom s f (nd.next.getD 0 none))
            = List.filterMap (keyAt? s) (j :: t)
          simp only [hgj]
          have hnext : nd.next.getD 0 none = nodeNext s (some j) 0 := by
            show _ = (match s.nodes.get? j with
              | none => none
              | some nd => nd.next.getD 0 none)
            rw [hgj]
          rw [hnext, ih f (some j) hrest
            (fun i hi => hval i (List.mem_cons_of_mem _ hi)) (by
              simp at hlen
              omega)]
          show _ = match keyAt? s j with
            | none => List.filterMap (keyAt? s) t
            | some b => b :: List.filterMap (keyAt? s) t
          rw [show keyAt? s j = some nd.key from by
            unfold keyAt?
            rw [hgj]
            rfl]

/-- The full iteration of a well-formed list reads off the level-0 chain. -/
theorem iterKeys_chain {K : Type} (cmp : K → K → Int) (hc : CmpOK cmp)
    (s : SkipList K) (chains : Nat → List Nat) (wf : SLWF cmp s chains) :
    iterKeys s = (chains 0).filterMap (keyAt? s) := by
  have h012 : (0 : Nat) < kMaxHeight := by decide
  have hval : ∀ i ∈ chains 0, i < s.nodes.length :=
    fun i hi => ((wf.mem 0 h012 i).mp hi).1
  exact iterFrom_links s (chains 0) (s.nodes.length + 1) none
    (wf.links 0 h012) hval
    (le_trans (chain_len_le hc (wf.sorted 0 h012) hval) (by omega))

/-- Links of replicate-none head: every level reads null. -/
theorem getD_replicate_none : ∀ (n i : Nat),
    (List.replicate n (none : Option Nat)).getD i none = none := by
  intro n
  induction n with
  | zero => intro i; rfl
  | succ m ih =>
    intro i
    rw [List.replicate_succ]
    cases i with
    | zero => rfl
    | succ j => exact ih j

/-- The fresh skiplist is well-formed with empty chains. -/
theorem empty_wf_sl {K : Type} (cmp : K → K → Int) :
    SLWF cmp (SkipList.empty K) (fun _ => []) := by
  refine ⟨by simp [SkipList.empty], le_refl 1, by
    show (1 : Nat) ≤ kMaxHeight
    decide, ?_, ?_, ?_, ?_⟩
  · intro lvl _
    exact LinksAt.nil (getD_replicate_none kMaxHeight lvl)
  · intro lvl _ i
    constructor
    · intro h
      cases h
    · rintro ⟨h, _⟩
      exact absurd h (by
        show ¬i < ([] : List (SLNode K)).length
        simp)
  · intro lvl _
    exact List.Pairwise.nil
  · intro i hi
    exact absurd hi (by
      show ¬i < ([] : List (SLNode K)).length
      simp)

/-- Folding Insert over a list of distinct fresh keys preserves
well-formedness and appends exactly the inserted keys. -/
theorem insertAll_wf {K : Type} (cmp : K → K → Int) (hc : CmpOK cmp) :
    ∀ (kvs : List (K × Nat)) (s : SkipList K) (chains : Nat → List Nat),
    SLWF cmp s chains →
    (∀ kv ∈ kvs, 1 ≤ kv.2 ∧ kv.2 ≤ kMaxHeight) →
    (∀ kv ∈ kvs, ∀ ki ∈ s.nodes.map SLNode.key, cmp ki kv.1 ≠ 0) →
    (kvs.map Prod.fst).Pairwise (fun a b => cmp a b ≠ 0) →
    ∃ chains', SLWF cmp (insertAll cmp s kvs) chains' ∧
      (insertAll cmp s kvs).nodes.map SLNode.key
        = s.nodes.map SLNode.key ++ kvs.map Prod.fst := by
  intro kvs
  induction kvs with
  | nil =>
    intro s chains wf _ _ _
    exact ⟨chains, wf, by simp [insertAll]⟩
  | cons kv rest ih =>
    intro s chains wf hhts hfresh hdist
    have hhd := hhts kv (List.mem_cons_self _ _)
    have hnew : ∀ i ki, keyAt? s i = some ki → cmp ki kv.1 ≠ 0 := by
      intro i ki hki
      refine hfresh kv (List.mem_cons_self _ _) ki ?_
      unfold keyAt? at hki
      cases hg : s.nodes.get? i with
      | none =>
        rw [hg] at hki
        cases hki
      | some nd =>
        rw [hg] at hki
        have hky : nd.key = ki := by
          have : some nd.key = some ki := hki
          injection this
        rw [← hky]
        exact List.mem_map_of_mem SLNode.key (List.get?_mem hg)
    obtain ⟨chains1, wf1, hkeys1, _⟩ :=
      Insert_wf_sl cmp hc s chains wf kv.1 kv.2 hhd.1 hhd.2 hnew
    have hstep : insertAll cmp s (kv :: rest)
        = insertAll cmp (s.Insert cmp kv.1 kv.2) rest := rfl
    obtain ⟨hdhd, hdrest⟩ := List.pairwise_cons.mp hdist
    obtain ⟨chains2, wf2, hkeys2⟩ := ih (s.Insert cmp kv.1 kv.2) chains1 wf1
      (fun kv' h => hhts kv' (List.mem_cons_of_mem _ h))
      (by
        intro kv' hkv' ki hki
        rw [hkeys1] at hki
        rcases List.mem_append.mp hki with hold | hnewk
        · exact hfresh kv' (List.mem_cons_of_mem _ hkv') ki hold
        · rcases List.mem_singleton.mp hnewk with rfl
          exact hdhd kv'.1 (List.mem_map_of_mem Prod.fst hkv'))
      hdrest
    refine ⟨chains2, by rw [hstep]; exact wf2, ?_⟩
    rw [hstep, hkeys2, hkeys1]
    simp

/-- Reading every index of a list through get? recovers the mapped list. -/
theorem filterMap_range_get {K B : Type} (f : K → B) :
    ∀ (ns : List K), (List.range ns.length).filterMap
      (fun i => (ns.get? i).map f) = ns.map f := by
  intro ns
  induction ns with
  | nil => rfl
  | cons a t ih =>
    show (List.range (t.length + 1)).filterMap
      (fun i => (((a :: t).get? i).map f)) = f a :: t.map f
    rw [List.range_succ_eq_map]
    show f a :: ((List.range t.length).map Nat.succ).filterMap
      (fun i => (((a :: t).get? i).map f)) = f a :: t.map f
    rw [List.filterMap_map,
      show ((fun i => (((a :: t).get? i).map f)) ∘ Nat.succ)
        = fun i => ((t.get? i).map f) from rfl, ih]


/-- C2: after inserting any permutation of a set of pairwise-distinct keys
(each with its RandomHeight outcome in [1, kMaxHeight]) into the empty
skiplist, iterating from SeekToFirst via Next visits exactly the inserted
keys in strictly ascending comparator order with no duplicates, and
Contains k is true iff k compares equal to some inserted key. -/
theorem skiplist_ordered_set {K : Type} (cmp : K → K → Int) (hc : CmpOK cmp)
    (kvs : List (K × Nat))
    (hhts : ∀ kv ∈ kvs, 1 ≤ kv.2 ∧ kv.2 ≤ kMaxHeight)
    (hdist : (kvs.map Prod.fst).Pairwise (fun a b => cmp a b ≠ 0)) :
    (iterKeys (insertAll cmp (SkipList.empty K) kvs)).Pairwise
      (fun a b => cmp a b < 0) ∧
    List.Perm (iterKeys (insertAll cmp (SkipList.empty K) kvs))
      (kvs.map Prod.fst) ∧
    ∀ k, ((insertAll cmp (SkipList.empty K) kvs).Contains cmp k = true ↔
      ∃ kk ∈ kvs.map Prod.fst, cmp k kk = 0) := by
  obtain ⟨chains', wf', hkeys⟩ := insertAll_wf cmp hc kvs (SkipList.empty K)
    (fun _ => []) (empty_wf_sl cmp) hhts
    (by
      intro kv _ ki hki
      cases hki)
    hdist
  have hkeys' : (insertAll cmp (SkipList.empty K) kvs).nodes.map SLNode.key
      = kvs.map Prod.fst := by
    rw [hkeys]
    rfl
  have h012 : (0 : Nat) < kMaxHeight := by decide
  have hnodup := chain_nodup hc (wf'.sorted 0 h012)
  have hperm : List.Perm (chains' 0)
      (List.range (insertAll cmp (SkipList.empty K) kvs).nodes.length) := by
    rw [List.perm_ext_iff_of_nodup hnodup (List.nodup_range _)]
    intro i
    rw [List.mem_range, wf'.mem 0 h012 i]
    constructor
    · exact fun h => h.1
    · intro h
      exact ⟨h, (wf'.heights i h).1⟩
  have hiter := iterKeys_chain cmp hc _ chains' wf'
  have hrange : (List.range
        (insertAll cmp (SkipList.empty K) kvs).nodes.length).filterMap
        (keyAt? (insertAll cmp (SkipList.empty K) kvs))
      = (insertAll cmp (SkipList.empty K) kvs).nodes.map SLNode.key :=
    filterMap_range_get SLNode.key _
  refine ⟨?_, ?_, ?_⟩
  · rw [hiter]
    refine List.Pairwise.filterMap _ ?_ (wf'.sorted 0 h012)
    intro i j hij b hb b' hb'
    obtain ⟨ki, kj, hki, hkj, hlt⟩ := hij
    rw [Option.mem_def, hki] at hb
    rw [Option.mem_def, hkj] at hb'
    injection hb with hb
    injection hb' with hb'
    subst hb
    subst hb'
    exact hlt
  · rw [hiter, ← hkeys', ← hrange]
    exact hperm.filterMap _
  · intro k
    rw [show (insertAll cmp (SkipList.empty K) kvs).Contains cmp k
        = SkipList.Contains cmp (insertAll cmp (SkipList.empty K) kvs) k
      from rfl, contains_spec cmp hc _ chains' wf' k]
    constructor
    · rintro ⟨i, ki, hki, heq⟩
      refine ⟨ki, ?_, heq⟩
      rw [← hkeys']
      unfold keyAt? at hki
      cases hg : (insertAll cmp (SkipList.empty K) kvs).nodes.get? i with
      | none =>
        rw [hg] at hki
        cases hki
      | some nd =>
        rw [hg] at hki
        injection hki with hki
        rw [← hki]
        exact List.mem_map_of_mem SLNode.key (List.get?_mem hg)
    · rintro ⟨kk, hkk, heq⟩
      rw [← hkeys'] at hkk
      obtain ⟨nd, hnd, hndk⟩ := List.mem_map.mp hkk
      obtain ⟨m, hm⟩ := List.mem_iff_get?.mp hnd
      refine ⟨m, kk, ?_, heq⟩
      unfold keyAt?
      rw [hm]
      show some nd.key = some kk
      rw [hndk]

/-- Witness for skiplist_ordered_set: inserting (2, height 1) then
(1, height 2) under the integer comparator. -/
theorem skiplist_ordered_set_witness :
    (iterKeys (insertAll (fun a b : Nat => (a : Int) - b)
        (SkipList.empty Nat) [(2, 1), (1, 2)])).Pairwise
      (fun a b : Nat => (a : Int) - b < 0) ∧
    List.Perm (iterKeys (insertAll (fun a b : Nat => (a : Int) - b)
        (SkipList.empty Nat) [(2, 1), (1, 2)]))
      ([((2 : Nat), (1 : Nat)), (1, 2)].map Prod.fst) ∧
    ∀ k, ((insertAll (fun a b : Nat => (a : Int) - b)
        (SkipList.empty Nat) [(2, 1), (1, 2)]).Contains
        (fun a b : Nat => (a : Int) - b) k = true ↔
      ∃ kk ∈ [((2 : Nat), (1 : Nat)), (1, 2)].map Prod.fst,
        (k : Int) - kk = 0) :=
  skiplist_ordered_set (fun a b : Nat => (a : Int) - b)
    ⟨by
      intro a b
      omega, by
      intro a b c h1 h2
      omega, by
      intro a b c h1 h2
      omega⟩
    [(2, 1), (1, 2)]
    (by decide)
    (by decide)


/-! ### C8: memtable Add/Get — comparator order properties -/

theorem byteCompare_eq_zero : ∀ (a b : List Nat),
    byteCompare a b = 0 ↔ a = b := by
  intro a
  induction a with
  | nil =>
    intro b
    cases b with
    | nil => simp [byteCompare]
    | cons bh bt => simp [byteCompare]
  | cons ah at_ ih =>
    intro b
    cases b with
    | nil => simp [byteCompare]
    | cons bh bt =>
      simp only [byteCompare]
      by_cases hab : ah < bh
      · rw [if_pos hab]
        constructor
        · intro h
          omega
        · intro h
          injection h with h1 h2
          omega
      · by_cases hba : bh < ah
        · rw [if_neg hab, if_pos hba]
          constructor
          · intro h
            omega
          · intro h
            injection h with h1 h2
            omega
        · have he : ah = bh := by omega
          rw [if_neg hab, if_neg hba, ih bt]
          subst he
          constructor
          · intro h
            rw [h]
          · intro h
            injection h

theorem byteCompare_flip : ∀ (a b : List Nat),
    byteCompare b a = -byteCompare a b := by
  intro a
  induction a with
  | nil =>
    intro b
    cases b with
    | nil => simp [byteCompare]
    | cons bh bt => simp [byteCompare]
  | cons ah at_ ih =>
    intro b
    cases b with
    | nil => simp [byteCompare]
    | cons bh bt =>
      simp only [byteCompare]
      by_cases hab : ah < bh
      · rw [if_pos hab, if_neg (by omega), if_pos hab]
        norm_num
      · by_cases hba : bh < ah
        · rw [if_neg hab, if_pos hba, if_pos hba]
          rw [if_neg hab]
        · rw [if_neg hab, if_neg hba, if_neg hba, if_neg hab]
          exact ih bt

theorem byteCompare_trans : ∀ (a b c : List Nat), byteCompare a b < 0 →
    byteCompare b c < 0 → byteCompare a c < 0 := by
  intro a
  induction a with
  | nil =>
    intro b c h1 h2
    cases b with
    | nil => simp [byteCompare] at h1
    | cons bh bt =>
      cases c with
      | nil => simp [byteCompare] at h2
      | cons ch ct => simp [byteCompare]
  | cons ah at_ ih =>
    intro b c h1 h2
    cases b with
    | nil => simp [byteCompare] at h1
    | cons bh bt =>
      cases c with
      | nil => simp [byteCompare] at h2
      | cons ch ct =>
        simp only [byteCompare] at h1 h2 ⊢
        by_cases hab : ah < bh
        · by_cases hbc : bh < ch
          · rw [if_pos (by omega : ah < ch)]
            norm_num
          · by_cases hcb : ch < bh
            · rw [if_neg hbc, if_pos hcb] at h2
              omega
            · have he : bh = ch := by omega
              rw [if_pos (by omega : ah < ch)]
              norm_num
        · by_cases hba : bh < ah
          · rw [if_neg hab, if_pos hba] at h1
            omega
          · have he : ah = bh := by omega
            rw [if_neg hab, if_neg hba] at h1
            by_cases hbc : bh < ch
            · rw [if_pos (by omega : ah < ch)]
              norm_num
            · by_cases hcb : ch < bh
              · rw [if_neg hbc, if_pos hcb] at h2
                omega
              · have he2 : bh = ch := by omega
                rw [if_neg (by omega : ¬ah < ch),
                  if_neg (by omega : ¬ch < ah)]
                rw [if_neg hbc, if_neg hcb] at h2
                exact ih bt ct h1 h2

theorem byteCompare_self (a : List Nat) : byteCompare a a = 0 :=
  (byteCompare_eq_zero a a).mpr rfl

theorem internalCompare_lt (a b : List Nat) :
    internalCompare a b < 0 ↔ (byteCompare (userPart a) (userPart b) < 0 ∨
      (userPart a = userPart b ∧ tagPart b < tagPart a)) := by
  unfold internalCompare
  by_cases h : byteCompare (userPart a) (userPart b) = 0
  · rw [if_pos h]
    have he := (byteCompare_eq_zero _ _).mp h
    constructor
    · intro hlt
      by_cases ht : tagPart b < tagPart a
      · exact Or.inr ⟨he, ht⟩
      · rw [if_neg ht] at hlt
        by_cases ht2 : tagPart a < tagPart b
        · rw [if_pos ht2] at hlt
          omega
        · rw [if_neg ht2] at hlt
          omega
    · rintro (hlt | ⟨_, ht⟩)
      · omega
      · rw [if_pos ht]
        norm_num
  · rw [if_neg h]
    constructor
    · intro hlt
      exact Or.inl hlt
    · rintro (hlt | ⟨he, _⟩)
      · exact hlt
      · exact absurd ((byteCompare_eq_zero _ _).mpr he) h

theorem internalCompare_eq (a b : List Nat) :
    internalCompare a b = 0 ↔
      (userPart a = userPart b ∧ tagPart a = tagPart b) := by
  unfold internalCompare
  by_cases h : byteCompare (userPart a) (userPart b) = 0
  · rw [if_pos h]
    have he := (byteCompare_eq_zero _ _).mp h
    by_cases ht : tagPart b < tagPart a
    · rw [if_pos ht]
      constructor
      · intro hx
        omega
      · rintro ⟨_, hx⟩
        omega
    · by_cases ht2 : tagPart a < tagPart b
      · rw [if_neg ht, if_pos ht2]
        constructor
        · intro hx
          omega
        · rintro ⟨_, hx⟩
          omega
      · rw [if_neg ht, if_neg ht2]
        constructor
        · intro _
          exact ⟨he, by omega⟩
        · intro _
          rfl
  · rw [if_neg h]
    constructor
    · intro hx
      exact absurd hx h
    · rintro ⟨he, _⟩
      exact absurd ((byteCompare_eq_zero _ _).mpr he) h

theorem internalCompare_flip (a b : List Nat) :
    internalCompare b a = -internalCompare a b := by
  unfold internalCompare
  have hf := byteCompare_flip (userPart a) (userPart b)
  by_cases h : byteCompare (userPart a) (userPart b) = 0
  · rw [if_pos h, if_pos (by omega)]
    by_cases ht : tagPart b < tagPart a
    · rw [if_pos ht, if_neg (by omega), if_pos ht]
      norm_num
    · by_cases ht2 : tagPart a < tagPart b
      · rw [if_neg ht, if_pos ht2, if_pos ht2]
        rw [if_neg ht]
      · rw [if_neg ht, if_neg ht2, if_neg ht2, if_neg ht]
        norm_num
  · rw [if_neg h, if_neg (by omega), hf]

theorem memtableKeyCompare_cmpok : CmpOK memtableKeyCompare := by
  refine ⟨?_, ?_, ?_⟩
  · intro a b
    unfold memtableKeyCompare
    have := internalCompare_flip (GetLengthPrefixedSlice a)
      (GetLengthPrefixedSlice b)
    omega
  · intro a b c h1 h2
    unfold memtableKeyCompare at h1 h2 ⊢
    rw [internalCompare_lt] at h1 h2 ⊢
    rcases h1 with h1 | ⟨he1, ht1⟩
    · rcases h2 with h2 | ⟨he2, ht2⟩
      · exact Or.inl (byteCompare_trans _ _ _ h1 h2)
      · rw [he2] at h1
        exact Or.inl h1
    · rcases h2 with h2 | ⟨he2, ht2⟩
      · rw [he1]
        exact Or.inl h2
      · exact Or.inr ⟨he1.trans he2, by omega⟩
  · intro a b c h1 h2
    unfold memtableKeyCompare at h1 h2 ⊢
    rw [internalCompare_eq] at h1
    rw [internalCompare_lt] at h2 ⊢
    obtain ⟨he, ht⟩ := h1
    rcases h2 with h2 | ⟨he2, ht2⟩
    · rw [he] at h2
      exact Or.inl h2
    · exact Or.inr ⟨he.symm.trans he2, by omega⟩


/-! ### C8: entry decoding -/

theorem decodeFixed64_encode_append (v : Nat) (rest : List Nat)
    (hv : v < 2 ^ 64) : DecodeFixed64 (EncodeFixed64 v ++ rest) = v := by
  unfold DecodeFixed64 EncodeFixed64
  simp only [List.cons_append, List.nil_append, List.getD_cons_zero,
    List.getD_cons_succ]
  omega

theorem packTag_eq (s t : Nat) (hs : s < 2 ^ 56) :
    packTag s t = s * 256 + t % 256 := by
  unfold packTag
  rw [Nat.mod_eq_of_lt (by omega : s * 256 < 2 ^ 64)]

theorem packTag_lt (s t : Nat) : packTag s t < 2 ^ 64 := by
  unfold packTag
  have h1 : s * 256 % 2 ^ 64 = s % 2 ^ 56 * 256 := by
    have : (2 : Nat) ^ 64 = 2 ^ 56 * 256 := by norm_num
    rw [this, Nat.mul_mod_mul_right]
  rw [h1]
  have h2 : s % 2 ^ 56 < 2 ^ 56 := Nat.mod_lt _ (by norm_num)
  have h3 : t % 256 < 256 := Nat.mod_lt _ (by norm_num)
  calc s % 2 ^ 56 * 256 + t % 256 ≤ (2 ^ 56 - 1) * 256 + 255 := by
        have : s % 2 ^ 56 ≤ 2 ^ 56 - 1 := by omega
        have := Nat.mul_le_mul_right 256 this
        omega
    _ < 2 ^ 64 := by norm_num

theorem packTag_mod256 (s t : Nat) : packTag s t % 256 = t % 256 := by
  unfold packTag
  have h1 : s * 256 % 2 ^ 64 = s % 2 ^ 56 * 256 := by
    have : (2 : Nat) ^ 64 = 2 ^ 56 * 256 := by norm_num
    rw [this, Nat.mul_mod_mul_right]
  rw [h1]
  have h3 : t % 256 < 256 := Nat.mod_lt _ (by norm_num)
  omega

theorem encodeFixed64_length (v : Nat) : (EncodeFixed64 v).length = 8 := rfl

theorem userPart_ik (k : List Nat) (tg : Nat) :
    userPart (k ++ EncodeFixed64 tg) = k := by
  unfold userPart
  rw [List.length_append, encodeFixed64_length,
    show k.length + 8 - 8 = k.length from by omega, List.take_left]

theorem tagPart_ik (k : List Nat) (tg : Nat) (h : tg < 2 ^ 64) :
    tagPart (k ++ EncodeFixed64 tg) = tg := by
  unfold tagPart
  rw [List.length_append, encodeFixed64_length,
    show k.length + 8 - 8 = k.length from by omega, List.drop_left]
  have : EncodeFixed64 tg = EncodeFixed64 tg ++ [] := by simp
  rw [this, decodeFixed64_encode_append tg [] h]

theorem internalCompare_ik_lt (k1 k2 : List Nat) (t1 t2 : Nat)
    (h1 : t1 < 2 ^ 64) (h2 : t2 < 2 ^ 64) :
    internalCompare (k1 ++ EncodeFixed64 t1) (k2 ++ EncodeFixed64 t2) < 0
      ↔ (byteCompare k1 k2 < 0 ∨ (k1 = k2 ∧ t2 < t1)) := by
  rw [internalCompare_lt, userPart_ik, userPart_ik, tagPart_ik _ _ h1,
    tagPart_ik _ _ h2]

theorem internalCompare_ik_eq (k1 k2 : List Nat) (t1 t2 : Nat)
    (h1 : t1 < 2 ^ 64) (h2 : t2 < 2 ^ 64) :
    internalCompare (k1 ++ EncodeFixed64 t1) (k2 ++ EncodeFixed64 t2) = 0
      ↔ (k1 = k2 ∧ t1 = t2) := by
  rw [internalCompare_eq, userPart_ik, userPart_ik, tagPart_ik _ _ h1,
    tagPart_ik _ _ h2]

theorem memEntry_assoc (s t : Nat) (k v : List Nat) :
    memEntry s t k v = EncodeVarint32 (k.length + 8)
      ++ (k ++ (EncodeFixed64 (packTag s t)
        ++ (EncodeVarint32 v.length ++ v))) := by
  unfold memEntry
  simp [List.append_assoc]

theorem memtableLookupKey_assoc (u : List Nat) (ls : Nat) :
    memtableLookupKey u ls = EncodeVarint32 (u.length + 8)
      ++ (u ++ EncodeFixed64 (packTag ls kTypeValue)) := by
  unfold memtableLookupKey
  simp [List.append_assoc]

theorem getVarint_memEntry (s t : Nat) (k v : List Nat)
    (hk : k.length + 8 < 2 ^ 32) :
    GetVarint32Ptr (memEntry s t k v) 5
      = some (k.length + 8, (EncodeVarint32 (k.length + 8)).length) := by
  rw [memEntry_assoc]
  exact (getVarint32Ptr_encode (k.length + 8)
    (k ++ (EncodeFixed64 (packTag s t)
      ++ (EncodeVarint32 v.length ++ v))) 5 hk (le_refl 5)).1

theorem slice_memEntry (s t : Nat) (k v : List Nat)
    (hk : k.length + 8 < 2 ^ 32) :
    GetLengthPrefixedSlice (memEntry s t k v)
      = k ++ EncodeFixed64 (packTag s t) := by
  unfold GetLengthPrefixedSlice
  rw [getVarint_memEntry s t k v hk]
  show ((memEntry s t k v).drop
    (EncodeVarint32 (k.length + 8)).length).take (k.length + 8) = _
  rw [memEntry_assoc, List.drop_left, ← List.append_assoc,
    show k.length + 8 = (k ++ EncodeFixed64 (packTag s t)).length from by
      rw [List.length_append, encodeFixed64_length],
    List.take_left]

theorem slice_lookupKey (u : List Nat) (ls : Nat)
    (hu : u.length + 8 < 2 ^ 32) :
    GetLengthPrefixedSlice (memtableLookupKey u ls)
      = u ++ EncodeFixed64 (packTag ls kTypeValue) := by
  unfold GetLengthPrefixedSlice
  rw [show GetVarint32Ptr (memtableLookupKey u ls) 5
      = some (u.length + 8, (EncodeVarint32 (u.length + 8)).length) from by
    rw [memtableLookupKey_assoc]
    exact (getVarint32Ptr_encode (u.length + 8)
      (u ++ EncodeFixed64 (packTag ls kTypeValue)) 5 hu (le_refl 5)).1]
  show ((memtableLookupKey u ls).drop
    (EncodeVarint32 (u.length + 8)).length).take (u.length + 8) = _
  rw [memtableLookupKey_assoc, List.drop_left,
    show u.length + 8 = (u ++ EncodeFixed64 (packTag ls kTypeValue)).length
      from by rw [List.length_append, encodeFixed64_length],
    List.take_length]

theorem memtableKeyCompare_entries (s1 t1 s2 t2 : Nat)
    (k1 v1 k2 v2 : List Nat) (h1 : k1.length + 8 < 2 ^ 32)
    (h2 : k2.length + 8 < 2 ^ 32) :
    memtableKeyCompare (memEntry s1 t1 k1 v1) (memEntry s2 t2 k2 v2)
      = internalCompare (k1 ++ EncodeFixed64 (packTag s1 t1))
          (k2 ++ EncodeFixed64 (packTag s2 t2)) := by
  unfold memtableKeyCompare
  rw [slice_memEntry _ _ _ _ h1, slice_memEntry _ _ _ _ h2]

theorem memtableKeyCompare_entry_lookup (s1 t1 : Nat) (k1 v1 : List Nat)
    (u : List Nat) (ls : Nat) (h1 : k1.length + 8 < 2 ^ 32)
    (hu : u.length + 8 < 2 ^ 32) :
    memtableKeyCompare (memEntry s1 t1 k1 v1) (memtableLookupKey u ls)
      = internalCompare (k1 ++ EncodeFixed64 (packTag s1 t1))
          (u ++ EncodeFixed64 (packTag ls kTypeValue)) := by
  unfold memtableKeyCompare
  rw [slice_memEntry _ _ _ _ h1, slice_lookupKey _ _ hu]

/-! ### C8: evaluating Get -/

theorem memtable_get_none (t : SkipList (List Nat)) (ukey : List Nat)
    (lseq : Nat)
    (hfge : (FindGreaterOrEqual memtableKeyCompare t
      (memtableLookupKey ukey lseq)).1 = none) :
    MemTable.Get t ukey lseq = GetResult.NotPresent := by
  unfold MemTable.Get
  rw [hfge]

theorem memtable_get_eval (t : SkipList (List Nat)) (ukey : List Nat)
    (lseq : Nat) (j : Nat) (es et : Nat) (ek ev : List Nat)
    (hfge : (FindGreaterOrEqual memtableKeyCompare t
      (memtableLookupKey ukey lseq)).1 = some j)
    (hkey : keyAt? t j = some (memEntry es et ek ev))
    (hk : ek.length + 8 < 2 ^ 32) (hv : ev.length < 2 ^ 32) :
    MemTable.Get t ukey lseq =
      (if byteCompare ek ukey = 0 then
        (if packTag es et % 256 = kTypeValue then GetResult.Found ev
         else if packTag es et % 256 = kTypeDeletion then GetResult.Deleted
         else GetResult.NotPresent)
      else GetResult.NotPresent) := by
  unfold MemTable.Get
  rw [hfge]
  show (match keyAt? t j with
    | none => GetResult.NotPresent
    | some entry =>
      match GetVarint32Ptr entry 5 with
      | none => GetResult.NotPresent
      | some (keyLength, consumed) =>
        if byteCompare ((entry.drop consumed).take (keyLength - 8)) ukey
            = 0 then
          if DecodeFixed64 ((entry.drop consumed).drop (keyLength - 8))
              % 256 = kTypeValue then
            GetResult.Found (GetLengthPrefixedSlice
              ((entry.drop consumed).drop keyLength))
          else if DecodeFixed64 ((entry.drop consumed).drop (keyLength - 8))
              % 256 = kTypeDeletion then
            GetResult.Deleted
          else GetResult.NotPresent
        else GetResult.NotPresent) = _
  rw [hkey]
  show (match GetVarint32Ptr (memEntry es et ek ev) 5 with
    | none => GetResult.NotPresent
    | some (keyLength, consumed) =>
      if byteCompare (((memEntry es et ek ev).drop consumed).take
          (keyLength - 8)) ukey = 0 then
        if DecodeFixed64 (((memEntry es et ek ev).drop consumed).drop
            (keyLength - 8)) % 256 = kTypeValue then
          GetResult.Found (GetLengthPrefixedSlice
            (((memEntry es et ek ev).drop consumed).drop keyLength))
        else if DecodeFixed64 (((memEntry es et ek ev).drop consumed).drop
            (keyLength - 8)) % 256 = kTypeDeletion then
          GetResult.Deleted
        else GetResult.NotPresent
      else GetResult.NotPresent) = _
  rw [getVarint_memEntry es et ek ev hk]
  have hdrop1 : (memEntry es et ek ev).drop
      (EncodeVarint32 (ek.length + 8)).length
      = ek ++ (EncodeFixed64 (packTag es et)
          ++ (EncodeVarint32 ev.length ++ ev)) := by
    rw [memEntry_assoc, List.drop_left]
  have htake : (ek ++ (EncodeFixed64 (packTag es et)
      ++ (EncodeVarint32 ev.length ++ ev))).take (ek.length + 8 - 8)
      = ek := by
    rw [show ek.length + 8 - 8 = ek.length from by omega, List.take_left]
  have hdrop2 : (ek ++ (EncodeFixed64 (packTag es et)
      ++ (EncodeVarint32 ev.length ++ ev))).drop (ek.length + 8 - 8)
      = EncodeFixed64 (packTag es et) ++ (EncodeVarint32 ev.length ++ ev)
      := by
    rw [show ek.length + 8 - 8 = ek.length from by omega, List.drop_left]
  have htag : DecodeFixed64 (EncodeFixed64 (packTag es et)
      ++ (EncodeVarint32 ev.length ++ ev)) = packTag es et :=
    decodeFixed64_encode_append _ _ (packTag_lt es et)
  have hdrop3 : (ek ++ (EncodeFixed64 (packTag es et)
      ++ (EncodeVarint32 ev.length ++ ev))).drop (ek.length + 8)
      = EncodeVarint32 ev.length ++ ev := by
    rw [← List.append_assoc,
      show ek.length + 8 = (ek ++ EncodeFixed64 (packTag es et)).length
        from by rw [List.length_append, encodeFixed64_length],
      List.drop_left]
  have hval : GetLengthPrefixedSlice (EncodeVarint32 ev.length ++ ev)
      = ev := by
    unfold GetLengthPrefixedSlice
    rw [(getVarint32Ptr_encode ev.length ev 5 hv (le_refl 5)).1]
    show ((EncodeVarint32 ev.length ++ ev).drop
      (EncodeVarint32 ev.length).length).take ev.length = ev
    rw [List.drop_left, List.take_length]
  show (if byteCompare (((memEntry es et ek ev).drop
      (EncodeVarint32 (ek.length + 8)).length).take (ek.length + 8 - 8))
      ukey = 0 then
    if DecodeFixed64 (((memEntry es et ek ev).drop
        (EncodeVarint32 (ek.length + 8)).length).drop (ek.length + 8 - 8))
        % 256 = kTypeValue then
      GetResult.Found (GetLengthPrefixedSlice
        (((memEntry es et ek ev).drop
          (EncodeVarint32 (ek.length + 8)).length).drop (ek.length + 8)))
    else if DecodeFixed64 (((memEntry es et ek ev).drop
        (EncodeVarint32 (ek.length + 8)).length).drop (ek.length + 8 - 8))
        % 256 = kTypeDeletion then
      GetResult.Deleted
    else GetResult.NotPresent
  else GetResult.NotPresent) = _
  rw [hdrop1, htake, hdrop2, htag, hdrop3, hval]

/-! ### C8: the seek result is the least stored key not below the probe -/

theorem keyAt?_lt_length {K : Type} {s : SkipList K} {i : Nat} {ki : K}
    (h : keyAt? s i = some ki) : i < s.nodes.length := by
  by_contra hnot
  rw [show keyAt? s i = Option.map SLNode.key (s.nodes.get? i) from rfl,
    List.get?_eq_none.mpr (Nat.le_of_not_lt hnot)] at h
  cases h

theorem fge_min {K : Type} (cmp : K → K → Int) (hc : CmpOK cmp)
    (s : SkipList K) (chains : Nat → List Nat) (wf : SLWF cmp s chains)
    (probe : K) :
    ((FindGreaterOrEqual cmp s probe).1 = none ∧
      ∀ i ki, keyAt? s i = some ki → cmp ki probe < 0) ∨
    (∃ j kj, (FindGreaterOrEqual cmp s probe).1 = some j ∧
      keyAt? s j = some kj ∧ ¬cmp kj probe < 0 ∧
      ∀ i ki, keyAt? s i = some ki → ¬cmp ki probe < 0 →
        ki = kj ∨ cmp kj ki < 0) := by
  have hmax1 : s.maxHeight - 1 < kMaxHeight := by
    have := wf.maxLe
    have := wf.maxPos
    omega
  have h012 : (0 : Nat) < kMaxHeight := by decide
  obtain ⟨_, _, a, b, hab, hA, hB, hres⟩ :=
    findGEGo_spec cmp hc s probe chains wf (s.maxHeight - 1) none
      (fun _ => none) hmax1 (Or.inl rfl)
  have hsorted0 := wf.sorted 0 h012
  rw [hab] at hsorted0
  obtain ⟨hsa, hsb, hsab⟩ := List.pairwise_append.mp hsorted0
  have hmem : ∀ i (ki : K), keyAt? s i = some ki → i ∈ chains 0 := by
    intro i ki hki
    have hilen := keyAt?_lt_length hki
    exact (wf.mem 0 h012 i).mpr ⟨hilen, (wf.heights i hilen).1⟩
  cases b with
  | nil =>
    left
    refine ⟨hres, ?_⟩
    intro i ki hki
    have hia : i ∈ a := by
      have := hmem i ki hki
      rw [hab] at this
      simpa using this
    obtain ⟨ki', hki', hlt⟩ := hA i hia
    rw [hki] at hki'
    injection hki' with hki'
    rw [← hki'] at hlt
    exact hlt
  | cons j tb =>
    right
    have hjmem : j ∈ chains 0 := by
      rw [hab]
      exact List.mem_append_right _ (List.mem_cons_self _ _)
    have hjlen : j < s.nodes.length := ((wf.mem 0 h012 j).mp hjmem).1
    cases hgj : s.nodes.get? j with
    | none =>
      exfalso
      rw [List.get?_eq_none] at hgj
      omega
    | some ndj =>
      have hkj : keyAt? s j = some ndj.key := by
        unfold keyAt?
        rw [hgj]
        rfl
      refine ⟨j, ndj.key, hres, hkj, ?_, ?_⟩
      · intro hlt
        exact hB j (List.mem_cons_self _ _) ⟨ndj.key, hkj, hlt⟩
      · intro i ki hki hige
        have himem := hmem i ki hki
        rw [hab] at himem
        rcases List.mem_append.mp himem with hia | hib
        · exfalso
          obtain ⟨ki', hki', hlt⟩ := hA i hia
          rw [hki] at hki'
          injection hki' with hki'
          rw [← hki'] at hlt
          exact hige hlt
        · rcases List.mem_cons.mp hib with rfl | hit
          · left
            have hsame := hkj
            rw [hki] at hsame
            exact Option.some_inj.mp hsame
          · right
            obtain ⟨kj', ki', hkj', hki', hlt⟩ :=
              (List.pairwise_cons.mp hsb).1 i hit
            rw [hkj] at hkj'
            injection hkj' with hkj'
            rw [hki] at hki'
            injection hki' with hki'
            rw [← hkj', ← hki'] at hlt
            exact hlt


/-! ### C8: the memtable as an insertAll, and its well-formedness -/

theorem memEntry_cmp_ne (o1 o2 : MemOp) (h1 : MemOpOK o1) (h2 : MemOpOK o2)
    (hne : (o1.ukey, o1.seq, o1.vtype) ≠ (o2.ukey, o2.seq, o2.vtype)) :
    memtableKeyCompare o1.entry o2.entry ≠ 0 := by
  intro h0
  unfold MemOp.entry at h0
  rw [memtableKeyCompare_entries _ _ _ _ _ _ _ _ h1.2.2.1 h2.2.2.1,
    internalCompare_ik_eq _ _ _ _ (packTag_lt _ _) (packTag_lt _ _)] at h0
  obtain ⟨hk, ht⟩ := h0
  rw [packTag_eq _ _ h1.1, packTag_eq _ _ h2.1] at ht
  have hv1 := h1.2.1
  have hv2 := h2.2.1
  have hts : o1.seq = o2.seq ∧ o1.vtype = o2.vtype := by omega
  exact hne (by rw [hk, hts.1, hts.2])

theorem memtableOf_insertAll (ops : List MemOp) :
    memtableOf ops = insertAll memtableKeyCompare
      (SkipList.empty (List Nat))
      (ops.map fun op => (op.entry, op.height)) := by
  unfold memtableOf insertAll
  rw [List.foldl_map]
  rfl

theorem memtableOf_wf (ops : List MemOp) (hb : ∀ op ∈ ops, MemOpOK op)
    (hdist : (ops.map fun op => (op.ukey, op.seq, op.vtype)).Pairwise
      (fun x y => x ≠ y)) :
    ∃ chains, SLWF memtableKeyCompare (memtableOf ops) chains ∧
      (memtableOf ops).nodes.map SLNode.key = ops.map MemOp.entry := by
  obtain ⟨chains, wf, hkeys⟩ := insertAll_wf memtableKeyCompare
    memtableKeyCompare_cmpok (ops.map fun op => (op.entry, op.height))
    (SkipList.empty (List Nat)) (fun _ => []) (empty_wf_sl _)
    (by
      intro kv hkv
      obtain ⟨op, hop, rfl⟩ := List.mem_map.mp hkv
      exact ⟨(hb op hop).2.2.2.2.1, (hb op hop).2.2.2.2.2⟩)
    (by
      intro kv _ ki hki
      cases hki)
    (by
      rw [List.map_map,
        show (Prod.fst ∘ fun op : MemOp => (op.entry, op.height))
          = MemOp.entry from rfl, List.pairwise_map]
      have hp : ops.Pairwise (fun o1 o2 =>
          (o1.ukey, o1.seq, o1.vtype) ≠ (o2.ukey, o2.seq, o2.vtype)) :=
        List.pairwise_map.mp hdist
      refine hp.imp_of_mem ?_
      intro o1 o2 ho1 ho2 hne
      exact memEntry_cmp_ne o1 o2 (hb o1 ho1) (hb o2 ho2) hne)
  refine ⟨chains, ?_, ?_⟩
  · rw [memtableOf_insertAll]
    exact wf
  · rw [memtableOf_insertAll, hkeys, List.map_map]
    rfl

theorem memtableOf_keyAt (ops : List MemOp)
    (hkeys : (memtableOf ops).nodes.map SLNode.key = ops.map MemOp.entry)
    (i : Nat) :
    keyAt? (memtableOf ops) i = (ops.map MemOp.entry).get? i := by
  unfold keyAt?
  rw [← List.get?_map, hkeys]

/-! ### C8: the newest matching entry decides the Get outcome -/

theorem memtable_get_newest (ops : List MemOp) (ukey : List Nat)
    (lseq : Nat) (hb : ∀ op ∈ ops, MemOpOK op)
    (hdist : (ops.map fun op => (op.ukey, op.seq, op.vtype)).Pairwise
      (fun x y => x ≠ y))
    (hlseq : lseq < 2 ^ 56) (hul : ukey.length + 8 < 2 ^ 32)
    (op : MemOp) (hop : op ∈ ops) (hku : op.ukey = ukey)
    (hmax : ∀ op' ∈ ops, op'.ukey = ukey →
      packTag op'.seq op'.vtype ≤ packTag op.seq op.vtype)
    (hle : op.seq ≤ lseq) :
    MemTable.Get (memtableOf ops) ukey lseq
      = (if op.vtype = kTypeValue then GetResult.Found op.value
        else GetResult.Deleted) := by
  obtain ⟨chains, wf, hkeys⟩ := memtableOf_wf ops hb hdist
  have hka := memtableOf_keyAt ops hkeys
  have hstored : ∀ i e, keyAt? (memtableOf ops) i = some e →
      ∃ o ∈ ops, e = o.entry := by
    intro i e he
    rw [hka i] at he
    obtain ⟨o, ho, hoe⟩ := List.mem_map.mp (List.get?_mem he)
    exact ⟨o, ho, hoe.symm⟩
  have hopOK := hb op hop
  obtain ⟨istar, histar⟩ :=
    List.mem_iff_get?.mp (List.mem_map_of_mem MemOp.entry hop)
  have hstar : keyAt? (memtableOf ops) istar = some op.entry := by
    rw [hka istar]
    exact histar
  have hk1 : kTypeValue = 1 := rfl
  have hprobe_tag : packTag op.seq op.vtype ≤ packTag lseq kTypeValue := by
    rw [packTag_eq _ _ hopOK.1, packTag_eq _ _ hlseq, hk1]
    have := hopOK.2.1
    omega
  have hstar_ge : ¬memtableKeyCompare op.entry
      (memtableLookupKey ukey lseq) < 0 := by
    unfold MemOp.entry
    rw [memtableKeyCompare_entry_lookup _ _ _ _ _ _ hopOK.2.2.1 hul,
      internalCompare_ik_lt _ _ _ _ (packTag_lt _ _) (packTag_lt _ _)]
    rintro (hlt | ⟨_, hlt⟩)
    · rw [hku] at hlt
      have := byteCompare_self ukey
      omega
    · omega
  rcases fge_min memtableKeyCompare memtableKeyCompare_cmpok
      (memtableOf ops) chains wf (memtableLookupKey ukey lseq) with
    ⟨_, hall⟩ | ⟨j, kj, hfge, hkj, hge, hmin⟩
  · exact absurd (hall istar op.entry hstar) hstar_ge
  · obtain ⟨o', ho', rfl⟩ := hstored j kj hkj
    have ho'OK := hb o' ho'
    have hcase := hmin istar op.entry hstar hstar_ge
    have ho'eq : o'.entry = op.entry := by
      rcases hcase with he | hlt
      · exact he.symm
      · exfalso
        unfold MemOp.entry at hlt hge
        rw [memtableKeyCompare_entries _ _ _ _ _ _ _ _ ho'OK.2.2.1
            hopOK.2.2.1,
          internalCompare_ik_lt _ _ _ _ (packTag_lt _ _)
            (packTag_lt _ _)] at hlt
        rw [memtableKeyCompare_entry_lookup _ _ _ _ _ _ ho'OK.2.2.1 hul,
          internalCompare_ik_lt _ _ _ _ (packTag_lt _ _)
            (packTag_lt _ _)] at hge
        rcases hlt with hlt | ⟨hke, htlt⟩
        · rw [hku] at hlt
          exact hge (Or.inl hlt)
        · have hkeq : o'.ukey = ukey := hke.trans hku
          have := hmax o' ho' hkeq
          omega
    rw [ho'eq] at hkj
    rw [memtable_get_eval (memtableOf ops) ukey lseq j op.seq op.vtype
      op.ukey op.value hfge hkj hopOK.2.2.1 hopOK.2.2.2.1]
    rw [hku, byteCompare_self, if_pos rfl, packTag_mod256]
    have hv2 := hopOK.2.1
    rcases (show op.vtype = 0 ∨ op.vtype = 1 from by omega) with h0 | h1
    · rw [h0]
      simp [kTypeValue, kTypeDeletion]
    · rw [h1]
      simp [kTypeValue, kTypeDeletion]

theorem memtable_get_absent (ops : List MemOp) (ukey : List Nat)
    (lseq : Nat) (hb : ∀ op ∈ ops, MemOpOK op)
    (hdist : (ops.map fun op => (op.ukey, op.seq, op.vtype)).Pairwise
      (fun x y => x ≠ y))
    (hlseq : lseq < 2 ^ 56) (hul : ukey.length + 8 < 2 ^ 32)
    (habs : ∀ op' ∈ ops, op'.ukey = ukey → lseq < op'.seq) :
    MemTable.Get (memtableOf ops) ukey lseq = GetResult.NotPresent := by
  obtain ⟨chains, wf, hkeys⟩ := memtableOf_wf ops hb hdist
  have hka := memtableOf_keyAt ops hkeys
  have hstored : ∀ i e, keyAt? (memtableOf ops) i = some e →
      ∃ o ∈ ops, e = o.entry := by
    intro i e he
    rw [hka i] at he
    obtain ⟨o, ho, hoe⟩ := List.mem_map.mp (List.get?_mem he)
    exact ⟨o, ho, hoe.symm⟩
  rcases fge_min memtableKeyCompare memtableKeyCompare_cmpok
      (memtableOf ops) chains wf (memtableLookupKey ukey lseq) with
    ⟨hnone, _⟩ | ⟨j, kj, hfge, hkj, hge, _⟩
  · exact memtable_get_none _ _ _ hnone
  · obtain ⟨o', ho', rfl⟩ := hstored j kj hkj
    have ho'OK := hb o' ho'
    have hne : ¬byteCompare o'.ukey ukey = 0 := by
      intro h0
      have hkeq : o'.ukey = ukey := (byteCompare_eq_zero _ _).mp h0
      have hs := habs o' ho' hkeq
      unfold MemOp.entry at hge
      rw [memtableKeyCompare_entry_lookup _ _ _ _ _ _ ho'OK.2.2.1 hul,
        internalCompare_ik_lt _ _ _ _ (packTag_lt _ _)
          (packTag_lt _ _)] at hge
      refine hge (Or.inr ⟨hkeq, ?_⟩)
      rw [packTag_eq _ _ hlseq, packTag_eq _ _ ho'OK.1]
      have hk1 : kTypeValue = 1 := rfl
      rw [hk1]
      omega
    rw [memtable_get_eval (memtableOf ops) ukey lseq j o'.seq o'.vtype
      o'.ukey o'.value hfge hkj ho'OK.2.2.1 ho'OK.2.2.2.1, if_neg hne]

/-- C8: after Add(s1, put, k, v) with no later entry for k, Get at lookup
sequence at least s1 returns Found v; after a further Add(s2, del, k, _)
newer than every other entry for k, Get at lookup sequence at least s2
returns Deleted; and Get for a user key all of whose entries are above the
lookup sequence returns NotPresent. Stated over any sequence of Add calls
with in-range sequences, types, lengths and heights and pairwise-distinct
(user key, sequence, type) triples. -/
theorem memtable_add_get (ops : List MemOp) (ukey : List Nat) (lseq : Nat)
    (hb : ∀ op ∈ ops, MemOpOK op)
    (hdist : (ops.map fun op => (op.ukey, op.seq, op.vtype)).Pairwise
      (fun x y => x ≠ y))
    (hlseq : lseq < 2 ^ 56) (hul : ukey.length + 8 < 2 ^ 32) :
    (∀ op ∈ ops, op.ukey = ukey → op.vtype = kTypeValue → op.seq ≤ lseq →
      (∀ op' ∈ ops, op'.ukey = ukey → op'.seq ≤ op.seq) →
      MemTable.Get (memtableOf ops) ukey lseq
        = GetResult.Found op.value) ∧
    (∀ op ∈ ops, op.ukey = ukey → op.vtype = kTypeDeletion →
      op.seq ≤ lseq →
      (∀ op' ∈ ops, op'.ukey = ukey → op'.seq < op.seq ∨
        (op'.seq = op.seq ∧ op'.vtype = kTypeDeletion)) →
      MemTable.Get (memtableOf ops) ukey lseq = GetResult.Deleted) ∧
    ((∀ op' ∈ ops, op'.ukey = ukey → lseq < op'.seq) →
      MemTable.Get (memtableOf ops) ukey lseq
        = GetResult.NotPresent) := by
  have hk1 : kTypeValue = 1 := rfl
  refine ⟨?_, ?_, ?_⟩
  · intro op hop hku hvt hle hnewest
    rw [memtable_get_newest ops ukey lseq hb hdist hlseq hul op hop hku ?_
      hle]
    · rw [if_pos hvt]
    · intro op' hop' hku'
      have h1 := hnewest op' hop' hku'
      have hOK := hb op hop
      have hOK' := hb op' hop'
      rw [packTag_eq _ _ hOK'.1, packTag_eq _ _ hOK.1, hvt, hk1]
      have := hOK'.2.1
      omega
  · intro op hop hku hvt hle hnewest
    rw [memtable_get_newest ops ukey lseq hb hdist hlseq hul op hop hku ?_
      hle]
    · rw [if_neg (by
        rw [hvt]
        decide)]
    · intro op' hop' hku'
      rcases hnewest op' hop' hku' with hlt | ⟨hseq, htype⟩
      · have hOK := hb op hop
        have hOK' := hb op' hop'
        rw [packTag_eq _ _ hOK'.1, packTag_eq _ _ hOK.1]
        have := hOK'.2.1
        omega
      · rw [hseq, htype, hvt]
  · exact memtable_get_absent ops ukey lseq hb hdist hlseq hul

/-- Witness: the spec's delete-shadow example — add(5, put, "k", "v1"),
add(6, del, "k", ""), then get("k") at sequence 6 reports the deletion. -/
theorem memtable_add_get_witness :
    MemTable.Get (memtableOf c8ops) [107] 6 = GetResult.Deleted :=
  (memtable_add_get c8ops [107] 6 (by decide) (by decide) (by decide)
      (by decide)).2.1
    ⟨6, kTypeDeletion, [107], [], 1⟩ (by decide) rfl rfl (by decide)
    (by decide)

end Leveldb
